import Mathlib

/-!
# Colormap merging of gifsicle (`src/merge.c`)

A shallow embedding of `merge.c`: the usage analysis `mark_used_colors`, the
exact colour search `find_color_index`, the palette merger
`merge_colormap_if_possible`, and the per-frame driver `merge_image`, followed
by theorems about them.

Modelling conventions.
* A C array is a total function from indices to values (`Nat → α`); a store
  `a[i] = v` is `store a i v`.  The allocated capacity of an array is not
  modelled.
* `int` counters that never become negative in the code are `Nat`; `int`
  values that use `-1` as a sentinel (`mapto`, `found_transparent`,
  `transparent`) are `Int`.
* A `byte` read from pixel data is the stored value modulo 256
  (`Gif_Image.pixelAt`); a store into a `byte` array truncates modulo 256.
* `assert` failures, `fatal_error` and the dereference of a null colormap
  pointer are results of type `Failure`.
* The diagnostic printed by `warning` and its one-shot flag
  `warn_local_colormaps` carry no data used by the merge and are not modelled.
* Distinct pointers are assumed not to alias (the destination shared palette
  is not the governing source palette).
-/

set_option autoImplicit false

namespace Gifsicle

/-! ## Data model (declared in `gif.h`, which is not part of the source tree) -/

/-- Modelled from the spec: the record `Gif_Color` declared in the missing
header `gif.h`: an RGB triple plus the two merge-scratch fields `haspixel`
(usage: 0 unused, 1 used, 2 dedicated-transparent) and `pixel` (the mapped
slot, 256 meaning unset). -/
structure Gif_Color where
  haspixel : Nat
  red : Nat
  green : Nat
  blue : Nat
  pixel : Nat
deriving DecidableEq, Repr

/-- Modelled from the spec: the record `Gif_Colormap` declared in the missing
header `gif.h`: the count `ncol` and the entry array `col`. -/
structure Gif_Colormap where
  ncol : Nat
  col : Nat → Gif_Color

/-- Modelled from the spec: the record `Gif_Comment` of the missing header: an
ordered sequence of text fragments (`str[i]` with its length `len[i]`). -/
structure Gif_Comment where
  str : List (List Nat)
deriving DecidableEq, Repr

/-- Modelled from the spec: the record `Gif_Image` declared in the missing
header `gif.h`.  Row `j`, column `i` of the pixel buffer is `img j i`. -/
structure Gif_Image where
  img : Nat → Nat → Nat
  width : Nat
  height : Nat
  transparent : Int
  «local» : Option Gif_Colormap
  delay : Nat
  disposal : Nat
  left : Nat
  top : Nat
  interlace : Nat
  identifier : Option (List Nat)
  comment : Option Gif_Comment

/-- Modelled from the spec: the record `Gif_Stream` declared in the missing
header `gif.h`: shared palette, frames, loop count, comment. -/
structure Gif_Stream where
  global : Option Gif_Colormap
  images : List Gif_Image
  loopcount : Int
  comment : Option Gif_Comment

/-- The ways a call can end without returning. -/
inductive Failure where
  | fatal_error
  | assertion_failed
  | null_dereference
deriving DecidableEq, Repr

/-- The array store `a[i] = v`. -/
def store {α : Type} (a : Nat → α) (i : Nat) (v : α) : Nat → α :=
  fun j => if j = i then v else a j

/-- The byte at row `j`, column `i` of the pixel buffer. -/
def Gif_Image.pixelAt (gfi : Gif_Image) (j i : Nat) : Nat :=
  gfi.img j i % 256

/-- Modelled from the spec: the macro `GIF_COLOREQ` of the missing header:
bit-exact equality of red, green and blue. -/
def GIF_COLOREQ (a b : Gif_Color) : Bool :=
  a.red == b.red && a.green == b.green && a.blue == b.blue

/-! ## `unmark_colors`, `unmark_colors_2` -/

/-- `unmark_colors`: every entry below `ncol` gets `haspixel = 0`; an absent
colormap is left alone. -/
def unmark_colors (gfcm : Option Gif_Colormap) : Option Gif_Colormap :=
  match gfcm with
  | none => none
  | some cm =>
    some { cm with col := fun i => if i < cm.ncol then { cm.col i with haspixel := 0 } else cm.col i }

/-- `unmark_colors_2`: every entry below `ncol` gets `pixel = 256`. -/
def unmark_colors_2 (gfcm : Gif_Colormap) : Gif_Colormap :=
  { gfcm with col := fun i => if i < gfcm.ncol then { gfcm.col i with pixel := 256 } else gfcm.col i }

/-! ## `mark_used_colors` -/

/-- The scanning state of `mark_used_colors`: the seen-set `have` and the
counter `total`. -/
structure Seen where
  have_ : Nat → Nat
  total : Nat

/-- The inner loop of `mark_used_colors` over one row: `n` columns remain,
starting at column `i`. -/
def mark_row (data : Nat → Nat) : Nat → Nat → Seen → Seen
  | 0, _, s => s
  | n + 1, i, s =>
    if s.have_ (data i % 256) = 0 then
      mark_row data n (i + 1) { have_ := store s.have_ (data i % 256) 1, total := s.total + 1 }
    else
      mark_row data n (i + 1) s

/-- The outer loop of `mark_used_colors`: `n` rows remain, starting at row `j`;
the loop also stops once `total` reaches 256. -/
def mark_rows (gfi : Gif_Image) : Nat → Nat → Seen → Seen
  | 0, _, s => s
  | n + 1, j, s =>
    if s.total < 256 then
      mark_rows gfi n (j + 1) (mark_row (gfi.img j) gfi.width 0 s)
    else s

/-- The seen-set after the two initialising loops and the scan.  The array
`have` has 256 cells, so the code is defined for `ncol ≤ 256` only; there
`256 - ncol` is the value of the `int` expression. -/
def mark_scan (gfi : Gif_Image) (ncol : Nat) : Seen :=
  mark_rows gfi gfi.height 0
    { have_ := fun i => if i < ncol then 0 else 1, total := 256 - ncol }

/-- `mark_used_colors`: returns the image (its transparent index possibly
cleared) and the colormap with the `haspixel` marks. -/
def mark_used_colors (gfi : Gif_Image) (gfcm : Gif_Colormap) : Gif_Image × Gif_Colormap :=
  let ncol := gfcm.ncol
  let s := mark_scan gfi ncol
  let col : Nat → Gif_Color :=
    fun i => if i < ncol then { gfcm.col i with haspixel := s.have_ i } else gfcm.col i
  if 0 ≤ gfi.transparent ∧ gfi.transparent < (ncol : Int) ∧ s.have_ gfi.transparent.toNat ≠ 0 then
    (gfi, { gfcm with col := store col gfi.transparent.toNat
                                { col gfi.transparent.toNat with haspixel := 2 } })
  else
    ({ gfi with transparent := -1 }, { gfcm with col := col })

/-! ## `find_color_index` -/

/-- The loop of `find_color_index`: `n` indices remain, starting at `index`. -/
def find_color_index_from (c : Nat → Gif_Color) (color : Gif_Color) : Nat → Nat → Int
  | 0, _ => -1
  | n + 1, index =>
    if GIF_COLOREQ (c index) color then (index : Int)
    else find_color_index_from c color n (index + 1)

/-- `find_color_index`: the first index below `nc` whose entry is RGB-equal to
`color`, or `-1`. -/
def find_color_index (c : Nat → Gif_Color) (nc : Nat) (color : Gif_Color) : Int :=
  find_color_index_from c color nc 0

/-! ## `merge_colormap_if_possible` -/

/-- The variables of `merge_colormap_if_possible` that change in its loop. -/
structure MergeState where
  destcol : Nat → Gif_Color
  ndestcol : Nat
  srccol : Nat → Gif_Color
  trivial_map : Bool

/-- How one pass of the loop body ends. -/
inductive Outcome where
  | next (s : MergeState)
  | return0 (s : MergeState)
  | assert_failed

/-- The search `for (x = 0; x < ndestcol; x++) if (destcol[x].haspixel == 2)`
for a pure-transparent slot: `n` indices remain, starting at `x`. -/
def find_pure_transparent (destcol : Nat → Gif_Color) : Nat → Nat → Int
  | 0, _ => -1
  | n + 1, x =>
    if (destcol x).haspixel = 2 then (x : Int)
    else find_pure_transparent destcol n (x + 1)

/-- Lines 101-117: the slot `mapto` chosen for the used source entry `c`,
with the destination as changed by the choice. -/
def resolve_mapto (s : MergeState) (c : Gif_Color) : MergeState × Int :=
  let mapto0 : Int := if c.pixel ≥ s.ndestcol then -1 else (c.pixel : Int)
  let mapto1 : Int :=
    if mapto0 = -1 then find_color_index s.destcol s.ndestcol c else mapto0
  let s1 : MergeState × Int :=
    if mapto1 = -1 ∧ s.ndestcol < 256 then
      ({ s with destcol := store s.destcol s.ndestcol c, ndestcol := s.ndestcol + 1 },
        (s.ndestcol : Int))
    else (s, mapto1)
  if s1.2 = -1 then
    let x := find_pure_transparent s1.1.destcol s1.1.ndestcol 0
    if x = -1 then s1
    else ({ s1.1 with destcol := store s1.1.destcol x.toNat c }, x)
  else s1

/-- The body of the loop of `merge_colormap_if_possible` at source index `i`. -/
def merge_colormap_body (i : Nat) (s : MergeState) : Outcome :=
  let c := s.srccol i
  if c.haspixel = 1 then
    let r := resolve_mapto s c
    if r.2 = -1 then .return0 r.1
    else if ¬ (0 ≤ r.2 ∧ r.2 < (r.1.ndestcol : Int)) then .assert_failed
    else
      .next { destcol := store r.1.destcol r.2.toNat { r.1.destcol r.2.toNat with haspixel := 1 }
              ndestcol := r.1.ndestcol
              srccol := store r.1.srccol i { c with pixel := r.2.toNat }
              trivial_map := if r.2 ≠ (i : Int) then false else s.trivial_map }
  else if c.haspixel = 2 then
    if s.trivial_map = true ∧ i = s.ndestcol then
      .next { s with destcol := store s.destcol s.ndestcol c, ndestcol := s.ndestcol + 1 }
    else .next s
  else .next s

/-- The loop `for (i = 0; i < src->ncol; i++)`: `n` passes remain, starting at
index `i`. -/
def merge_colormap_loop : Nat → Nat → MergeState → Outcome
  | 0, _, s => .next s
  | n + 1, i, s =>
    match merge_colormap_body i s with
    | .next s' => merge_colormap_loop n (i + 1) s'
    | .return0 s' => .return0 s'
    | .assert_failed => .assert_failed

/-- What `merge_colormap_if_possible` leaves behind: its return value and the
two colormaps. -/
structure MergeResult where
  ret : Nat
  dest : Gif_Colormap
  src : Gif_Colormap

/-- `merge_colormap_if_possible`. -/
def merge_colormap_if_possible (dest src : Gif_Colormap) : Except Failure MergeResult :=
  match merge_colormap_loop src.ncol 0
      { destcol := dest.col, ndestcol := dest.ncol, srccol := src.col, trivial_map := true } with
  | .next s =>
    .ok { ret := 1, dest := { ncol := s.ndestcol, col := s.destcol },
          src := { src with col := s.srccol } }
  | .return0 s =>
    .ok { ret := 0, dest := { dest with col := s.destcol }, src := { src with col := s.srccol } }
  | .assert_failed => .error .assertion_failed

/-! ## `merge_comments`, `merge_stream` -/

/-- Modelled from the spec: `Gif_NewComment` of the missing library: a comment
with no fragments. -/
def Gif_NewComment : Gif_Comment := { str := [] }

/-- Modelled from the spec: `Gif_AddComment` of the missing library: the
fragment is appended after the fragments already there. -/
def Gif_AddComment (gfcom : Gif_Comment) (x : List Nat) : Gif_Comment :=
  { str := gfcom.str ++ [x] }

/-- `merge_comments`: the fragments of `srcc` are added to `destc` in order. -/
def merge_comments (destc srcc : Gif_Comment) : Gif_Comment :=
  srcc.str.foldl Gif_AddComment destc

/-- `merge_stream`: returns the destination and the source stream as the call
leaves them. -/
def merge_stream (dest src : Gif_Stream) (no_comments : Bool) :
    Except Failure (Gif_Stream × Gif_Stream) :=
  match dest.global with
  | none => .error .assertion_failed
  | some _ =>
    let src1 : Gif_Stream :=
      match src.global with
      | some g => { src with global := some (unmark_colors_2 g) }
      | none => src
    let dest1 : Gif_Stream :=
      if dest.loopcount < 0 then { dest with loopcount := src.loopcount } else dest
    let dest2 : Gif_Stream :=
      match src.comment with
      | some srcc =>
        if no_comments then dest1
        else
          let destc : Gif_Comment :=
            match dest1.comment with
            | some d => d
            | none => Gif_NewComment
          { dest1 with comment := some (merge_comments destc srcc) }
      | none => dest1
    .ok (dest2, src1)

/-! ## `merge_image` -/

/-- Modelled from the spec: `Gif_NewFullColormap(count, capacity)` of the
missing library: a fresh colormap with `count` entries; the source leaves the
entries of the fresh array unspecified, here they are zero. -/
def Gif_NewFullColormap (count _capacity : Nat) : Gif_Colormap :=
  { ncol := count, col := fun _ => ⟨0, 0, 0, 0, 0⟩ }

/-- Modelled from the spec: `Gif_AddImage` of the missing library: the frame is
appended to the frame sequence of the stream. -/
def Gif_AddImage (gfs : Gif_Stream) (gfi : Gif_Image) : Gif_Stream :=
  { gfs with images := gfs.images ++ [gfi] }

/-- Modelled from the spec: `Gif_NewImage` of the missing library: a frame with
no pixels, no transparent index (`-1`), no private palette and zeroed
metadata. -/
def Gif_NewImage : Gif_Image :=
  { img := fun _ _ => 0, width := 0, height := 0, transparent := -1, «local» := none,
    delay := 0, disposal := 0, left := 0, top := 0, interlace := 0,
    identifier := none, comment := none }

/-- The variables of the loop that fills the fallback local colormap. -/
structure LocalState where
  imagecol : Nat → Gif_Color
  localcol : Nat → Gif_Color
  ncol : Nat

/-- Lines 208-212: `n` source entries remain, starting at index `i`. -/
def local_colormap_loop : Nat → Nat → LocalState → LocalState
  | 0, _, s => s
  | n + 1, i, s =>
    if (s.imagecol i).haspixel ≠ 0 then
      local_colormap_loop n (i + 1)
        { imagecol := store s.imagecol i { s.imagecol i with pixel := s.ncol }
          localcol := store s.localcol s.ncol { s.imagecol i with pixel := s.ncol }
          ncol := s.ncol + 1 }
    else local_colormap_loop n (i + 1) s

/-- Lines 204-214: after the merge attempt, the governing source colormap and
the local colormap (present exactly when the attempt returned 0). -/
def local_colormap (mr : MergeResult) : Gif_Colormap × Option Gif_Colormap :=
  if mr.ret = 0 then
    let s := local_colormap_loop mr.src.ncol 0
      { imagecol := mr.src.col, localcol := (Gif_NewFullColormap 0 256).col, ncol := 0 }
    ({ mr.src with col := s.imagecol }, some { ncol := s.ncol, col := s.localcol })
  else (mr.src, none)

/-- The colormap `destcm` points to after line 214: the local colormap if one
was made, else the destination shared colormap. -/
def dest_colormap (mr : MergeResult) : Gif_Colormap :=
  match (local_colormap mr).2 with
  | some localcm => localcm
  | none => mr.dest

/-- The variables of the loop that creates `map`. -/
structure MapState where
  map : Nat → Nat
  used : Nat → Nat
  trivial_map : Bool

/-- Lines 219-224: `n` source entries remain, starting at index `i`. -/
def map_loop (imagecol : Nat → Gif_Color) : Nat → Nat → MapState → MapState
  | 0, _, s => s
  | n + 1, i, s =>
    if (imagecol i).haspixel = 1 then
      map_loop imagecol n (i + 1)
        { map := store s.map i ((imagecol i).pixel % 256)
          trivial_map := if (imagecol i).pixel % 256 ≠ i then false else s.trivial_map
          used := store s.used ((imagecol i).pixel % 256) 1 }
    else map_loop imagecol n (i + 1) s

/-- Lines 217-224: `map`, `used` and `trivial_map` before the transparent index
is decided. -/
def create_map (imagecm : Gif_Colormap) : MapState :=
  map_loop imagecm.col imagecm.ncol 0
    { map := fun _ => 0, used := fun _ => 0, trivial_map := true }

/-- Lines 234-236: the downward scan `for (i = ncol - 1; i >= 0; i--)
if (!used[i]) found_transparent = i`; `n` indices remain, the next is `n - 1`. -/
def scan_unused (used : Nat → Nat) : Nat → Int → Int
  | 0, found => found
  | n + 1, found => scan_unused used n (if used n = 0 then (n : Int) else found)

/-- Lines 228-236: `found_transparent` before the test `found_transparent < 0`. -/
def found_transparent (t : Int) (destcm : Gif_Colormap) (m : MapState) : Int :=
  if m.trivial_map = true ∧ m.used t.toNat = 0 then t
  else scan_unused m.used destcm.ncol (-1)

/-- Lines 227-248: the transparent index is decided; returns the colormap
`destcm` points to and the final `map` and `trivial_map`. -/
def decide_transparent (transparent : Int) (imagecol : Nat → Gif_Color)
    (destcm : Gif_Colormap) (m : MapState) : Except Failure (Gif_Colormap × MapState) :=
  if transparent ≥ 0 then
    let found := found_transparent transparent destcm m
    if found < 0 then
      if (imagecol transparent.toNat).haspixel ≠ 2 then .error .assertion_failed
      else
        .ok ({ ncol := destcm.ncol + 1
               col := store destcm.col destcm.ncol (imagecol transparent.toNat) },
             { m with map := store m.map transparent.toNat (destcm.ncol % 256)
                      trivial_map :=
                        if transparent ≠ (destcm.ncol : Int) then false else m.trivial_map })
    else
      .ok (destcm,
           { m with map := store m.map transparent.toNat (found.toNat % 256)
                    trivial_map := if transparent ≠ found then false else m.trivial_map })
  else .ok (destcm, m)

/-- Lines 252-288: the new image.  `Gif_CopyString` copies the identifier,
`Gif_CreateUncompressedImage` gives the image a buffer of `height` rows of
`width` bytes, which the `memcpy` of the rows or the remap through `map` then
fills. -/
def new_image (srci : Gif_Image) (localcm : Option Gif_Colormap) (m : MapState) : Gif_Image :=
  { Gif_NewImage with
    identifier := srci.identifier
    transparent :=
      if srci.transparent > -1 then (m.map srci.transparent.toNat : Int)
      else Gif_NewImage.transparent
    delay := srci.delay
    disposal := srci.disposal
    left := srci.left
    top := srci.top
    interlace := srci.interlace
    width := srci.width
    height := srci.height
    «local» := localcm
    comment :=
      match srci.comment with
      | some c => some (merge_comments Gif_NewComment c)
      | none => Gif_NewImage.comment
    img := fun j i =>
      if j < srci.height ∧ i < srci.width then
        if m.trivial_map = true then srci.pixelAt j i else m.map (srci.pixelAt j i)
      else 0 }

/-- What `merge_image` leaves behind: both streams, the source image, the
returned image `desti`, and the final values of the locals `map` and
`trivial_map`. -/
structure ImageResult where
  dest : Gif_Stream
  src : Gif_Stream
  srci : Gif_Image
  desti : Gif_Image
  map : Nat → Nat
  trivial_map : Bool

/-- The body of `merge_image` once the two colormaps are at hand: `destglobal`
is `dest->global`, `imagecm` the governing source colormap.  Returns the
destination shared colormap, the governing source colormap, the source image,
the new image, and the final `map` and `trivial_map`. -/
def merge_image_colormaps (destglobal imagecm : Gif_Colormap) (srci : Gif_Image) :
    Except Failure (Gif_Colormap × Gif_Colormap × Gif_Image × Gif_Image × MapState) :=
  let marked := mark_used_colors srci imagecm
  match merge_colormap_if_possible destglobal marked.2 with
  | .error e => .error e
  | .ok mr =>
    let lc := local_colormap mr
    match decide_transparent marked.1.transparent lc.1.col (dest_colormap mr)
        (create_map lc.1) with
    | .error e => .error e
    | .ok (destcm1, m) =>
      if ¬ destcm1.ncol ≤ 256 then .error .assertion_failed
      else
        let localcm1 : Option Gif_Colormap :=
          match lc.2 with
          | some _ => some destcm1
          | none => none
        let destglobal1 : Gif_Colormap :=
          match lc.2 with
          | some _ => mr.dest
          | none => destcm1
        .ok (destglobal1, lc.1, marked.1, new_image marked.1 localcm1 m, m)

/-- Lines 195-196, `imagecm = islocal ? srci->local : src->global`: the
governing colormap of a frame is its private colormap if present, else the
shared colormap of its stream. -/
def governing (src : Gif_Stream) (srci : Gif_Image) : Option Gif_Colormap :=
  match srci.«local» with
  | some l => some l
  | none => src.global

/-- `merge_image`. -/
def merge_image (dest src : Gif_Stream) (srci : Gif_Image) : Except Failure ImageResult :=
  match governing src srci with
  | none => .error .fatal_error
  | some imagecm =>
    match dest.global with
    | none => .error .null_dereference
    | some destglobal =>
      match merge_image_colormaps destglobal imagecm srci with
      | .error e => .error e
      | .ok (destglobal1, imagecm1, srci1, desti, m) =>
        .ok { dest := Gif_AddImage { dest with global := some destglobal1 } desti
              src := match srci.«local» with
                     | some _ => src
                     | none => { src with global := some imagecm1 }
              srci := match srci.«local» with
                      | some _ => { srci1 with «local» := some imagecm1 }
                      | none => srci1
              desti := desti
              map := m.map
              trivial_map := m.trivial_map }

/-! ## Vocabulary of the statements -/

/-- Two colours have the same red, green and blue. -/
def sameRGB (a b : Gif_Color) : Prop :=
  a.red = b.red ∧ a.green = b.green ∧ a.blue = b.blue

instance (a b : Gif_Color) : Decidable (sameRGB a b) := by
  unfold sameRGB; infer_instance

/-- The byte `v` occurs somewhere in the pixel buffer of the frame. -/
def occurs (gfi : Gif_Image) (v : Nat) : Prop :=
  ∃ j, j < gfi.height ∧ ∃ i, i < gfi.width ∧ gfi.pixelAt j i = v

instance (gfi : Gif_Image) (v : Nat) : Decidable (occurs gfi v) := by
  unfold occurs; infer_instance

/-- Every byte of the pixel buffer is an index below `ncol`. -/
def validPixels (gfi : Gif_Image) (ncol : Nat) : Prop :=
  ∀ j, j < gfi.height → ∀ i, i < gfi.width → gfi.pixelAt j i < ncol

instance (gfi : Gif_Image) (ncol : Nat) : Decidable (validPixels gfi ncol) := by
  unfold validPixels; infer_instance

/-- The slot `m` was chosen for the used source entry `c` in state `s`, leaving
the destination array `d` with `nd` entries: by the cached slot, by an exact
match, by appending, or by taking over a pure-transparent slot. -/
def Resolved (s : MergeState) (c : Gif_Color) (d : Nat → Gif_Color) (nd m : Nat) : Prop :=
  (c.pixel < s.ndestcol ∧ m = c.pixel ∧ d = s.destcol ∧ nd = s.ndestcol) ∨
  (s.ndestcol ≤ c.pixel ∧ m < s.ndestcol ∧ sameRGB (s.destcol m) c ∧ d = s.destcol ∧
    nd = s.ndestcol) ∨
  (s.ndestcol ≤ c.pixel ∧ s.ndestcol < 256 ∧ (∀ k, k < s.ndestcol → ¬ sameRGB (s.destcol k) c) ∧
    m = s.ndestcol ∧ d = store s.destcol s.ndestcol c ∧ nd = s.ndestcol + 1) ∨
  (s.ndestcol ≤ c.pixel ∧ 256 ≤ s.ndestcol ∧ (∀ k, k < s.ndestcol → ¬ sameRGB (s.destcol k) c) ∧
    m < s.ndestcol ∧ (s.destcol m).haspixel = 2 ∧ d = store s.destcol m c ∧ nd = s.ndestcol)

/-- The state after a pass that mapped source entry `i` to slot `m`. -/
def mapped_state (s : MergeState) (i : Nat) (d : Nat → Gif_Color) (nd m : Nat) : MergeState :=
  { destcol := store d m { d m with haspixel := 1 }
    ndestcol := nd
    srccol := store s.srccol i { s.srccol i with pixel := m }
    trivial_map := if m ≠ i then false else s.trivial_map }

/-- What every pass of the merge loop preserves, relative to the state `s0`
on entry, with `N` the source count and `i` the next source index. -/
structure Basic (s0 : MergeState) (N i : Nat) (s : MergeState) : Prop where
  hp : ∀ k, (s.srccol k).haspixel = (s0.srccol k).haspixel
  rgb : ∀ k, sameRGB (s.srccol k) (s0.srccol k)
  rest : ∀ k, i ≤ k → s.srccol k = s0.srccol k
  other : ∀ k, (s0.srccol k).haspixel ≠ 1 → s.srccol k = s0.srccol k
  mono : s0.ndestcol ≤ s.ndestcol
  cap : N ≤ 256 → s0.ndestcol ≤ 256 → s.ndestcol ≤ 256
  slot : ∀ k, k < i → (s0.srccol k).haspixel = 1 → (s.srccol k).pixel < s.ndestcol
  keep : ∀ k, k < s0.ndestcol → (s0.destcol k).haspixel ≠ 2 →
    sameRGB (s.destcol k) (s0.destcol k) ∧
      ((s.destcol k).haspixel = (s0.destcol k).haspixel ∨ (s.destcol k).haspixel = 1)

/-- The loop variables of `merge_colormap_if_possible` on entry. -/
def merge_entry (dest src : Gif_Colormap) : MergeState :=
  { destcol := dest.col, ndestcol := dest.ncol, srccol := src.col, trivial_map := true }

/-- The facts about a call of `merge_colormap_if_possible` with result `r`
that hold for all inputs. -/
structure MergeFacts (dest src : Gif_Colormap) (r : MergeResult) : Prop where
  ret : r.ret = 0 ∨ r.ret = 1
  src_ncol : r.src.ncol = src.ncol
  src_hp : ∀ k, (r.src.col k).haspixel = (src.col k).haspixel
  src_rgb : ∀ k, sameRGB (r.src.col k) (src.col k)
  src_other : ∀ k, (src.col k).haspixel ≠ 1 → r.src.col k = src.col k
  src_beyond : ∀ k, src.ncol ≤ k → r.src.col k = src.col k
  fail_ncol : r.ret = 0 → r.dest.ncol = dest.ncol
  mono : dest.ncol ≤ r.dest.ncol
  cap : src.ncol ≤ 256 → dest.ncol ≤ 256 → r.dest.ncol ≤ 256
  slot : r.ret = 1 → ∀ k, k < src.ncol → (src.col k).haspixel = 1 →
    (r.src.col k).pixel < r.dest.ncol
  keep : ∀ k, k < dest.ncol → (dest.col k).haspixel ≠ 2 →
    sameRGB (r.dest.col k) (dest.col k) ∧
      ((r.dest.col k).haspixel = (dest.col k).haspixel ∨ (r.dest.col k).haspixel = 1)

/-- The number of bytes marked in the seen-set. -/
def seenCount (hv : Nat → Nat) : Nat :=
  ((Finset.range 256).filter (fun k => hv k ≠ 0)).card

/-- The invariant of the scan of `mark_used_colors`: marks are 0 or 1 and
`total` counts them. -/
def SeenInv (s : Seen) : Prop :=
  (∀ k, s.have_ k ≤ 1) ∧ s.total = seenCount s.have_

/-- Byte `k` occurs in one of the rows `j ≤ j2 < j + n` of the frame. -/
def occursInRows (gfi : Gif_Image) (j n k : Nat) : Prop :=
  ∃ j2, j ≤ j2 ∧ j2 < j + n ∧ ∃ x, x < gfi.width ∧ gfi.pixelAt j2 x = k

/-- What `mark_used_colors` does to a frame `gfi` and a colormap `gfcm` of at
most 256 entries, `r` being what it returns. -/
structure MarkFacts (gfi : Gif_Image) (gfcm : Gif_Colormap) (r : Gif_Image × Gif_Colormap) :
    Prop where
  ncol : r.2.ncol = gfcm.ncol
  rgb : ∀ k, sameRGB (r.2.col k) (gfcm.col k)
  pixel : ∀ k, (r.2.col k).pixel = (gfcm.col k).pixel
  beyond : ∀ k, gfcm.ncol ≤ k → r.2.col k = gfcm.col k
  hp : ∀ k, k < gfcm.ncol → (r.2.col k).haspixel =
    if occurs gfi k then (if (k : Int) = gfi.transparent then 2 else 1) else 0
  image : r.1 = { gfi with transparent :=
    if 0 ≤ gfi.transparent ∧ gfi.transparent < (gfcm.ncol : Int) ∧ occurs gfi gfi.transparent.toNat
    then gfi.transparent else -1 }

/-- The invariant of the loop that fills the fallback local colormap, relative
to the source entries `c0` on entry, `i` being the next source index. -/
structure LocalInv (c0 : Nat → Gif_Color) (i : Nat) (s : LocalState) : Prop where
  hp : ∀ k, (s.imagecol k).haspixel = (c0 k).haspixel
  rgb : ∀ k, sameRGB (s.imagecol k) (c0 k)
  rest : ∀ k, i ≤ k → s.imagecol k = c0 k
  other : ∀ k, (c0 k).haspixel = 0 → s.imagecol k = c0 k
  le : s.ncol ≤ i
  slot : ∀ k, k < i → (c0 k).haspixel ≠ 0 →
    (s.imagecol k).pixel < s.ncol ∧ s.localcol (s.imagecol k).pixel = s.imagecol k
  mono : ∀ k k2, k < k2 → k2 < i → (c0 k).haspixel ≠ 0 → (c0 k2).haspixel ≠ 0 →
    (s.imagecol k).pixel < (s.imagecol k2).pixel
  onto : ∀ p, p < s.ncol → ∃ k, k < i ∧ (c0 k).haspixel ≠ 0 ∧ (s.imagecol k).pixel = p

/-- The facts about the palette resolution of `merge_image` (lines 203-214)
with marked governing colormap `cm1` and merge result `mr`. -/
structure ResolveFacts (cm1 : Gif_Colormap) (mr : MergeResult) : Prop where
  ncol : (local_colormap mr).1.ncol = cm1.ncol
  hp : ∀ k, ((local_colormap mr).1.col k).haspixel = (cm1.col k).haspixel
  rgb : ∀ k, sameRGB ((local_colormap mr).1.col k) (cm1.col k)
  slot : ∀ k, k < cm1.ncol → (cm1.col k).haspixel = 1 →
    ((local_colormap mr).1.col k).pixel < (dest_colormap mr).ncol
  cap : (dest_colormap mr).ncol ≤ 256
  is_local : mr.ret = 0 → (local_colormap mr).2 = some (dest_colormap mr)
  is_global : mr.ret = 1 → (local_colormap mr).2 = none ∧ dest_colormap mr = mr.dest ∧
    (local_colormap mr).1 = mr.src
  local_slot : mr.ret = 0 → ∀ k, k < cm1.ncol → (cm1.col k).haspixel ≠ 0 →
    ((local_colormap mr).1.col k).pixel < (dest_colormap mr).ncol ∧
    (dest_colormap mr).col ((local_colormap mr).1.col k).pixel = (local_colormap mr).1.col k
  local_mono : mr.ret = 0 → ∀ k k2, k < k2 → k2 < cm1.ncol → (cm1.col k).haspixel ≠ 0 →
    (cm1.col k2).haspixel ≠ 0 →
    ((local_colormap mr).1.col k).pixel < ((local_colormap mr).1.col k2).pixel
  local_onto : mr.ret = 0 → ∀ p, p < (dest_colormap mr).ncol →
    ∃ k, k < cm1.ncol ∧ (cm1.col k).haspixel ≠ 0 ∧ ((local_colormap mr).1.col k).pixel = p

/-- A returning call of `merge_image` on destination shared colormap
`destglobal` and governing source colormap `imagecm`, with its intermediate
values: `mr` is what `merge_colormap_if_possible` returned, `destcm1` the
colormap `destcm` points to at the end, `m` the final `map`, `used` and
`trivial_map`. -/
structure Run (dest src : Gif_Stream) (srci : Gif_Image) (destglobal imagecm : Gif_Colormap)
    (r : ImageResult) (mr : MergeResult) (destcm1 : Gif_Colormap) (m : MapState) : Prop where
  call : merge_image dest src srci = .ok r
  merge : merge_colormap_if_possible destglobal (mark_used_colors srci imagecm).2 = .ok mr
  mfacts : MergeFacts destglobal (mark_used_colors srci imagecm).2 mr
  transp : decide_transparent (mark_used_colors srci imagecm).1.transparent
    (local_colormap mr).1.col (dest_colormap mr) (create_map (local_colormap mr).1) =
      .ok (destcm1, m)
  cap : destcm1.ncol ≤ 256
  out : governing r.dest r.desti = some destcm1
  dest_global : r.dest.global = some (if mr.ret = 0 then mr.dest else destcm1)
  desti_local : r.desti.«local» = if mr.ret = 0 then some destcm1 else none
  desti : r.desti = new_image (mark_used_colors srci imagecm).1 r.desti.«local» m
  map : r.map = m.map
  trivial : r.trivial_map = m.trivial_map
  srci_transparent : r.srci.transparent = (mark_used_colors srci imagecm).1.transparent
  src_governing : governing r.src r.srci = some (local_colormap mr).1
  images : r.dest.images = dest.images ++ [r.desti]

/-- The final remap table `m` and the final colormap `destcm1` of a call of
`merge_image`, `cm1` being the governing source colormap after the analysis
and `t` the transparent index of the frame after the analysis. -/
structure FinalFacts (cm1 : Gif_Colormap) (t : Int) (mr : MergeResult) (destcm1 : Gif_Colormap)
    (m : MapState) : Prop where
  opaque_slot : ∀ k, k < cm1.ncol → (cm1.col k).haspixel = 1 →
    m.map k = ((local_colormap mr).1.col k).pixel ∧ m.map k < (dest_colormap mr).ncol
  grow : (dest_colormap mr).ncol ≤ destcm1.ncol
  same : ∀ p, p < (dest_colormap mr).ncol → destcm1.col p = (dest_colormap mr).col p
  triv : m.trivial_map = true → ∀ k, k < cm1.ncol → (cm1.col k).haspixel = 1 → m.map k = k
  triv_t : m.trivial_map = true → 0 ≤ t → m.map t.toNat = t.toNat
  ntriv_t : m.trivial_map = false → 0 ≤ t → m.map t.toNat < destcm1.ncol
  distinct : 0 ≤ t → ∀ k, k < cm1.ncol → (cm1.col k).haspixel = 1 → m.map k ≠ m.map t.toNat
  byte : ∀ k, m.map k < 256
  no_transparent : t < 0 → destcm1 = dest_colormap mr

/-- Some used opaque entry of `cm` (tag 1) is mapped to slot `p` by `map`. -/
def opaqueMapsTo (cm : Gif_Colormap) (map : Nat → Nat) (p : Nat) : Prop :=
  ∃ k, k < cm.ncol ∧ (cm.col k).haspixel = 1 ∧ map k = p

instance (cm : Gif_Colormap) (map : Nat → Nat) (p : Nat) : Decidable (opaqueMapsTo cm map p) := by
  unfold opaqueMapsTo; infer_instance

/-- The remap of the used opaque entries of `cm` is the identity. -/
def opaqueIdentity (cm : Gif_Colormap) (map : Nat → Nat) : Prop :=
  ∀ k, k < cm.ncol → (cm.col k).haspixel = 1 → map k = k

instance (cm : Gif_Colormap) (map : Nat → Nat) : Decidable (opaqueIdentity cm map) := by
  unfold opaqueIdentity; infer_instance

/-! ## Concrete inputs -/

/-- A source palette of three distinct colours, no slot cached. -/
def exPalette : Gif_Colormap :=
  { ncol := 3, col := fun i => ⟨0, 10 * i, 20, 30, 256⟩ }

/-- An empty destination palette. -/
def exEmpty : Gif_Colormap :=
  { ncol := 0, col := fun _ => ⟨0, 0, 0, 0, 0⟩ }

/-- A destination palette holding one colour that is not in `exPalette`. -/
def exOne : Gif_Colormap :=
  { ncol := 1, col := fun _ => ⟨0, 99, 99, 99, 0⟩ }

/-- A frame of one row `[0, 2]` with transparent index 2. -/
def exFrame : Gif_Image :=
  { Gif_NewImage with
    img := fun _ i => if i = 0 then 0 else 2, width := 2, height := 1, transparent := 2 }

/-- The frame `exFrame` declaring the transparent index 1, which its pixels
never use. -/
def exFrameUnused : Gif_Image :=
  { exFrame with transparent := 1 }

/-- A destination stream with the empty shared palette. -/
def exDest : Gif_Stream := ⟨some exEmpty, [], -1, none⟩

/-- A destination stream with the shared palette `exOne`. -/
def exDestOne : Gif_Stream := ⟨some exOne, [], -1, none⟩

/-- A source stream with the shared palette `exPalette`. -/
def exSrc : Gif_Stream := ⟨some exPalette, [], -1, none⟩

/-- The palette `exPalette` after an analysis: entry 0 used, entry 1 unused,
entry 2 dedicated-transparent. -/
def exUsed : Gif_Colormap :=
  { ncol := 3, col := fun i => ⟨if i = 0 then 1 else if i = 1 then 0 else 2, 10 * i, 20, 30, 256⟩ }

/-- A full destination palette of 256 distinct colours `(i, 0, 0)`, none
tagged, except slot 7, which is tagged dedicated-transparent. -/
def exFull : Gif_Colormap :=
  { ncol := 256, col := fun i => ⟨if i = 7 then 2 else 0, i, 0, 0, 0⟩ }

/-- A source palette of three used colours: `(5, 0, 0)`, which is in `exFull`,
and `(1, 1, 0)` and `(2, 1, 0)`, which are not. -/
def exThree : Gif_Colormap :=
  { ncol := 3, col := fun i => ⟨1, if i = 0 then 5 else i, if i = 0 then 0 else 1, 0, 256⟩ }

/-- A destination palette holding the one colour `(1, 2, 3)`. -/
def exSame : Gif_Colormap :=
  { ncol := 1, col := fun _ => ⟨0, 1, 2, 3, 0⟩ }

/-- A source palette whose entries all have the colour `(1, 2, 3)`: entry 0
unused, entry 1 dedicated-transparent, entry 2 used. -/
def exTransparentFirst : Gif_Colormap :=
  { ncol := 3, col := fun i => ⟨if i = 1 then 2 else if i = 2 then 1 else 0, 1, 2, 3, 256⟩ }

/-- A source palette of two used colours in a destination that already holds
both: `(1, 2, 3)` twice. -/
def exTwice : Gif_Colormap :=
  { ncol := 2, col := fun _ => ⟨1, 1, 2, 3, 256⟩ }

/-- No source entry tagged dedicated-transparent sits at index `n`. -/
def noTransparentAt (src : Gif_Colormap) (n : Nat) : Prop :=
  ∀ i, i < src.ncol → (src.col i).haspixel = 2 → i ≠ n

instance (src : Gif_Colormap) (n : Nat) : Decidable (noTransparentAt src n) := by
  unfold noTransparentAt; infer_instance

/-- A full destination palette of 256 distinct colours `(i, 0, 0)`, none of
them tagged. -/
def exFullOpaque : Gif_Colormap :=
  { ncol := 256, col := fun i => ⟨0, i, 0, 0, 0⟩ }

/-- A source shared palette of two colours: `(0, 1, 0)`, which is not in
`exFullOpaque`, and `(7, 0, 0)`, which is its entry 7. -/
def exPair : Gif_Colormap :=
  { ncol := 2, col := fun i => if i = 0 then ⟨0, 0, 1, 0, 256⟩ else ⟨0, 7, 0, 0, 256⟩ }

/-- A frame of one row `[0, 1]` without transparent index. -/
def exBoth : Gif_Image :=
  { Gif_NewImage with img := fun _ i => i, width := 2, height := 1 }

/-- A frame of one row `[1, 1]` without transparent index. -/
def exSecond : Gif_Image :=
  { Gif_NewImage with img := fun _ _ => 1, width := 2, height := 1 }

/-- A destination stream with the full shared palette `exFullOpaque`. -/
def exDestFull : Gif_Stream := ⟨some exFullOpaque, [], -1, none⟩

/-- A source stream with the shared palette `exPair` and the frames `exBoth`
and `exSecond`. -/
def exSrcPair : Gif_Stream := ⟨some exPair, [exBoth, exSecond], 0, none⟩

/-! ## Definitions that follow the words of the specification -/

/-- The usage of value `i` in a frame as the specification words it, with no
early stop: unused (0) when `i` occurs nowhere in the whole pixel buffer,
dedicated-transparent (2) when it occurs and is the declared transparent
index, used (1) when it occurs otherwise. -/
def usage_by_full_scan (gfi : Gif_Image) (i : Nat) : Nat :=
  if occurs gfi i then (if (i : Int) = gfi.transparent then 2 else 1) else 0

/-- The output buffer as the specification words the slow path: every source
byte remapped through the table. -/
def remap_through (map : Nat → Nat) (gfi : Gif_Image) (j i : Nat) : Nat :=
  map (gfi.pixelAt j i)

/-- A palette of one colour. -/
def exSingle : Gif_Colormap :=
  { ncol := 1, col := fun _ => ⟨0, 4, 5, 6, 256⟩ }

/-- A frame of two rows `[0]` and `[0]` with transparent index 0: after the
first row every entry of `exSingle` has been seen, so the scan stops before
the second row. -/
def exTwoRows : Gif_Image :=
  { Gif_NewImage with img := fun _ _ => 0, width := 1, height := 2, transparent := 0 }

/-- A source palette of one used colour `(0, 1, 0)`, which is not in
`exFullOpaque`, with no slot cached. -/
def exNewColour : Gif_Colormap :=
  { ncol := 1, col := fun _ => ⟨1, 0, 1, 0, 256⟩ }

/-- The number of indices below `n` that satisfy `p`. -/
def countBelow (p : Nat → Bool) : Nat → Nat
  | 0 => 0
  | n + 1 => countBelow p n + (if p n = true then 1 else 0)

/-- Entry `k` of the array is tagged other than unused (used or
dedicated-transparent). -/
def isMarked (c : Nat → Gif_Color) (k : Nat) : Bool :=
  (c k).haspixel != 0

/-- Entry `k` of the array is tagged used. -/
def isUsed (c : Nat → Gif_Color) (k : Nat) : Bool :=
  (c k).haspixel == 1

/-- Byte `k` occurs in the pixel buffer of the frame, as a Boolean. -/
def occursIn (gfi : Gif_Image) (k : Nat) : Bool :=
  decide (occurs gfi k)

/-! ## Basic lemmas -/

@[simp] theorem store_same {α : Type} (a : Nat → α) (i : Nat) (v : α) : store a i v i = v := by
  simp [store]

theorem store_other {α : Type} (a : Nat → α) (i j : Nat) (v : α) (h : j ≠ i) :
    store a i v j = a j := by
  simp [store, h]

theorem store_apply {α : Type} (a : Nat → α) (i j : Nat) (v : α) :
    store a i v j = if j = i then v else a j := rfl

theorem coloreq_iff (a b : Gif_Color) : GIF_COLOREQ a b = true ↔ sameRGB a b := by
  simp [GIF_COLOREQ, sameRGB, and_assoc]

theorem sameRGB_refl (a : Gif_Color) : sameRGB a a := ⟨rfl, rfl, rfl⟩

theorem sameRGB_symm {a b : Gif_Color} (h : sameRGB a b) : sameRGB b a :=
  ⟨h.1.symm, h.2.1.symm, h.2.2.symm⟩

theorem sameRGB_trans {a b c : Gif_Color} (h : sameRGB a b) (h2 : sameRGB b c) : sameRGB a c :=
  ⟨h.1.trans h2.1, h.2.1.trans h2.2.1, h.2.2.trans h2.2.2⟩

/-! ## The two linear searches -/

theorem find_color_index_from_spec (c : Nat → Gif_Color) (color : Gif_Color) :
    ∀ n start : Nat,
      (find_color_index_from c color n start = -1 ∧
          ∀ k, start ≤ k → k < start + n → ¬ sameRGB (c k) color) ∨
      (∃ k : Nat, find_color_index_from c color n start = (k : Int) ∧ start ≤ k ∧ k < start + n ∧
          sameRGB (c k) color ∧ ∀ k2, start ≤ k2 → k2 < k → ¬ sameRGB (c k2) color) := by
  intro n
  induction n with
  | zero =>
    intro start
    left
    refine ⟨rfl, ?_⟩
    intro k h1 h2
    omega
  | succ n ih =>
    intro start
    unfold find_color_index_from
    by_cases heq : GIF_COLOREQ (c start) color = true
    · right
      refine ⟨start, by simp [heq], le_refl _, by omega, (coloreq_iff _ _).1 heq, ?_⟩
      intro k2 h1 h2
      omega
    · have hne : ¬ sameRGB (c start) color := fun h => heq ((coloreq_iff _ _).2 h)
      simp only [heq]
      rcases ih (start + 1) with ⟨h1, h2⟩ | ⟨k, h1, h2, h3, h4, h5⟩
      · left
        refine ⟨by simpa using h1, ?_⟩
        intro k hk1 hk2
        by_cases hks : k = start
        · subst hks; exact hne
        · exact h2 k (by omega) (by omega)
      · right
        refine ⟨k, by simpa using h1, by omega, by omega, h4, ?_⟩
        intro k2 hk1 hk2
        by_cases hks : k2 = start
        · subst hks; exact hne
        · exact h5 k2 (by omega) hk2

theorem find_color_index_spec (c : Nat → Gif_Color) (nc : Nat) (color : Gif_Color) :
    (find_color_index c nc color = -1 ∧ ∀ k, k < nc → ¬ sameRGB (c k) color) ∨
    (∃ k : Nat, find_color_index c nc color = (k : Int) ∧ k < nc ∧
        sameRGB (c k) color ∧ ∀ k2, k2 < k → ¬ sameRGB (c k2) color) := by
  unfold find_color_index
  rcases find_color_index_from_spec c color nc 0 with ⟨h1, h2⟩ | ⟨k, h1, _, h3, h4, h5⟩
  · left
    exact ⟨h1, fun k hk => h2 k (Nat.zero_le _) (by omega)⟩
  · right
    exact ⟨k, h1, by omega, h4, fun k2 hk2 => h5 k2 (Nat.zero_le _) hk2⟩

theorem find_pure_transparent_spec (destcol : Nat → Gif_Color) :
    ∀ n start : Nat,
      (find_pure_transparent destcol n start = -1 ∧
          ∀ k, start ≤ k → k < start + n → (destcol k).haspixel ≠ 2) ∨
      (∃ k : Nat, find_pure_transparent destcol n start = (k : Int) ∧ start ≤ k ∧
          k < start + n ∧ (destcol k).haspixel = 2 ∧
          ∀ k2, start ≤ k2 → k2 < k → (destcol k2).haspixel ≠ 2) := by
  intro n
  induction n with
  | zero =>
    intro start
    left
    refine ⟨rfl, ?_⟩
    intro k h1 h2
    omega
  | succ n ih =>
    intro start
    unfold find_pure_transparent
    by_cases heq : (destcol start).haspixel = 2
    · right
      refine ⟨start, by simp [heq], le_refl _, by omega, heq, ?_⟩
      intro k2 h1 h2
      omega
    · simp only [heq]
      rcases ih (start + 1) with ⟨h1, h2⟩ | ⟨k, h1, h2, h3, h4, h5⟩
      · left
        refine ⟨by simpa using h1, ?_⟩
        intro k hk1 hk2
        by_cases hks : k = start
        · subst hks; exact heq
        · exact h2 k (by omega) (by omega)
      · right
        refine ⟨k, by simpa using h1, by omega, by omega, h4, ?_⟩
        intro k2 hk1 hk2
        by_cases hks : k2 = start
        · subst hks; exact heq
        · exact h5 k2 (by omega) hk2

/-! ## One pass of the merge loop -/

/-- The five ways `resolve_mapto` ends. -/
theorem resolve_mapto_cases (s : MergeState) (c : Gif_Color) :
    -- no slot
    ((resolve_mapto s c).2 = -1 ∧ (resolve_mapto s c).1 = s ∧ s.ndestcol ≤ c.pixel ∧
        256 ≤ s.ndestcol ∧ (∀ k, k < s.ndestcol → ¬ sameRGB (s.destcol k) c) ∧
        (∀ k, k < s.ndestcol → (s.destcol k).haspixel ≠ 2)) ∨
    -- cached slot
    (c.pixel < s.ndestcol ∧ (resolve_mapto s c).2 = (c.pixel : Int) ∧ (resolve_mapto s c).1 = s) ∨
    -- exact match
    (s.ndestcol ≤ c.pixel ∧ ∃ k : Nat, k < s.ndestcol ∧ (resolve_mapto s c).2 = (k : Int) ∧
        sameRGB (s.destcol k) c ∧ (resolve_mapto s c).1 = s) ∨
    -- appended
    (s.ndestcol ≤ c.pixel ∧ s.ndestcol < 256 ∧
        (∀ k, k < s.ndestcol → ¬ sameRGB (s.destcol k) c) ∧
        (resolve_mapto s c).2 = (s.ndestcol : Int) ∧
        (resolve_mapto s c).1 =
          { s with destcol := store s.destcol s.ndestcol c, ndestcol := s.ndestcol + 1 }) ∨
    -- pure-transparent slot reused
    (s.ndestcol ≤ c.pixel ∧ 256 ≤ s.ndestcol ∧
        (∀ k, k < s.ndestcol → ¬ sameRGB (s.destcol k) c) ∧
        ∃ x : Nat, x < s.ndestcol ∧ (s.destcol x).haspixel = 2 ∧
          (resolve_mapto s c).2 = (x : Int) ∧
          (resolve_mapto s c).1 = { s with destcol := store s.destcol x c }) := by
  by_cases hpix : c.pixel ≥ s.ndestcol
  · rcases find_color_index_spec s.destcol s.ndestcol c with ⟨h1, h2⟩ | ⟨k, h1, h2, h3, _⟩
    · by_cases hlt : s.ndestcol < 256
      · have hval : resolve_mapto s c =
            ({ s with destcol := store s.destcol s.ndestcol c, ndestcol := s.ndestcol + 1 },
              (s.ndestcol : Int)) := by
          have hn : (s.ndestcol : Int) ≠ -1 := by omega
          simp [resolve_mapto, hpix, h1, hlt, hn]
        right; right; right; left
        rw [hval]
        exact ⟨hpix, hlt, h2, rfl, rfl⟩
      · rcases find_pure_transparent_spec s.destcol s.ndestcol 0 with
          ⟨g1, g2⟩ | ⟨x, g1, _, g3, g4, _⟩
        · have hval : resolve_mapto s c = (s, -1) := by
            simp [resolve_mapto, hpix, h1, hlt, g1]
          left
          rw [hval]
          exact ⟨rfl, rfl, hpix, by omega, h2, fun k hk => g2 k (Nat.zero_le _) (by omega)⟩
        · have hval : resolve_mapto s c = ({ s with destcol := store s.destcol x c }, (x : Int)) := by
            have hx : (x : Int) ≠ -1 := by omega
            simp [resolve_mapto, hpix, h1, hlt, g1, hx]
          right; right; right; right
          rw [hval]
          exact ⟨hpix, by omega, h2, x, by omega, g4, rfl, rfl⟩
    · have hval : resolve_mapto s c = (s, (k : Int)) := by
        have hk : (k : Int) ≠ -1 := by omega
        simp [resolve_mapto, hpix, h1, hk]
      right; right; left
      rw [hval]
      exact ⟨hpix, k, h2, rfl, h3, rfl⟩
  · have hval : resolve_mapto s c = (s, (c.pixel : Int)) := by
      have hp : (c.pixel : Int) ≠ -1 := by omega
      simp [resolve_mapto, hpix, hp]
    right; left
    rw [hval]
    exact ⟨by omega, rfl, rfl⟩


theorem Resolved.lt {s : MergeState} {c : Gif_Color} {d : Nat → Gif_Color} {nd m : Nat}
    (h : Resolved s c d nd m) : m < nd := by
  rcases h with ⟨h1, h2, _, h4⟩ | ⟨_, h2, _, _, h5⟩ | ⟨_, _, _, h4, _, h6⟩ | ⟨_, _, _, h4, _, _, h7⟩
  all_goals omega

/-- The ways one pass of the loop body ends. -/
theorem merge_colormap_body_cases (i : Nat) (s : MergeState) :
    ((s.srccol i).haspixel ≠ 1 ∧ (s.srccol i).haspixel ≠ 2 ∧
        merge_colormap_body i s = .next s) ∨
    ((s.srccol i).haspixel = 2 ∧ s.trivial_map = true ∧ i = s.ndestcol ∧
        merge_colormap_body i s =
          .next { s with destcol := store s.destcol s.ndestcol (s.srccol i),
                         ndestcol := s.ndestcol + 1 }) ∨
    ((s.srccol i).haspixel = 2 ∧ ¬ (s.trivial_map = true ∧ i = s.ndestcol) ∧
        merge_colormap_body i s = .next s) ∨
    ((s.srccol i).haspixel = 1 ∧ merge_colormap_body i s = .return0 s ∧
        s.ndestcol ≤ (s.srccol i).pixel ∧ 256 ≤ s.ndestcol ∧
        (∀ k, k < s.ndestcol → ¬ sameRGB (s.destcol k) (s.srccol i)) ∧
        (∀ k, k < s.ndestcol → (s.destcol k).haspixel ≠ 2)) ∨
    ((s.srccol i).haspixel = 1 ∧ ∃ d nd m, Resolved s (s.srccol i) d nd m ∧
        merge_colormap_body i s = .next (mapped_state s i d nd m)) := by
  by_cases h1 : (s.srccol i).haspixel = 1
  · rcases resolve_mapto_cases s (s.srccol i) with
      ⟨a1, a2, a3, a4, a5, a6⟩ | ⟨a1, a2, a3⟩ | ⟨a1, k, a2, a3, a4, a5⟩ |
      ⟨a1, a2, a3, a4, a5⟩ | ⟨a1, a2, a3, x, a4, a5, a6, a7⟩
    · right; right; right; left
      refine ⟨h1, ?_, a3, a4, a5, a6⟩
      simp [merge_colormap_body, h1, a1, a2]
    · right; right; right; right
      refine ⟨h1, s.destcol, s.ndestcol, (s.srccol i).pixel, Or.inl ⟨a1, rfl, rfl, rfl⟩, ?_⟩
      have hne : ((s.srccol i).pixel : Int) ≠ -1 := by omega
      simp [merge_colormap_body, h1, a2, a3, hne, mapped_state, a1]
    · right; right; right; right
      refine ⟨h1, s.destcol, s.ndestcol, k, Or.inr (Or.inl ⟨a1, a2, a4, rfl, rfl⟩), ?_⟩
      have hne : (k : Int) ≠ -1 := by omega
      simp [merge_colormap_body, h1, a3, a5, hne, mapped_state, a2]
    · right; right; right; right
      refine ⟨h1, store s.destcol s.ndestcol (s.srccol i), s.ndestcol + 1, s.ndestcol,
        Or.inr (Or.inr (Or.inl ⟨a1, a2, a3, rfl, rfl, rfl⟩)), ?_⟩
      have hne : (s.ndestcol : Int) ≠ -1 := by omega
      have hlt : (s.ndestcol : Int) < (s.ndestcol : Int) + 1 := by omega
      simp [merge_colormap_body, h1, a4, a5, hne, mapped_state, hlt]
    · right; right; right; right
      refine ⟨h1, store s.destcol x (s.srccol i), s.ndestcol, x,
        Or.inr (Or.inr (Or.inr ⟨a1, a2, a3, a4, a5, rfl, rfl⟩)), ?_⟩
      have hne : (x : Int) ≠ -1 := by omega
      simp [merge_colormap_body, h1, a6, a7, hne, mapped_state, a4]
  · by_cases h2 : (s.srccol i).haspixel = 2
    · by_cases h3 : s.trivial_map = true ∧ i = s.ndestcol
      · right; left
        refine ⟨h2, h3.1, h3.2, ?_⟩
        simp [merge_colormap_body, h2, h3.1, ← h3.2]
      · right; right; left
        refine ⟨h2, h3, ?_⟩
        simp [merge_colormap_body, h2, h3]
    · left
      refine ⟨h1, h2, ?_⟩
      simp [merge_colormap_body, h1, h2]

/-- The invariant rule of the merge loop. -/
theorem merge_colormap_loop_rule (P : Nat → MergeState → Prop) (Q : MergeState → Prop) (N : Nat)
    (hstep : ∀ i s, i < N → P i s →
      match merge_colormap_body i s with
      | .next s' => P (i + 1) s'
      | .return0 s' => Q s'
      | .assert_failed => False) :
    ∀ n i s, i + n ≤ N → P i s →
      match merge_colormap_loop n i s with
      | .next s' => P (i + n) s'
      | .return0 s' => Q s'
      | .assert_failed => False := by
  intro n
  induction n with
  | zero =>
    intro i s _ hP
    simpa [merge_colormap_loop] using hP
  | succ n ih =>
    intro i s hle hP
    have hs := hstep i s (by omega) hP
    unfold merge_colormap_loop
    cases hb : merge_colormap_body i s with
    | next s' =>
      rw [hb] at hs
      have := ih (i + 1) s' (by omega) hs
      simpa [Nat.add_assoc, Nat.add_comm 1 n] using this
    | return0 s' =>
      rw [hb] at hs
      simpa using hs
    | assert_failed =>
      rw [hb] at hs
      exact hs.elim


/-! ## Invariants of the merge loop -/
theorem Basic.at_entry (s0 : MergeState) (N : Nat) : Basic s0 N 0 s0 where
  hp := fun _ => rfl
  rgb := fun _ => sameRGB_refl _
  rest := fun _ _ => rfl
  other := fun _ _ => rfl
  mono := le_refl _
  cap := fun _ h => h
  slot := fun k hk => absurd hk (Nat.not_lt_zero k)
  keep := fun _ _ _ => ⟨sameRGB_refl _, Or.inl rfl⟩

theorem Basic.weaken {s0 s : MergeState} {N i : Nat} (h : Basic s0 N i s)
    (hi : (s.srccol i).haspixel ≠ 1) : Basic s0 N (i + 1) s where
  hp := h.hp
  rgb := h.rgb
  rest := fun k hk => h.rest k (by omega)
  other := h.other
  mono := h.mono
  cap := h.cap
  slot := by
    intro k hk hk1
    by_cases hki : k = i
    · subst hki
      rw [h.hp] at hi
      exact absurd hk1 hi
    · exact h.slot k (by omega) hk1
  keep := h.keep

theorem Basic.append {s0 s : MergeState} {N i : Nat} (h : Basic s0 N i s) (hiN : i < N)
    (hi : (s.srccol i).haspixel = 2) (hnd : i = s.ndestcol) :
    Basic s0 N (i + 1)
      { s with destcol := store s.destcol s.ndestcol (s.srccol i), ndestcol := s.ndestcol + 1 } where
  hp := h.hp
  rgb := h.rgb
  rest := fun k hk => h.rest k (by omega)
  other := h.other
  mono := by have := h.mono; simp only; omega
  cap := by
    intro h1 h2
    simp only
    omega
  slot := by
    intro k hk hk1
    simp only
    by_cases hki : k = i
    · subst hki
      rw [h.hp] at hi
      omega
    · have := h.slot k (by omega) hk1
      omega
  keep := by
    intro k hk hk2
    have hm := h.mono
    have hne : k ≠ s.ndestcol := by omega
    simp only [store_other _ _ _ _ hne]
    exact h.keep k hk hk2

theorem Basic.mapped {s0 s : MergeState} {N i : Nat} (h : Basic s0 N i s)
    (hi : (s.srccol i).haspixel = 1) {d : Nat → Gif_Color} {nd m : Nat}
    (hr : Resolved s (s.srccol i) d nd m) : Basic s0 N (i + 1) (mapped_state s i d nd m) where
  hp := by
    intro k
    by_cases hki : k = i
    · subst hki; simp [mapped_state, h.hp]
    · simp [mapped_state, store_other _ _ _ _ hki, h.hp]
  rgb := by
    intro k
    by_cases hki : k = i
    · subst hki
      simpa [mapped_state, sameRGB] using h.rgb k
    · simpa [mapped_state, store_other _ _ _ _ hki] using h.rgb k
  rest := by
    intro k hk
    have hki : k ≠ i := by omega
    simpa [mapped_state, store_other _ _ _ _ hki] using h.rest k (by omega)
  other := by
    intro k hk
    have hki : k ≠ i := by
      intro hki
      subst hki
      rw [h.hp] at hi
      exact hk hi
    simpa [mapped_state, store_other _ _ _ _ hki] using h.other k hk
  mono := by
    have := h.mono
    rcases hr with ⟨_, _, _, h4⟩ | ⟨_, _, _, _, h5⟩ | ⟨_, _, _, _, _, h6⟩ | ⟨_, _, _, _, _, _, h7⟩
    all_goals simp only [mapped_state]; omega
  cap := by
    intro h1 h2
    have := h.cap h1 h2
    rcases hr with ⟨_, _, _, h4⟩ | ⟨_, _, _, _, h5⟩ | ⟨_, _, _, _, _, h6⟩ | ⟨_, _, _, _, _, _, h7⟩
    all_goals simp only [mapped_state]; omega
  slot := by
    intro k hk hk1
    have hlt := hr.lt
    by_cases hki : k = i
    · subst hki
      simpa [mapped_state] using hlt
    · have hs := h.slot k (by omega) hk1
      simp only [mapped_state, store_other _ _ _ _ hki]
      rcases hr with ⟨_, _, _, h4⟩ | ⟨_, _, _, _, h5⟩ | ⟨_, _, _, _, _, h6⟩ | ⟨_, _, _, _, _, _, h7⟩
      all_goals omega
  keep := by
    intro k hk hk2
    have hm := h.mono
    have hkeep := h.keep k hk hk2
    have hne2 : (s.destcol k).haspixel ≠ 2 := by
      rcases hkeep.2 with h1 | h1
      · rw [h1]; exact hk2
      · rw [h1]; decide
    have hdk : d k = s.destcol k := by
      rcases hr with ⟨_, _, h3, _⟩ | ⟨_, _, _, h4, _⟩ | ⟨_, _, _, _, h5, _⟩ | ⟨_, _, _, _, h5, h6, _⟩
      · rw [h3]
      · rw [h4]
      · rw [h5]; exact store_other _ _ _ _ (by omega)
      · rw [h6]
        apply store_other
        intro hkm
        subst hkm
        exact hne2 h5
    by_cases hkm : k = m
    · subst hkm
      simp only [mapped_state, store_same]
      refine ⟨?_, Or.inr trivial⟩
      rw [hdk]
      exact hkeep.1
    · simp only [mapped_state, store_other _ _ _ _ hkm, hdk]
      exact hkeep

/-- The merge loop never fails an assertion and keeps `Basic`. -/
theorem merge_colormap_loop_basic (s0 : MergeState) (N : Nat) :
    match merge_colormap_loop N 0 s0 with
    | .next s => Basic s0 N N s
    | .return0 s => ∃ i, i < N ∧ Basic s0 N i s
    | .assert_failed => False := by
  have h := merge_colormap_loop_rule (fun i s => Basic s0 N i s)
    (fun s => ∃ i, i < N ∧ Basic s0 N i s) N
    (by
      intro i s hi hP
      rcases merge_colormap_body_cases i s with
        ⟨a1, _, a3⟩ | ⟨a1, _, a3, a4⟩ | ⟨a1, _, a3⟩ | ⟨_, a2, _⟩ | ⟨a1, d, nd, m, a2, a3⟩
      · rw [a3]; exact hP.weaken a1
      · rw [a4]; exact hP.append hi a1 a3
      · rw [a3]; exact hP.weaken (by rw [a1]; decide)
      · rw [a2]; exact ⟨i, hi, hP⟩
      · rw [a3]; exact hP.mapped a1 a2)
    N 0 s0 (by omega) (Basic.at_entry s0 N)
  simpa using h


/-- With no cached slot on entry, every used source entry handled so far is
mapped to a destination slot of its own colour, tagged used. -/
theorem merge_colormap_loop_colour (s0 : MergeState) (N : Nat) (hN : N ≤ 256)
    (hd : s0.ndestcol ≤ 256) (hpix : ∀ k, k < N → 256 ≤ (s0.srccol k).pixel) :
    match merge_colormap_loop N 0 s0 with
    | .next s => ∀ k, k < N → (s0.srccol k).haspixel = 1 →
        sameRGB (s.destcol (s.srccol k).pixel) (s0.srccol k) ∧
          (s.destcol (s.srccol k).pixel).haspixel = 1
    | .return0 _ => True
    | .assert_failed => True := by
  have h := merge_colormap_loop_rule
    (fun i s => Basic s0 N i s ∧ ∀ k, k < i → (s0.srccol k).haspixel = 1 →
        sameRGB (s.destcol (s.srccol k).pixel) (s0.srccol k) ∧
          (s.destcol (s.srccol k).pixel).haspixel = 1)
    (fun _ => True) N
    (by
      intro i s hi ⟨hB, hC⟩
      rcases merge_colormap_body_cases i s with
        ⟨a1, _, a3⟩ | ⟨a1, _, a3, a4⟩ | ⟨a1, _, a3⟩ | ⟨_, a2, _⟩ | ⟨a1, d, nd, m, a2, a3⟩
      · rw [a3]
        refine ⟨hB.weaken a1, ?_⟩
        intro k hk hk1
        by_cases hki : k = i
        · subst hki; rw [hB.hp] at a1; exact absurd hk1 a1
        · exact hC k (by omega) hk1
      · rw [a4]
        refine ⟨hB.append hi a1 a3, ?_⟩
        intro k hk hk1
        by_cases hki : k = i
        · subst hki; rw [hB.hp] at a1; omega
        · have hs := hB.slot k (by omega) hk1
          have hne : (s.srccol k).pixel ≠ s.ndestcol := by omega
          simp only [store_other _ _ _ _ hne]
          exact hC k (by omega) hk1
      · rw [a3]
        refine ⟨hB.weaken (by rw [a1]; decide), ?_⟩
        intro k hk hk1
        by_cases hki : k = i
        · subst hki; rw [hB.hp] at a1; omega
        · exact hC k (by omega) hk1
      · rw [a2]; trivial
      · rw [a3]
        refine ⟨hB.mapped a1 a2, ?_⟩
        have hcap := hB.cap hN hd
        have hpi : 256 ≤ (s.srccol i).pixel := by
          rw [hB.rest i (le_refl _)]; exact hpix i hi
        have hrgbi := hB.rgb i
        intro k hk hk1
        by_cases hki : k = i
        · subst hki
          simp only [mapped_state, store_same]
          refine ⟨?_, trivial⟩
          rcases a2 with ⟨b1, _⟩ | ⟨_, _, b3, b4, _⟩ | ⟨_, _, _, b4, b5, _⟩ | ⟨_, _, _, _, _, b6, _⟩
          · omega
          · rw [b4]
            exact sameRGB_trans b3 hrgbi
          · rw [b5, b4]
            simpa [sameRGB] using hrgbi
          · rw [b6]
            simpa [sameRGB] using hrgbi
        · have hs := hB.slot k (by omega) hk1
          have hc := hC k (by omega) hk1
          simp only [mapped_state, store_other _ _ _ _ hki]
          have hdp : d (s.srccol k).pixel = s.destcol (s.srccol k).pixel := by
            rcases a2 with ⟨_, _, b3, _⟩ | ⟨_, _, _, b4, _⟩ | ⟨_, _, _, _, b5, _⟩ |
              ⟨_, _, _, _, b5, b6, _⟩
            · rw [b3]
            · rw [b4]
            · rw [b5]; exact store_other _ _ _ _ (by omega)
            · rw [b6]
              apply store_other
              intro hkm
              rw [hkm] at hc
              omega
          by_cases hpm : (s.srccol k).pixel = m
          · rw [hpm, store_same]
            rw [hpm] at hdp hc
            refine ⟨?_, rfl⟩
            have : sameRGB (d m) (s0.srccol k) := by rw [hdp]; exact hc.1
            simpa [sameRGB] using this
          · rw [store_other _ _ _ _ hpm, hdp]
            exact hc)
    N 0 s0 (by omega) ⟨Basic.at_entry s0 N, fun k hk => absurd hk (Nat.not_lt_zero k)⟩
  cases hl : merge_colormap_loop N 0 s0 with
  | next s =>
    rw [hl] at h
    simp only [Nat.zero_add] at h
    exact h.2
  | return0 s => trivial
  | assert_failed => trivial


/-! ## Results of the palette merger -/
/-- `merge_colormap_if_possible` returns (no assertion fails), with 0 or 1, and
its result is the last loop state, which satisfies `Basic`. -/
theorem merge_colormap_if_possible_basic (dest src : Gif_Colormap) :
    ∃ (r : MergeResult) (s : MergeState) (i : Nat),
      merge_colormap_if_possible dest src = .ok r ∧
      r.src = { src with col := s.srccol } ∧ r.dest.col = s.destcol ∧
      ((r.ret = 1 ∧ r.dest.ncol = s.ndestcol ∧ i = src.ncol ∧
          merge_colormap_loop src.ncol 0 (merge_entry dest src) = .next s) ∨
        (r.ret = 0 ∧ r.dest.ncol = dest.ncol ∧ i < src.ncol ∧
          merge_colormap_loop src.ncol 0 (merge_entry dest src) = .return0 s)) ∧
      Basic (merge_entry dest src) src.ncol i s := by
  have h := merge_colormap_loop_basic (merge_entry dest src) src.ncol
  cases hl : merge_colormap_loop src.ncol 0 (merge_entry dest src) with
  | next s =>
    rw [hl] at h
    refine ⟨{ ret := 1, dest := { ncol := s.ndestcol, col := s.destcol },
              src := { src with col := s.srccol } }, s, src.ncol, ?_, rfl, rfl,
      Or.inl ⟨rfl, rfl, rfl, rfl⟩, h⟩
    simp only [merge_colormap_if_possible]
    rw [show ({ destcol := dest.col, ndestcol := dest.ncol, srccol := src.col,
                trivial_map := true } : MergeState) = merge_entry dest src from rfl, hl]
  | return0 s =>
    rw [hl] at h
    obtain ⟨i, hiN, hi⟩ := h
    refine ⟨{ ret := 0, dest := { dest with col := s.destcol },
              src := { src with col := s.srccol } }, s, i, ?_, rfl, rfl,
      Or.inr ⟨rfl, rfl, hiN, rfl⟩, hi⟩
    simp only [merge_colormap_if_possible]
    rw [show ({ destcol := dest.col, ndestcol := dest.ncol, srccol := src.col,
                trivial_map := true } : MergeState) = merge_entry dest src from rfl, hl]
  | assert_failed =>
    rw [hl] at h
    exact h.elim

/-- Every call of `merge_colormap_if_possible` returns, and `MergeFacts` holds
of what it returns. -/
theorem merge_colormap_if_possible_facts (dest src : Gif_Colormap) :
    ∃ r, merge_colormap_if_possible dest src = .ok r ∧ MergeFacts dest src r := by
  obtain ⟨r, s, i, h1, h2, h3, h4, hB⟩ := merge_colormap_if_possible_basic dest src
  refine ⟨r, h1, ?_⟩
  have hcol : r.src.col = s.srccol := by rw [h2]
  have hmono : dest.ncol ≤ r.dest.ncol := by
    rcases h4 with ⟨_, b2, _⟩ | ⟨_, b2, _⟩
    · rw [b2]; exact hB.mono
    · rw [b2]
  exact
    { ret := by rcases h4 with ⟨b1, _⟩ | ⟨b1, _⟩ <;> simp [b1]
      src_ncol := by rw [h2]
      src_hp := fun k => by rw [hcol]; exact hB.hp k
      src_rgb := fun k => by rw [hcol]; exact hB.rgb k
      src_other := fun k hk => by rw [hcol]; exact hB.other k hk
      src_beyond := by
        intro k hk
        rw [hcol]
        rcases h4 with ⟨_, _, b3, _⟩ | ⟨_, _, b3, _⟩
        · exact hB.rest k (by omega)
        · exact hB.rest k (by omega)
      fail_ncol := by
        intro h0
        rcases h4 with ⟨b1, _⟩ | ⟨_, b2, _⟩
        · omega
        · exact b2
      mono := hmono
      cap := by
        intro hs hd
        rcases h4 with ⟨_, b2, _⟩ | ⟨_, b2, _⟩
        · rw [b2]; exact hB.cap hs hd
        · rw [b2]; exact hd
      slot := by
        intro h1' k hk hk1
        rcases h4 with ⟨_, b2, b3, _⟩ | ⟨b1, _⟩
        · rw [hcol, b2]
          exact hB.slot k (by omega) hk1
        · omega
      keep := by
        intro k hk hk2
        rw [h3]
        exact hB.keep k hk hk2 }


/-- With no cached slot on entry, a successful call maps every used source
entry to a destination slot of its own colour, tagged used. -/
theorem merge_colormap_if_possible_colour (dest src : Gif_Colormap) (hs : src.ncol ≤ 256)
    (hd : dest.ncol ≤ 256) (hpix : ∀ k, k < src.ncol → 256 ≤ (src.col k).pixel)
    (r : MergeResult) (hr : merge_colormap_if_possible dest src = .ok r) (h1 : r.ret = 1) :
    ∀ k, k < src.ncol → (src.col k).haspixel = 1 →
      sameRGB (r.dest.col (r.src.col k).pixel) (src.col k) ∧
        (r.dest.col (r.src.col k).pixel).haspixel = 1 := by
  obtain ⟨r2, s, i, g1, g2, g3, g4, _⟩ := merge_colormap_if_possible_basic dest src
  rw [hr] at g1
  have hrr : r = r2 := by injection g1
  subst hrr
  have hc := merge_colormap_loop_colour (merge_entry dest src) src.ncol hs hd hpix
  rcases g4 with ⟨_, _, _, b4⟩ | ⟨b1, _⟩
  · rw [b4] at hc
    intro k hk hk1
    have := hc k hk hk1
    rw [g3, g2]
    exact this
  · omega


/-! ## The usage analysis -/
theorem seenCount_store (hv : Nat → Nat) (d : Nat) (hd : d < 256) (h0 : hv d = 0) :
    seenCount (store hv d 1) = seenCount hv + 1 := by
  unfold seenCount
  have hset : (Finset.range 256).filter (fun k => store hv d 1 k ≠ 0) =
      insert d ((Finset.range 256).filter (fun k => hv k ≠ 0)) := by
    ext k
    simp only [Finset.mem_filter, Finset.mem_range, Finset.mem_insert, store_apply]
    by_cases hkd : k = d
    · subst hkd; simp [hd]
    · simp [hkd]
  rw [hset, Finset.card_insert_of_not_mem]
  simp [h0]

theorem seenCount_full (hv : Nat → Nat) (h : 256 ≤ seenCount hv) :
    ∀ k, k < 256 → hv k ≠ 0 := by
  unfold seenCount at h
  have hle := Finset.card_filter_le (Finset.range 256) (fun k => hv k ≠ 0)
  rw [Finset.card_range] at hle
  have heq : ((Finset.range 256).filter (fun k => hv k ≠ 0)).card = (Finset.range 256).card := by
    rw [Finset.card_range]; omega
  rw [Finset.card_filter_eq_iff] at heq
  intro k hk
  exact heq k (Finset.mem_range.2 hk)

theorem seenCount_init (ncol : Nat) :
    seenCount (fun i => if i < ncol then 0 else 1) = 256 - ncol := by
  unfold seenCount
  have hset : (Finset.range 256).filter (fun k => (if k < ncol then 0 else 1) ≠ 0) =
      Finset.Ico ncol 256 := by
    ext k
    simp only [Finset.mem_filter, Finset.mem_range, Finset.mem_Ico]
    by_cases hk : k < ncol
    · simp [hk]
    · simp [hk]; omega
  rw [hset, Nat.card_Ico]

theorem mark_row_spec (data : Nat → Nat) :
    ∀ (n i : Nat) (s : Seen), SeenInv s →
      SeenInv (mark_row data n i s) ∧
      ∀ k, (mark_row data n i s).have_ k ≠ 0 ↔
        (s.have_ k ≠ 0 ∨ ∃ x, i ≤ x ∧ x < i + n ∧ data x % 256 = k) := by
  intro n
  induction n with
  | zero =>
    intro i s hs
    refine ⟨hs, ?_⟩
    intro k
    simp only [mark_row]
    constructor
    · intro h; exact Or.inl h
    · rintro (h | ⟨x, h1, h2, _⟩)
      · exact h
      · omega
  | succ n ih =>
    intro i s hs
    unfold mark_row
    have hd : data i % 256 < 256 := Nat.mod_lt _ (by decide)
    by_cases h0 : s.have_ (data i % 256) = 0
    · simp only [h0, if_true]
      have hs' : SeenInv { have_ := store s.have_ (data i % 256) 1, total := s.total + 1 } := by
        refine ⟨?_, ?_⟩
        · intro k
          simp only [store_apply]
          split
          · exact le_refl _
          · exact hs.1 k
        · simp only
          rw [seenCount_store _ _ hd h0, hs.2]
      obtain ⟨g1, g2⟩ := ih (i + 1) _ hs'
      refine ⟨g1, ?_⟩
      intro k
      rw [g2 k]
      simp only [store_apply]
      constructor
      · rintro (h | ⟨x, h1, h2, h3⟩)
        · by_cases hk : k = data i % 256
          · right; exact ⟨i, le_refl _, by omega, hk.symm⟩
          · left; simpa [hk] using h
        · right; exact ⟨x, by omega, by omega, h3⟩
      · rintro (h | ⟨x, h1, h2, h3⟩)
        · left
          by_cases hk : k = data i % 256
          · simp [hk]
          · simpa [hk] using h
        · by_cases hxi : x = i
          · left
            subst hxi
            simp [← h3]
          · right; exact ⟨x, by omega, by omega, h3⟩
    · simp only [h0, if_false]
      obtain ⟨g1, g2⟩ := ih (i + 1) s hs
      refine ⟨g1, ?_⟩
      intro k
      rw [g2 k]
      constructor
      · rintro (h | ⟨x, h1, h2, h3⟩)
        · exact Or.inl h
        · right; exact ⟨x, by omega, by omega, h3⟩
      · rintro (h | ⟨x, h1, h2, h3⟩)
        · exact Or.inl h
        · by_cases hxi : x = i
          · left
            subst hxi
            rw [← h3]
            exact h0
          · right; exact ⟨x, by omega, by omega, h3⟩

theorem mark_rows_spec (gfi : Gif_Image) :
    ∀ (n j : Nat) (s : Seen), SeenInv s →
      SeenInv (mark_rows gfi n j s) ∧
      (∀ k, (mark_rows gfi n j s).have_ k ≠ 0 → (s.have_ k ≠ 0 ∨ occursInRows gfi j n k)) ∧
      (∀ k, k < 256 → (s.have_ k ≠ 0 ∨ occursInRows gfi j n k) →
        (mark_rows gfi n j s).have_ k ≠ 0) := by
  intro n
  induction n with
  | zero =>
    intro j s hs
    refine ⟨hs, fun k h => Or.inl h, ?_⟩
    rintro k _ (h | ⟨j2, h1, h2, _⟩)
    · exact h
    · omega
  | succ n ih =>
    intro j s hs
    unfold mark_rows
    by_cases ht : s.total < 256
    · simp only [ht, if_true]
      obtain ⟨r1, r2⟩ := mark_row_spec (gfi.img j) gfi.width 0 s hs
      obtain ⟨g1, g2, g3⟩ := ih (j + 1) _ r1
      refine ⟨g1, ?_, ?_⟩
      · intro k hk
        rcases g2 k hk with h | ⟨j2, h1, h2, h3⟩
        · rcases (r2 k).1 h with h' | ⟨x, _, hx2, hx3⟩
          · exact Or.inl h'
          · right
            exact ⟨j, le_refl _, by omega, x, by omega, hx3⟩
        · right
          exact ⟨j2, by omega, by omega, h3⟩
      · intro k hk hor
        apply g3 k hk
        rcases hor with h | ⟨j2, h1, h2, x, hx1, hx2⟩
        · left; exact (r2 k).2 (Or.inl h)
        · by_cases hj : j2 = j
          · left
            subst hj
            exact (r2 k).2 (Or.inr ⟨x, Nat.zero_le _, by omega, hx2⟩)
          · right
            exact ⟨j2, by omega, by omega, x, hx1, hx2⟩
    · simp only [ht, if_false]
      refine ⟨hs, fun k h => Or.inl h, ?_⟩
      intro k hk _
      exact seenCount_full s.have_ (by rw [← hs.2]; omega) k hk

/-- The seen-set after the scan marks exactly the bytes below `ncol` that
occur in the frame, the early stop notwithstanding. -/
theorem mark_scan_spec (gfi : Gif_Image) (ncol : Nat) (h : ncol ≤ 256) :
    (∀ k, (mark_scan gfi ncol).have_ k ≤ 1) ∧
    ∀ k, k < ncol → ((mark_scan gfi ncol).have_ k ≠ 0 ↔ occurs gfi k) := by
  have hinit : SeenInv { have_ := fun i => if i < ncol then 0 else 1, total := 256 - ncol } := by
    refine ⟨?_, ?_⟩
    · intro k
      simp only
      split <;> omega
    · simp only
      rw [seenCount_init ncol]
  obtain ⟨g1, g2, g3⟩ := mark_rows_spec gfi gfi.height 0 _ hinit
  refine ⟨g1.1, ?_⟩
  intro k hk
  constructor
  · intro hne
    rcases g2 k hne with h' | ⟨j2, _, h2, x, hx1, hx2⟩
    · simp [hk] at h'
    · exact ⟨j2, by omega, x, hx1, hx2⟩
  · rintro ⟨j2, h1, x, hx1, hx2⟩
    exact g3 k (by omega) (Or.inr ⟨j2, Nat.zero_le _, by omega, x, hx1, hx2⟩)


/-- `mark_used_colors` on a colormap of at most 256 entries. -/
theorem mark_used_colors_facts (gfi : Gif_Image) (gfcm : Gif_Colormap) (h : gfcm.ncol ≤ 256) :
    MarkFacts gfi gfcm (mark_used_colors gfi gfcm) := by
  obtain ⟨hle, hocc⟩ := mark_scan_spec gfi gfcm.ncol h
  have hval : ∀ k, k < gfcm.ncol →
      (mark_scan gfi gfcm.ncol).have_ k = if occurs gfi k then 1 else 0 := by
    intro k hk
    have h1 := hle k
    have h2 := hocc k hk
    by_cases ho : occurs gfi k
    · have := h2.2 ho
      simp only [ho, if_true]
      omega
    · have : ¬ (mark_scan gfi gfcm.ncol).have_ k ≠ 0 := fun hc => ho (h2.1 hc)
      simp only [ho, if_false]
      omega
  by_cases hc : 0 ≤ gfi.transparent ∧ gfi.transparent < (gfcm.ncol : Int) ∧
      (mark_scan gfi gfcm.ncol).have_ gfi.transparent.toNat ≠ 0
  · obtain ⟨c1, c2, c3⟩ := hc
    have htn : gfi.transparent.toNat < gfcm.ncol := by omega
    have hot : occurs gfi gfi.transparent.toNat := (hocc _ htn).1 c3
    simp only [mark_used_colors]
    rw [if_pos ⟨c1, c2, c3⟩]
    refine ⟨rfl, ?_, ?_, ?_, ?_, ?_⟩
    · intro k
      simp only [store_apply]
      by_cases hk : k = gfi.transparent.toNat
      · subst hk
        simp [htn, sameRGB]
      · by_cases hk2 : k < gfcm.ncol
        · simp [hk, hk2, sameRGB]
        · simp [hk, hk2, sameRGB]
    · intro k
      simp only [store_apply]
      by_cases hk : k = gfi.transparent.toNat
      · subst hk
        simp [htn]
      · by_cases hk2 : k < gfcm.ncol
        · simp [hk, hk2]
        · simp [hk, hk2]
    · intro k hk
      have hne : k ≠ gfi.transparent.toNat := by omega
      have hk2 : ¬ k < gfcm.ncol := by omega
      simp [store_apply, hne, hk2]
    · intro k hk
      simp only [store_apply]
      by_cases hkt : k = gfi.transparent.toNat
      · have hkt2 : (k : Int) = gfi.transparent := by omega
        subst hkt
        simp [hot, hkt2]
      · have hkt2 : (k : Int) ≠ gfi.transparent := by omega
        simp only [hkt, if_false, hk, if_true, hval k hk, hkt2]
    · simp [c1, c2, hot]
  · have hnot : ¬ (0 ≤ gfi.transparent ∧ gfi.transparent < (gfcm.ncol : Int) ∧
        occurs gfi gfi.transparent.toNat) := by
      rintro ⟨c1, c2, c3⟩
      exact hc ⟨c1, c2, (hocc _ (by omega)).2 c3⟩
    simp only [mark_used_colors]
    rw [if_neg hc]
    refine ⟨rfl, ?_, ?_, ?_, ?_, ?_⟩
    · intro k
      by_cases hk2 : k < gfcm.ncol
      · simp [hk2, sameRGB]
      · simp [hk2, sameRGB]
    · intro k
      by_cases hk2 : k < gfcm.ncol
      · simp [hk2]
      · simp [hk2]
    · intro k hk
      have hk2 : ¬ k < gfcm.ncol := by omega
      simp [hk2]
    · intro k hk
      simp only [hk, if_true, hval k hk]
      by_cases ho : occurs gfi k
      · have hkt2 : (k : Int) ≠ gfi.transparent := by
          intro heq
          apply hnot
          refine ⟨by omega, by omega, ?_⟩
          have : gfi.transparent.toNat = k := by omega
          rw [this]
          exact ho
        simp [ho, hkt2]
      · simp [ho]
    · rw [if_neg hnot]


/-! ## The fallback local colormap -/
theorem local_colormap_loop_inv (c0 : Nat → Gif_Color) :
    ∀ (n i : Nat) (s : LocalState), LocalInv c0 i s →
      LocalInv c0 (i + n) (local_colormap_loop n i s) := by
  intro n
  induction n with
  | zero =>
    intro i s hs
    simpa [local_colormap_loop] using hs
  | succ n ih =>
    intro i s hs
    unfold local_colormap_loop
    have hadd : i + (n + 1) = (i + 1) + n := by omega
    rw [hadd]
    have hci : s.imagecol i = c0 i := hs.rest i (le_refl _)
    by_cases h0 : (s.imagecol i).haspixel ≠ 0
    · rw [if_pos h0]
      apply ih
      have h0' : (c0 i).haspixel ≠ 0 := by rw [← hci]; exact h0
      refine
        { hp := ?_, rgb := ?_, rest := ?_, other := ?_, le := ?_, slot := ?_, mono := ?_,
          onto := ?_ }
      · intro k
        by_cases hk : k = i
        · subst hk; simp [hs.hp]
        · simp [store_other _ _ _ _ hk, hs.hp]
      · intro k
        by_cases hk : k = i
        · subst hk; simpa [sameRGB] using hs.rgb k
        · simpa [store_other _ _ _ _ hk] using hs.rgb k
      · intro k hk
        have hki : k ≠ i := by omega
        simpa [store_other _ _ _ _ hki] using hs.rest k (by omega)
      · intro k hk
        have hki : k ≠ i := by
          intro hki; subst hki; exact h0' hk
        simpa [store_other _ _ _ _ hki] using hs.other k hk
      · have := hs.le
        simp only
        omega
      · intro k hk hk0
        by_cases hki : k = i
        · subst hki
          simp
        · obtain ⟨g1, g2⟩ := hs.slot k (by omega) hk0
          have hne : (s.imagecol k).pixel ≠ s.ncol := by omega
          simp only [store_other _ _ _ _ hki, store_other _ _ _ _ hne]
          exact ⟨by omega, g2⟩
      · intro k k2 hkk hk2 hk0 hk20
        have hki : k ≠ i := by omega
        simp only [store_other _ _ _ _ hki]
        by_cases hk2i : k2 = i
        · subst hk2i
          simp only [store_same]
          exact (hs.slot k (by omega) hk0).1
        · simp only [store_other _ _ _ _ hk2i]
          exact hs.mono k k2 hkk (by omega) hk0 hk20
      · intro p hp
        simp only at hp
        by_cases hpn : p = s.ncol
        · refine ⟨i, by omega, h0', ?_⟩
          simp [hpn]
        · obtain ⟨k, g1, g2, g3⟩ := hs.onto p (by omega)
          have hki : k ≠ i := by omega
          refine ⟨k, by omega, g2, ?_⟩
          simp [store_other _ _ _ _ hki, g3]
    · rw [if_neg h0]
      apply ih
      have h0' : (c0 i).haspixel = 0 := by
        rw [← hci]
        by_contra hc
        exact h0 hc
      refine
        { hp := hs.hp, rgb := hs.rgb, rest := fun k hk => hs.rest k (by omega), other := hs.other,
          le := by have := hs.le; omega, slot := ?_, mono := ?_, onto := ?_ }
      · intro k hk hk0
        have hki : k ≠ i := by
          intro hki; subst hki; exact hk0 h0'
        exact hs.slot k (by omega) hk0
      · intro k k2 hkk hk2 hk0 hk20
        have hki : k2 ≠ i := by
          intro hki; subst hki; exact hk20 h0'
        exact hs.mono k k2 hkk (by omega) hk0 hk20
      · intro p hp
        obtain ⟨k, g1, g2, g3⟩ := hs.onto p hp
        exact ⟨k, by omega, g2, g3⟩

theorem LocalInv.at_start (c0 l0 : Nat → Gif_Color) :
    LocalInv c0 0 { imagecol := c0, localcol := l0, ncol := 0 } where
  hp := fun _ => rfl
  rgb := fun _ => sameRGB_refl _
  rest := fun _ _ => rfl
  other := fun _ _ => rfl
  le := le_refl _
  slot := fun k hk => absurd hk (Nat.not_lt_zero k)
  mono := fun _ k2 _ hk2 => absurd hk2 (Nat.not_lt_zero k2)
  onto := fun p hp => absurd hp (Nat.not_lt_zero p)


/-! ## The remap table and the scan for an unused slot -/
theorem map_loop_spec (c : Nat → Gif_Color) :
    ∀ (n i : Nat) (s : MapState),
      (∀ k, (map_loop c n i s).map k =
        if i ≤ k ∧ k < i + n ∧ (c k).haspixel = 1 then (c k).pixel % 256 else s.map k) ∧
      (∀ p, (map_loop c n i s).used p ≠ 0 ↔
        (s.used p ≠ 0 ∨ ∃ k, i ≤ k ∧ k < i + n ∧ (c k).haspixel = 1 ∧ (c k).pixel % 256 = p)) ∧
      ((map_loop c n i s).trivial_map = true ↔
        (s.trivial_map = true ∧
          ∀ k, i ≤ k → k < i + n → (c k).haspixel = 1 → (c k).pixel % 256 = k)) := by
  intro n
  induction n with
  | zero =>
    intro i s
    refine ⟨?_, ?_, ?_⟩
    · intro k
      have : ¬ (i ≤ k ∧ k < i + 0 ∧ (c k).haspixel = 1) := by omega
      rw [if_neg this]
      rfl
    · intro p
      simp only [map_loop]
      constructor
      · intro h; exact Or.inl h
      · rintro (h | ⟨k, h1, h2, _⟩)
        · exact h
        · omega
    · simp only [map_loop]
      constructor
      · intro h
        exact ⟨h, fun k h1 h2 => by omega⟩
      · intro h; exact h.1
  | succ n ih =>
    intro i s
    unfold map_loop
    by_cases h1 : (c i).haspixel = 1
    · rw [if_pos h1]
      obtain ⟨g1, g2, g3⟩ := ih (i + 1)
        { map := store s.map i ((c i).pixel % 256)
          trivial_map := if (c i).pixel % 256 ≠ i then false else s.trivial_map
          used := store s.used ((c i).pixel % 256) 1 }
      refine ⟨?_, ?_, ?_⟩
      · intro k
        rw [g1 k]
        simp only [store_apply]
        by_cases hki : k = i
        · subst hki
          simp [h1]
        · have e : (i + 1 ≤ k ∧ k < i + 1 + n ∧ (c k).haspixel = 1) ↔
              (i ≤ k ∧ k < i + (n + 1) ∧ (c k).haspixel = 1) := by
            constructor <;> rintro ⟨a, b, d⟩ <;> exact ⟨by omega, by omega, d⟩
          simp only [e, hki, if_false]
      · intro p
        rw [g2 p]
        simp only [store_apply]
        constructor
        · rintro (h | ⟨k, a, b, d, e⟩)
          · by_cases hp : p = (c i).pixel % 256
            · right; exact ⟨i, le_refl _, by omega, h1, hp.symm⟩
            · left; simpa [hp] using h
          · right; exact ⟨k, by omega, by omega, d, e⟩
        · rintro (h | ⟨k, a, b, d, e⟩)
          · left
            by_cases hp : p = (c i).pixel % 256
            · simp [hp]
            · simpa [hp] using h
          · by_cases hki : k = i
            · left
              subst hki
              simp [← e]
            · right; exact ⟨k, by omega, by omega, d, e⟩
      · rw [g3]
        constructor
        · rintro ⟨a, b⟩
          have hpi : (c i).pixel % 256 = i := by
            by_contra hne
            simp [hne] at a
          refine ⟨by simpa [hpi] using a, ?_⟩
          intro k hk1 hk2 hk3
          by_cases hki : k = i
          · subst hki; exact hpi
          · exact b k (by omega) (by omega) hk3
        · rintro ⟨a, b⟩
          have hpi : (c i).pixel % 256 = i := b i (le_refl _) (by omega) h1
          refine ⟨by simpa [hpi] using a, ?_⟩
          intro k hk1 hk2 hk3
          exact b k (by omega) (by omega) hk3
    · rw [if_neg h1]
      obtain ⟨g1, g2, g3⟩ := ih (i + 1) s
      refine ⟨?_, ?_, ?_⟩
      · intro k
        rw [g1 k]
        have e : (i + 1 ≤ k ∧ k < i + 1 + n ∧ (c k).haspixel = 1) ↔
            (i ≤ k ∧ k < i + (n + 1) ∧ (c k).haspixel = 1) := by
          constructor
          · rintro ⟨a, b, d⟩
            exact ⟨by omega, by omega, d⟩
          · rintro ⟨a, b, d⟩
            by_cases hki : k = i
            · subst hki; exact absurd d h1
            · exact ⟨by omega, by omega, d⟩
        simp only [e]
      · intro p
        rw [g2 p]
        constructor
        · rintro (h | ⟨k, a, b, d, e⟩)
          · exact Or.inl h
          · right; exact ⟨k, by omega, by omega, d, e⟩
        · rintro (h | ⟨k, a, b, d, e⟩)
          · exact Or.inl h
          · by_cases hki : k = i
            · subst hki; exact absurd d h1
            · right; exact ⟨k, by omega, by omega, d, e⟩
      · rw [g3]
        constructor
        · rintro ⟨a, b⟩
          refine ⟨a, ?_⟩
          intro k hk1 hk2 hk3
          by_cases hki : k = i
          · subst hki; exact absurd hk3 h1
          · exact b k (by omega) (by omega) hk3
        · rintro ⟨a, b⟩
          exact ⟨a, fun k hk1 hk2 hk3 => b k (by omega) (by omega) hk3⟩

/-- The table `map`, the marks `used` and the flag `trivial_map` as
`create_map` leaves them. -/
theorem create_map_spec (cm : Gif_Colormap) :
    (∀ k, (create_map cm).map k =
      if k < cm.ncol ∧ (cm.col k).haspixel = 1 then (cm.col k).pixel % 256 else 0) ∧
    (∀ p, (create_map cm).used p ≠ 0 ↔
      ∃ k, k < cm.ncol ∧ (cm.col k).haspixel = 1 ∧ (cm.col k).pixel % 256 = p) ∧
    ((create_map cm).trivial_map = true ↔
      ∀ k, k < cm.ncol → (cm.col k).haspixel = 1 → (cm.col k).pixel % 256 = k) := by
  obtain ⟨g1, g2, g3⟩ := map_loop_spec cm.col cm.ncol 0
    { map := fun _ => 0, used := fun _ => 0, trivial_map := true }
  refine ⟨?_, ?_, ?_⟩
  · intro k
    have := g1 k
    simpa [create_map] using this
  · intro p
    have := g2 p
    simpa [create_map] using this
  · simpa [create_map] using g3

theorem scan_unused_spec (used : Nat → Nat) :
    ∀ (n : Nat) (found : Int),
      ((∀ k, k < n → used k ≠ 0) ∧ scan_unused used n found = found) ∨
      (∃ p : Nat, p < n ∧ used p = 0 ∧ (∀ k, k < p → used k ≠ 0) ∧
        scan_unused used n found = (p : Int)) := by
  intro n
  induction n with
  | zero =>
    intro found
    left
    exact ⟨fun k hk => absurd hk (Nat.not_lt_zero k), rfl⟩
  | succ n ih =>
    intro found
    unfold scan_unused
    rcases ih (if used n = 0 then (n : Int) else found) with ⟨h1, h2⟩ | ⟨p, h1, h2, h3, h4⟩
    · by_cases hn : used n = 0
      · right
        refine ⟨n, by omega, hn, h1, ?_⟩
        rw [h2, if_pos hn]
      · left
        refine ⟨?_, ?_⟩
        · intro k hk
          by_cases hkn : k = n
          · subst hkn; exact hn
          · exact h1 k (by omega)
        · rw [h2, if_neg hn]
    · right
      exact ⟨p, by omega, h2, h3, h4⟩


/-! ## The palette resolution of the frame merge -/
theorem local_colormap_fail (mr : MergeResult) (h0 : mr.ret = 0) :
    ∃ s : LocalState, LocalInv mr.src.col mr.src.ncol s ∧
      local_colormap mr =
        ({ mr.src with col := s.imagecol }, some { ncol := s.ncol, col := s.localcol }) ∧
      dest_colormap mr = { ncol := s.ncol, col := s.localcol } := by
  have hinv := local_colormap_loop_inv mr.src.col mr.src.ncol 0 _
    (LocalInv.at_start mr.src.col (Gif_NewFullColormap 0 256).col)
  simp only [Nat.zero_add] at hinv
  have hl : local_colormap mr =
      ({ mr.src with col := (local_colormap_loop mr.src.ncol 0
            { imagecol := mr.src.col, localcol := (Gif_NewFullColormap 0 256).col,
              ncol := 0 }).imagecol },
        some { ncol := (local_colormap_loop mr.src.ncol 0
            { imagecol := mr.src.col, localcol := (Gif_NewFullColormap 0 256).col,
              ncol := 0 }).ncol,
               col := (local_colormap_loop mr.src.ncol 0
            { imagecol := mr.src.col, localcol := (Gif_NewFullColormap 0 256).col,
              ncol := 0 }).localcol }) := by
    simp only [local_colormap]
    rw [if_pos h0]
  refine ⟨_, hinv, hl, ?_⟩
  simp only [dest_colormap, hl]

theorem local_colormap_success (mr : MergeResult) (h1 : mr.ret = 1) :
    local_colormap mr = (mr.src, none) ∧ dest_colormap mr = mr.dest := by
  have hl : local_colormap mr = (mr.src, none) := by
    simp only [local_colormap]
    rw [if_neg (by omega)]
  refine ⟨hl, ?_⟩
  simp only [dest_colormap, hl]

/-- The palette resolution of `merge_image`. -/
theorem resolve_facts (destglobal cm1 : Gif_Colormap) (mr : MergeResult)
    (hs : cm1.ncol ≤ 256) (hd : destglobal.ncol ≤ 256)
    (hf : MergeFacts destglobal cm1 mr) : ResolveFacts cm1 mr := by
  rcases hf.ret with h0 | h1
  · obtain ⟨s, hinv, hl, hdc⟩ := local_colormap_fail mr h0
    have hcol : (local_colormap mr).1.col = s.imagecol := by rw [hl]
    have hn : (local_colormap mr).1.ncol = mr.src.ncol := by rw [hl]
    have hdn : (dest_colormap mr).ncol = s.ncol := by rw [hdc]
    have hdcol : (dest_colormap mr).col = s.localcol := by rw [hdc]
    have hsn := hf.src_ncol
    refine
      { ncol := by rw [hn, hsn]
        hp := fun k => by rw [hcol, hinv.hp, hf.src_hp]
        rgb := fun k => by rw [hcol]; exact sameRGB_trans (hinv.rgb k) (hf.src_rgb k)
        slot := ?_
        cap := by rw [hdn]; have := hinv.le; omega
        is_local := fun _ => by rw [hl, hdc]
        is_global := fun h1 => by omega
        local_slot := ?_
        local_mono := ?_
        local_onto := ?_ }
    · intro k hk hk1
      rw [hcol, hdn]
      exact (hinv.slot k (by omega) (by rw [hf.src_hp, hk1]; decide)).1
    · intro _ k hk hk0
      rw [hcol, hdn, hdcol]
      exact hinv.slot k (by omega) (by rw [hf.src_hp]; exact hk0)
    · intro _ k k2 hkk hk2 hk0 hk20
      rw [hcol]
      exact hinv.mono k k2 hkk (by omega) (by rw [hf.src_hp]; exact hk0)
        (by rw [hf.src_hp]; exact hk20)
    · intro _ p hp
      rw [hdn] at hp
      obtain ⟨k, g1, g2, g3⟩ := hinv.onto p hp
      refine ⟨k, by omega, by rw [← hf.src_hp]; exact g2, ?_⟩
      rw [hcol]; exact g3
  · obtain ⟨hl, hdc⟩ := local_colormap_success mr h1
    have h1c : (local_colormap mr).1 = mr.src := by rw [hl]
    refine
      { ncol := by rw [h1c]; exact hf.src_ncol
        hp := fun k => by rw [h1c]; exact hf.src_hp k
        rgb := fun k => by rw [h1c]; exact hf.src_rgb k
        slot := ?_
        cap := by rw [hdc]; exact hf.cap hs hd
        is_local := fun h0 => by omega
        is_global := fun _ => ⟨by rw [hl], hdc, h1c⟩
        local_slot := fun h0 => by omega
        local_mono := fun h0 => by omega
        local_onto := fun h0 => by omega }
    intro k hk hk1
    rw [h1c, hdc]
    exact hf.slot h1 k hk hk1

/-- Under the hypothesis that no slot is cached on entry, every used opaque
source entry is resolved to a slot holding its own colour in the colormap
`destcm` points to, whether the merge succeeded or fell back. -/
theorem resolve_colour (destglobal cm1 : Gif_Colormap) (mr : MergeResult)
    (hs : cm1.ncol ≤ 256) (hd : destglobal.ncol ≤ 256)
    (hmr : merge_colormap_if_possible destglobal cm1 = .ok mr)
    (hf : MergeFacts destglobal cm1 mr)
    (hpix : ∀ k, k < cm1.ncol → 256 ≤ (cm1.col k).pixel) :
    ∀ k, k < cm1.ncol → (cm1.col k).haspixel = 1 →
      sameRGB ((dest_colormap mr).col ((local_colormap mr).1.col k).pixel) (cm1.col k) := by
  have hr := resolve_facts destglobal cm1 mr hs hd hf
  intro k hk hk1
  rcases hf.ret with h0 | h1
  · have := (hr.local_slot h0 k hk (by rw [hk1]; decide)).2
    rw [this]
    exact hr.rgb k
  · obtain ⟨_, g2, g3⟩ := hr.is_global h1
    rw [g2, g3]
    exact (merge_colormap_if_possible_colour destglobal cm1 hs hd hpix mr hmr h1 k hk hk1).1


/-! ## The decision on the transparent index -/
/-- A colormap of at most 256 entries, one of which is dedicated-transparent,
leaves one of the 256 slots unused by the opaque entries. -/
theorem exists_unused (cm : Gif_Colormap) (hN : cm.ncol ≤ 256) (tn : Nat) (htn : tn < cm.ncol)
    (hhp : (cm.col tn).haspixel = 2) : ∃ p, p < 256 ∧ (create_map cm).used p = 0 := by
  by_contra hcon
  have hall : ∀ p, p < 256 → (create_map cm).used p ≠ 0 := by
    intro p hp h0
    exact hcon ⟨p, hp, h0⟩
  obtain ⟨_, hused, _⟩ := create_map_spec cm
  have hsub : Finset.range 256 ⊆
      ((Finset.range cm.ncol).filter (fun k => (cm.col k).haspixel = 1)).image
        (fun k => (cm.col k).pixel % 256) := by
    intro p hp
    obtain ⟨k, hk1, hk2, hk3⟩ := (hused p).1 (hall p (Finset.mem_range.1 hp))
    exact Finset.mem_image.2 ⟨k, Finset.mem_filter.2 ⟨Finset.mem_range.2 hk1, hk2⟩, hk3⟩
  have h1 := Finset.card_le_card hsub
  have h2 := Finset.card_image_le (s := (Finset.range cm.ncol).filter
    (fun k => (cm.col k).haspixel = 1)) (f := fun k => (cm.col k).pixel % 256)
  have hsub2 : (Finset.range cm.ncol).filter (fun k => (cm.col k).haspixel = 1) ⊆
      (Finset.range cm.ncol).erase tn := by
    intro k hk
    obtain ⟨a, b⟩ := Finset.mem_filter.1 hk
    refine Finset.mem_erase.2 ⟨?_, a⟩
    intro hkt
    subst hkt
    omega
  have h3 := Finset.card_le_card hsub2
  rw [Finset.card_erase_of_mem (Finset.mem_range.2 htn), Finset.card_range] at h3
  rw [Finset.card_range] at h1
  omega

/-- While the remap of the opaque entries is the identity, the slot of a
dedicated-transparent entry is not used. -/
theorem trivial_unused (cm : Gif_Colormap) (tn : Nat) (hhp : (cm.col tn).haspixel = 2)
    (htriv : (create_map cm).trivial_map = true) : (create_map cm).used tn = 0 := by
  obtain ⟨_, hused, htr⟩ := create_map_spec cm
  by_contra hne
  obtain ⟨k, hk1, hk2, hk3⟩ := (hused tn).1 hne
  have := (htr.1 htriv) k hk1 hk2
  have hkt : k = tn := by omega
  subst hkt
  omega

/-- The three ways the transparent index is decided when the frame has one. -/
theorem decide_transparent_spec (t : Int) (cm destcm : Gif_Colormap) (hN : cm.ncol ≤ 256)
    (hD : destcm.ncol ≤ 256) (ht : 0 ≤ t) (htn : t.toNat < cm.ncol)
    (hhp : (cm.col t.toNat).haspixel = 2) :
    ((create_map cm).trivial_map = true ∧
      decide_transparent t cm.col destcm (create_map cm) =
        .ok (destcm, { create_map cm with map := store (create_map cm).map t.toNat t.toNat })) ∨
    ((create_map cm).trivial_map = false ∧
      ∃ p, p < destcm.ncol ∧ (create_map cm).used p = 0 ∧
        (∀ k, k < p → (create_map cm).used k ≠ 0) ∧
        decide_transparent t cm.col destcm (create_map cm) =
          .ok (destcm, { create_map cm with map := store (create_map cm).map t.toNat p,
                                            trivial_map := false })) ∨
    ((create_map cm).trivial_map = false ∧ destcm.ncol < 256 ∧
      (∀ k, k < destcm.ncol → (create_map cm).used k ≠ 0) ∧
      decide_transparent t cm.col destcm (create_map cm) =
        .ok ({ ncol := destcm.ncol + 1, col := store destcm.col destcm.ncol (cm.col t.toNat) },
             { create_map cm with map := store (create_map cm).map t.toNat destcm.ncol,
                                  trivial_map := false })) := by
  have ht256 : t.toNat < 256 := by omega
  have htt : (t.toNat : Int) = t := by omega
  by_cases htriv : (create_map cm).trivial_map = true
  · left
    have hu := trivial_unused cm t.toNat hhp htriv
    refine ⟨htriv, ?_⟩
    have hfound : found_transparent t destcm (create_map cm) = t := by
      simp [found_transparent, htriv, hu]
    have hnlt : ¬ t < 0 := by omega
    simp only [decide_transparent, hfound, ge_iff_le, ht, if_true, hnlt, if_false]
    simp [Nat.mod_eq_of_lt ht256, htriv]
  · have htf : (create_map cm).trivial_map = false := by
      cases h : (create_map cm).trivial_map
      · rfl
      · exact absurd h htriv
    have hfound : found_transparent t destcm (create_map cm) =
        scan_unused (create_map cm).used destcm.ncol (-1) := by
      simp [found_transparent, htf]
    rcases scan_unused_spec (create_map cm).used destcm.ncol (-1) with
      ⟨h1, h2⟩ | ⟨p, h1, h2, h3, h4⟩
    · right; right
      have hlt : destcm.ncol < 256 := by
        obtain ⟨p, hp1, hp2⟩ := exists_unused cm hN t.toNat htn hhp
        by_contra hc
        exact h1 p (by omega) hp2
      refine ⟨htf, hlt, h1, ?_⟩
      have hneg : (-1 : Int) < 0 := by decide
      simp only [decide_transparent, hfound, h2, ge_iff_le, ht, if_true, hneg]
      simp [hhp, Nat.mod_eq_of_lt hlt, htf]
    · right; left
      refine ⟨htf, p, h1, h2, h3, ?_⟩
      have hnlt : ¬ (p : Int) < 0 := by omega
      have hp256 : p < 256 := by omega
      simp only [decide_transparent, hfound, h4, ge_iff_le, ht, if_true, hnlt, if_false]
      simp [Nat.mod_eq_of_lt hp256, htf]

theorem decide_transparent_none (t : Int) (c : Nat → Gif_Color) (destcm : Gif_Colormap)
    (m : MapState) (ht : t < 0) : decide_transparent t c destcm m = .ok (destcm, m) := by
  have : ¬ t ≥ 0 := by omega
  simp [decide_transparent, this]


/-! ## Every call of the frame merge returns -/
/-- After the analysis, a frame that still has a transparent index has it
below the count, on an entry tagged dedicated-transparent. -/
theorem marked_transparent (gfi : Gif_Image) (gfcm : Gif_Colormap) (h : gfcm.ncol ≤ 256)
    (ht : 0 ≤ (mark_used_colors gfi gfcm).1.transparent) :
    (mark_used_colors gfi gfcm).1.transparent = gfi.transparent ∧
    (mark_used_colors gfi gfcm).1.transparent.toNat < gfcm.ncol ∧
    occurs gfi (mark_used_colors gfi gfcm).1.transparent.toNat ∧
    ((mark_used_colors gfi gfcm).2.col
      (mark_used_colors gfi gfcm).1.transparent.toNat).haspixel = 2 := by
  have hf := mark_used_colors_facts gfi gfcm h
  have himg := hf.image
  by_cases hc : 0 ≤ gfi.transparent ∧ gfi.transparent < (gfcm.ncol : Int) ∧
      occurs gfi gfi.transparent.toNat
  · rw [if_pos hc] at himg
    have ht' : (mark_used_colors gfi gfcm).1.transparent = gfi.transparent := by rw [himg]
    rw [ht']
    obtain ⟨c1, c2, c3⟩ := hc
    have hlt : gfi.transparent.toNat < gfcm.ncol := by omega
    refine ⟨rfl, hlt, c3, ?_⟩
    rw [hf.hp _ hlt, if_pos c3, if_pos (by omega)]
  · rw [if_neg hc] at himg
    have ht' : (mark_used_colors gfi gfcm).1.transparent = -1 := by rw [himg]
    rw [ht'] at ht
    omega

theorem merge_image_colormaps_ok (destglobal imagecm : Gif_Colormap) (srci : Gif_Image)
    (hs : imagecm.ncol ≤ 256) (hd : destglobal.ncol ≤ 256) :
    ∃ (mr : MergeResult) (destcm1 : Gif_Colormap) (m : MapState),
      merge_colormap_if_possible destglobal (mark_used_colors srci imagecm).2 = .ok mr ∧
      MergeFacts destglobal (mark_used_colors srci imagecm).2 mr ∧
      decide_transparent (mark_used_colors srci imagecm).1.transparent
        (local_colormap mr).1.col (dest_colormap mr) (create_map (local_colormap mr).1) =
          .ok (destcm1, m) ∧
      destcm1.ncol ≤ 256 ∧
      merge_image_colormaps destglobal imagecm srci =
        .ok ((match (local_colormap mr).2 with
              | some _ => mr.dest
              | none => destcm1),
             (local_colormap mr).1, (mark_used_colors srci imagecm).1,
             new_image (mark_used_colors srci imagecm).1
               (match (local_colormap mr).2 with
                | some _ => some destcm1
                | none => none) m, m) := by
  have hmk := mark_used_colors_facts srci imagecm hs
  have hs1 : (mark_used_colors srci imagecm).2.ncol ≤ 256 := by rw [hmk.ncol]; exact hs
  obtain ⟨mr, hmr, hf⟩ :=
    merge_colormap_if_possible_facts destglobal (mark_used_colors srci imagecm).2
  have hr := resolve_facts destglobal _ mr hs1 hd hf
  have hN : (local_colormap mr).1.ncol ≤ 256 := by rw [hr.ncol]; exact hs1
  have key : ∃ destcm1 m,
      decide_transparent (mark_used_colors srci imagecm).1.transparent
        (local_colormap mr).1.col (dest_colormap mr) (create_map (local_colormap mr).1) =
          .ok (destcm1, m) ∧ destcm1.ncol ≤ 256 := by
    by_cases ht : 0 ≤ (mark_used_colors srci imagecm).1.transparent
    · obtain ⟨_, t2, _, t4⟩ := marked_transparent srci imagecm hs ht
      have htn : (mark_used_colors srci imagecm).1.transparent.toNat <
          (local_colormap mr).1.ncol := by rw [hr.ncol, hmk.ncol]; exact t2
      have hhp : ((local_colormap mr).1.col
          (mark_used_colors srci imagecm).1.transparent.toNat).haspixel = 2 := by
        rw [hr.hp]; exact t4
      rcases decide_transparent_spec _ (local_colormap mr).1 (dest_colormap mr) hN hr.cap ht htn
        hhp with ⟨_, h2⟩ | ⟨_, p, _, _, _, h2⟩ | ⟨_, hlt, _, h2⟩
      · exact ⟨_, _, h2, hr.cap⟩
      · exact ⟨_, _, h2, hr.cap⟩
      · exact ⟨_, _, h2, by simp only; omega⟩
    · exact ⟨_, _, decide_transparent_none _ _ _ _ (by omega), hr.cap⟩
  obtain ⟨destcm1, m, hdt, hcap⟩ := key
  refine ⟨mr, destcm1, m, hmr, hf, hdt, hcap, ?_⟩
  simp only [merge_image_colormaps, hmr, hdt]
  rw [if_neg (by omega)]

/-- Every call of `merge_image` on streams whose palettes exist and have at
most 256 entries returns: no assertion fails. -/
theorem merge_image_run (dest src : Gif_Stream) (srci : Gif_Image)
    (destglobal imagecm : Gif_Colormap) (hg : dest.global = some destglobal)
    (hi : governing src srci = some imagecm) (hs : imagecm.ncol ≤ 256)
    (hd : destglobal.ncol ≤ 256) :
    ∃ r mr destcm1 m, Run dest src srci destglobal imagecm r mr destcm1 m := by
  obtain ⟨mr, destcm1, m, h1, h2, h3, h4, h5⟩ :=
    merge_image_colormaps_ok destglobal imagecm srci hs hd
  have hs1 : (mark_used_colors srci imagecm).2.ncol ≤ 256 := by
    rw [(mark_used_colors_facts srci imagecm hs).ncol]; exact hs
  have hr := resolve_facts destglobal _ mr hs1 hd h2
  have hcall : ∃ r, merge_image dest src srci = .ok r ∧
      r = { dest := { dest with
                      global := some (match (local_colormap mr).2 with
                                      | some _ => mr.dest
                                      | none => destcm1)
                      images := dest.images ++ [new_image (mark_used_colors srci imagecm).1
                        (match (local_colormap mr).2 with
                         | some _ => some destcm1
                         | none => none) m] }
            src := match srci.«local» with
                   | some _ => src
                   | none => { src with global := some (local_colormap mr).1 }
            srci := match srci.«local» with
                    | some _ => { (mark_used_colors srci imagecm).1 with
                                  «local» := some (local_colormap mr).1 }
                    | none => (mark_used_colors srci imagecm).1
            desti := new_image (mark_used_colors srci imagecm).1
                        (match (local_colormap mr).2 with
                         | some _ => some destcm1
                         | none => none) m
            map := m.map
            trivial_map := m.trivial_map } := by
    refine ⟨_, ?_, rfl⟩
    simp only [merge_image, hi, hg, h5, Gif_AddImage]
  obtain ⟨r, hcall, hr_eq⟩ := hcall
  have himg := (mark_used_colors_facts srci imagecm hs).image
  have hloc1 : (mark_used_colors srci imagecm).1.«local» = srci.«local» := by rw [himg]
  refine ⟨r, mr, destcm1, m, ?_⟩
  rcases h2.ret with h0 | h1'
  · have hl := hr.is_local h0
    have hdl : r.desti.«local» = some destcm1 := by
      rw [hr_eq]; simp only [new_image, hl]
    refine
      { call := hcall, merge := h1, mfacts := h2, transp := h3, cap := h4, out := ?_,
        dest_global := ?_, desti_local := ?_, desti := ?_, map := by rw [hr_eq],
        trivial := by rw [hr_eq], srci_transparent := ?_, src_governing := ?_,
        images := by rw [hr_eq] }
    · simp only [governing, hdl]
    · rw [hr_eq]; simp only [hl, h0, if_true]
    · rw [hdl, if_pos h0]
    · rw [hdl]; rw [hr_eq]; simp only [hl]
    · rw [hr_eq]
      cases hsl : srci.«local» <;> simp
    · rw [hr_eq]
      cases hsl : srci.«local» with
      | none => simp only [governing, hsl]; rw [hloc1, hsl]
      | some l => simp only [governing]
  · obtain ⟨hl, _, _⟩ := hr.is_global h1'
    have hne : ¬ mr.ret = 0 := by omega
    have hdl : r.desti.«local» = none := by
      rw [hr_eq]; simp only [new_image, hl]
    refine
      { call := hcall, merge := h1, mfacts := h2, transp := h3, cap := h4, out := ?_,
        dest_global := ?_, desti_local := ?_, desti := ?_, map := by rw [hr_eq],
        trivial := by rw [hr_eq], srci_transparent := ?_, src_governing := ?_,
        images := by rw [hr_eq] }
    · simp only [governing, hdl]
      rw [hr_eq]; simp only [hl]
    · rw [hr_eq]; simp only [hl, hne, if_false]
    · rw [hdl, if_neg hne]
    · rw [hdl]; rw [hr_eq]; simp only [hl]
    · rw [hr_eq]
      cases hsl : srci.«local» <;> simp
    · rw [hr_eq]
      cases hsl : srci.«local» with
      | none => simp only [governing, hsl]; rw [hloc1, hsl]
      | some l => simp only [governing]


/-! ## The final remap table -/
theorem create_map_byte (cm : Gif_Colormap) (k : Nat) : (create_map cm).map k < 256 := by
  rw [(create_map_spec cm).1 k]
  split
  · exact Nat.mod_lt _ (by decide)
  · decide

theorem final_facts (cm1 : Gif_Colormap) (t : Int) (mr : MergeResult) (destcm1 : Gif_Colormap)
    (m : MapState) (hs1 : cm1.ncol ≤ 256) (hr : ResolveFacts cm1 mr)
    (ht2 : 0 ≤ t → t.toNat < cm1.ncol ∧ (cm1.col t.toNat).haspixel = 2)
    (hdt : decide_transparent t (local_colormap mr).1.col (dest_colormap mr)
      (create_map (local_colormap mr).1) = .ok (destcm1, m)) :
    FinalFacts cm1 t mr destcm1 m := by
  obtain ⟨hmap, hused, htriv⟩ := create_map_spec (local_colormap mr).1
  have hN : (local_colormap mr).1.ncol ≤ 256 := by rw [hr.ncol]; exact hs1
  have hcap := hr.cap
  -- the opaque entries in the table before the transparent index is decided
  have hop : ∀ k, k < cm1.ncol → (cm1.col k).haspixel = 1 →
      (create_map (local_colormap mr).1).map k = ((local_colormap mr).1.col k).pixel ∧
      (create_map (local_colormap mr).1).map k < (dest_colormap mr).ncol := by
    intro k hk hk1
    have hsl := hr.slot k hk hk1
    rw [hmap k, if_pos ⟨by rw [hr.ncol]; exact hk, by rw [hr.hp]; exact hk1⟩,
      Nat.mod_eq_of_lt (by omega)]
    exact ⟨rfl, hsl⟩
  have hop_used : ∀ k, k < cm1.ncol → (cm1.col k).haspixel = 1 →
      (create_map (local_colormap mr).1).used ((create_map (local_colormap mr).1).map k) ≠ 0 := by
    intro k hk hk1
    rw [hused]
    refine ⟨k, by rw [hr.ncol]; exact hk, by rw [hr.hp]; exact hk1, ?_⟩
    rw [hmap k, if_pos ⟨by rw [hr.ncol]; exact hk, by rw [hr.hp]; exact hk1⟩]
  have hop_triv : (create_map (local_colormap mr).1).trivial_map = true →
      ∀ k, k < cm1.ncol → (cm1.col k).haspixel = 1 →
        (create_map (local_colormap mr).1).map k = k := by
    intro h k hk hk1
    rw [hmap k, if_pos ⟨by rw [hr.ncol]; exact hk, by rw [hr.hp]; exact hk1⟩]
    exact htriv.1 h k (by rw [hr.ncol]; exact hk) (by rw [hr.hp]; exact hk1)
  by_cases ht : 0 ≤ t
  · obtain ⟨t1, t3⟩ := ht2 ht
    have htn : t.toNat < (local_colormap mr).1.ncol := by rw [hr.ncol]; exact t1
    have hhp : ((local_colormap mr).1.col t.toNat).haspixel = 2 := by rw [hr.hp]; exact t3
    have hne : ∀ k, (cm1.col k).haspixel = 1 → k ≠ t.toNat := by
      intro k hk1 hkt
      subst hkt
      omega
    rcases decide_transparent_spec t (local_colormap mr).1 (dest_colormap mr) hN hcap ht htn hhp
      with ⟨c1, c2⟩ | ⟨c1, p, c2, c3, c4, c5⟩ | ⟨c1, c2, c3, c4⟩
    · rw [c2] at hdt
      injection hdt with hdt
      injection hdt with hd1 hd2
      subst hd1 hd2
      refine
        { opaque_slot := ?_, grow := le_refl _, same := fun _ _ => rfl, triv := ?_, triv_t := ?_,
          ntriv_t := ?_, distinct := ?_, byte := ?_, no_transparent := fun _ => rfl }
      · intro k hk hk1
        simp only [store_other _ _ _ _ (hne k hk1)]
        exact hop k hk hk1
      · intro _ k hk hk1
        simp only [store_other _ _ _ _ (hne k hk1)]
        exact hop_triv c1 k hk hk1
      · intro _ _
        simp
      · intro hf _
        simp only at hf
        rw [c1] at hf
        exact absurd hf (by decide)
      · intro _ k hk hk1
        simp only [store_other _ _ _ _ (hne k hk1), store_same]
        rw [hop_triv c1 k hk hk1]
        exact hne k hk1
      · intro k
        simp only [store_apply]
        split
        · omega
        · exact create_map_byte _ k
    · rw [c5] at hdt
      injection hdt with hdt
      injection hdt with hd1 hd2
      subst hd1 hd2
      refine
        { opaque_slot := ?_, grow := le_refl _, same := fun _ _ => rfl, triv := ?_, triv_t := ?_,
          ntriv_t := ?_, distinct := ?_, byte := ?_, no_transparent := fun _ => rfl }
      · intro k hk hk1
        simp only [store_other _ _ _ _ (hne k hk1)]
        exact hop k hk hk1
      · intro hf
        simp only at hf
        exact absurd hf (by decide)
      · intro hf
        simp only at hf
        exact absurd hf (by decide)
      · intro _ _
        simpa using c2
      · intro _ k hk hk1
        simp only [store_other _ _ _ _ (hne k hk1), store_same]
        intro heq
        have := hop_used k hk hk1
        rw [heq] at this
        exact this c3
      · intro k
        simp only [store_apply]
        split
        · omega
        · exact create_map_byte _ k
    · rw [c4] at hdt
      injection hdt with hdt
      injection hdt with hd1 hd2
      subst hd1 hd2
      refine
        { opaque_slot := ?_, grow := by simp, same := ?_, triv := ?_, triv_t := ?_,
          ntriv_t := ?_, distinct := ?_, byte := ?_, no_transparent := fun h => by omega }
      · intro k hk hk1
        simp only [store_other _ _ _ _ (hne k hk1)]
        exact hop k hk hk1
      · intro p hp
        simp only
        exact store_other _ _ _ _ (by omega)
      · intro hf
        simp only at hf
        exact absurd hf (by decide)
      · intro hf
        simp only at hf
        exact absurd hf (by decide)
      · intro _ _
        simp
      · intro _ k hk hk1
        simp only [store_other _ _ _ _ (hne k hk1), store_same]
        have := (hop k hk hk1).2
        omega
      · intro k
        simp only [store_apply]
        split
        · omega
        · exact create_map_byte _ k
  · rw [decide_transparent_none _ _ _ _ (by omega)] at hdt
    injection hdt with hdt
    injection hdt with hd1 hd2
    subst hd1 hd2
    exact
      { opaque_slot := hop, grow := le_refl _, same := fun _ _ => rfl, triv := hop_triv,
        triv_t := fun _ h => absurd h ht, ntriv_t := fun _ h => absurd h ht,
        distinct := fun h => absurd h ht, byte := create_map_byte _,
        no_transparent := fun _ => rfl }


/-! ## The bytes of the output frame -/
theorem Run.facts {dest src : Gif_Stream} {srci : Gif_Image} {destglobal imagecm : Gif_Colormap}
    {r : ImageResult} {mr : MergeResult} {destcm1 : Gif_Colormap} {m : MapState}
    (h : Run dest src srci destglobal imagecm r mr destcm1 m) (hs : imagecm.ncol ≤ 256)
    (hd : destglobal.ncol ≤ 256) :
    MarkFacts srci imagecm (mark_used_colors srci imagecm) ∧
    ResolveFacts (mark_used_colors srci imagecm).2 mr ∧
    FinalFacts (mark_used_colors srci imagecm).2 (mark_used_colors srci imagecm).1.transparent
      mr destcm1 m := by
  have hmk := mark_used_colors_facts srci imagecm hs
  have hs1 : (mark_used_colors srci imagecm).2.ncol ≤ 256 := by rw [hmk.ncol]; exact hs
  have hr := resolve_facts destglobal _ mr hs1 hd h.mfacts
  refine ⟨hmk, hr, final_facts _ _ mr destcm1 m hs1 hr ?_ h.transp⟩
  intro ht
  obtain ⟨_, t2, _, t4⟩ := marked_transparent srci imagecm hs ht
  rw [hmk.ncol]
  exact ⟨t2, t4⟩

theorem marked_pixelAt (gfi : Gif_Image) (gfcm : Gif_Colormap) (j i : Nat) :
    (mark_used_colors gfi gfcm).1.pixelAt j i = gfi.pixelAt j i ∧
    (mark_used_colors gfi gfcm).1.width = gfi.width ∧
    (mark_used_colors gfi gfcm).1.height = gfi.height := by
  unfold mark_used_colors
  simp only
  split <;> exact ⟨rfl, rfl, rfl⟩

/-- The bytes of the new image: the source byte when `trivial_map` holds, its
image under `map` otherwise. -/
theorem new_image_pixelAt (g : Gif_Image) (lc : Option Gif_Colormap) (m : MapState)
    (hb : ∀ k, m.map k < 256) (j i : Nat) (hj : j < g.height) (hi : i < g.width) :
    (new_image g lc m).pixelAt j i =
      if m.trivial_map = true then g.pixelAt j i else m.map (g.pixelAt j i) := by
  have hp : g.pixelAt j i < 256 := Nat.mod_lt _ (by decide)
  simp only [new_image, Gif_Image.pixelAt, hj, hi, and_self, if_true]
  split
  · exact Nat.mod_eq_of_lt hp
  · exact Nat.mod_eq_of_lt (hb _)

/-- In a returning call the byte of the output frame at a position is the
source byte there, or its image under the final `map`. -/
theorem Run.pixelAt {dest src : Gif_Stream} {srci : Gif_Image} {destglobal imagecm : Gif_Colormap}
    {r : ImageResult} {mr : MergeResult} {destcm1 : Gif_Colormap} {m : MapState}
    (h : Run dest src srci destglobal imagecm r mr destcm1 m) (hs : imagecm.ncol ≤ 256)
    (hd : destglobal.ncol ≤ 256) (j i : Nat) (hj : j < srci.height) (hi : i < srci.width) :
    r.desti.pixelAt j i =
      if m.trivial_map = true then srci.pixelAt j i else m.map (srci.pixelAt j i) := by
  obtain ⟨_, _, hfin⟩ := h.facts hs hd
  obtain ⟨p1, p2, p3⟩ := marked_pixelAt srci imagecm j i
  rw [h.desti, new_image_pixelAt _ _ _ hfin.byte j i (by rw [p3]; exact hj) (by rw [p2]; exact hi),
    p1]

/-- An opaque byte `v` of the frame (valid, occurring, not the transparent
index) is tagged used by the analysis, and the output byte at its positions is
`map[v]`, a slot below the count of the colormap `destcm` points to. -/
theorem Run.opaque_pixel {dest src : Gif_Stream} {srci : Gif_Image}
    {destglobal imagecm : Gif_Colormap} {r : ImageResult} {mr : MergeResult}
    {destcm1 : Gif_Colormap} {m : MapState}
    (h : Run dest src srci destglobal imagecm r mr destcm1 m) (hs : imagecm.ncol ≤ 256)
    (hd : destglobal.ncol ≤ 256) (j i : Nat) (hj : j < srci.height) (hi : i < srci.width)
    (hv : srci.pixelAt j i < imagecm.ncol) (hne : (srci.pixelAt j i : Int) ≠ srci.transparent) :
    ((mark_used_colors srci imagecm).2.col (srci.pixelAt j i)).haspixel = 1 ∧
    r.desti.pixelAt j i = m.map (srci.pixelAt j i) ∧
    m.map (srci.pixelAt j i) = ((local_colormap mr).1.col (srci.pixelAt j i)).pixel ∧
    m.map (srci.pixelAt j i) < (dest_colormap mr).ncol := by
  obtain ⟨hmk, hr, hfin⟩ := h.facts hs hd
  have hocc : occurs srci (srci.pixelAt j i) := ⟨j, hj, i, hi, rfl⟩
  have hhp : ((mark_used_colors srci imagecm).2.col (srci.pixelAt j i)).haspixel = 1 := by
    rw [hmk.hp _ hv, if_pos hocc, if_neg hne]
  have hv1 : srci.pixelAt j i < (mark_used_colors srci imagecm).2.ncol := by
    rw [hmk.ncol]; exact hv
  obtain ⟨o1, o2⟩ := hfin.opaque_slot _ hv1 hhp
  refine ⟨hhp, ?_, o1, o2⟩
  rw [h.pixelAt hs hd j i hj hi]
  split
  · rename_i htr
    exact (hfin.triv htr _ hv1 hhp).symm
  · rfl


/-- The transparent index of the output frame: `map[transparent]` when the
frame still has a transparent index after the analysis, else none. -/
theorem Run.transparent {dest src : Gif_Stream} {srci : Gif_Image}
    {destglobal imagecm : Gif_Colormap} {r : ImageResult} {mr : MergeResult}
    {destcm1 : Gif_Colormap} {m : MapState}
    (h : Run dest src srci destglobal imagecm r mr destcm1 m) :
    r.desti.transparent =
      if 0 ≤ (mark_used_colors srci imagecm).1.transparent
      then (m.map (mark_used_colors srci imagecm).1.transparent.toNat : Int) else -1 := by
  rw [h.desti]
  simp only [new_image, Gif_NewImage]
  by_cases ht : 0 ≤ (mark_used_colors srci imagecm).1.transparent
  · rw [if_pos ht, if_pos (by omega)]
  · rw [if_neg ht, if_neg (by omega)]

/-! ## The claims -/

/-- C1. Single-frame colour preservation of `merge_image`: when no entry of the
governing source palette has a cached slot (`pixel = 256`), both palettes have
at most 256 entries and every source pixel is a valid index, the call returns
and every pixel whose source value is not the frame's transparent index
is, in the output frame, an index below the count of the output frame's
governing palette whose entry has the RGB the source value had under the
governing source palette. -/
theorem merge_image_preserves_colour (dest src : Gif_Stream) (srci : Gif_Image)
    (destglobal imagecm : Gif_Colormap) (hg : dest.global = some destglobal)
    (hi : governing src srci = some imagecm) (hs : imagecm.ncol ≤ 256)
    (hd : destglobal.ncol ≤ 256)
    (hpix : ∀ k, k < imagecm.ncol → (imagecm.col k).pixel = 256)
    (hv : validPixels srci imagecm.ncol) :
    ∃ r out, merge_image dest src srci = .ok r ∧ governing r.dest r.desti = some out ∧
      ∀ j, j < srci.height → ∀ i, i < srci.width →
        (srci.pixelAt j i : Int) ≠ srci.transparent →
          r.desti.pixelAt j i < out.ncol ∧
          sameRGB (out.col (r.desti.pixelAt j i)) (imagecm.col (srci.pixelAt j i)) := by
  obtain ⟨r, mr, destcm1, m, hrun⟩ := merge_image_run dest src srci destglobal imagecm hg hi hs hd
  obtain ⟨hmk, hr, hfin⟩ := hrun.facts hs hd
  refine ⟨r, destcm1, hrun.call, hrun.out, ?_⟩
  intro j hj i hi2 hne
  obtain ⟨o1, o2, o3, o4⟩ := hrun.opaque_pixel hs hd j i hj hi2 (hv j hj i hi2) hne
  have hs1 : (mark_used_colors srci imagecm).2.ncol ≤ 256 := by rw [hmk.ncol]; exact hs
  have hcol := resolve_colour destglobal _ mr hs1 hd hrun.merge hrun.mfacts
    (by
      intro k hk
      rw [hmk.pixel, hpix k (by rw [← hmk.ncol]; exact hk)])
    (srci.pixelAt j i) (by rw [hmk.ncol]; exact hv j hj i hi2) o1
  have hgrow := hfin.grow
  rw [o2]
  refine ⟨by omega, ?_⟩
  rw [hfin.same _ o4, o3]
  exact sameRGB_trans hcol (hmk.rgb _)

/-- C1, at the frame `[0, 2]` with transparent index 2 merged into an empty
destination palette. -/
theorem merge_image_preserves_colour_witness :
    (exDest.global = some exEmpty ∧ governing exSrc exFrame = some exPalette ∧
      exPalette.ncol ≤ 256 ∧ exEmpty.ncol ≤ 256 ∧
      (∀ k, k < exPalette.ncol → (exPalette.col k).pixel = 256) ∧
      validPixels exFrame exPalette.ncol) ∧
    ∃ r out, merge_image exDest exSrc exFrame = .ok r ∧ governing r.dest r.desti = some out ∧
      ∀ j, j < exFrame.height → ∀ i, i < exFrame.width →
        (exFrame.pixelAt j i : Int) ≠ exFrame.transparent →
          r.desti.pixelAt j i < out.ncol ∧
          sameRGB (out.col (r.desti.pixelAt j i)) (exPalette.col (exFrame.pixelAt j i)) :=
  ⟨⟨rfl, rfl, by decide, by decide, by decide, by decide⟩,
    merge_image_preserves_colour exDest exSrc exFrame exEmpty exPalette rfl rfl (by decide)
      (by decide) (by decide) (by decide)⟩

/-- C2 as stated fails: the frame `[0, 2]` with transparent index 2, merged
into an empty destination palette, keeps its bytes, and the byte 2 is not
below the count 1 of the destination palette after the call. -/
theorem output_pixel_validity_counterexample :
    ∃ r out, merge_image exDest exSrc exFrame = .ok r ∧ governing r.dest r.desti = some out ∧
      validPixels exFrame exPalette.ncol ∧ exPalette.ncol ≤ 256 ∧ exEmpty.ncol ≤ 256 ∧
      out.ncol = 1 ∧ r.desti.pixelAt 0 1 = 2 ∧ r.desti.transparent = 2 ∧
      ¬ (∀ j, j < r.desti.height → ∀ i, i < r.desti.width → r.desti.pixelAt j i < out.ncol) :=
  ⟨_, _, rfl, rfl, by decide, by decide, by decide, by decide, by decide, by decide, by decide⟩

/-- C2, amended. For valid source pixels and palettes of at most 256 entries
the call returns, and every byte of the output frame is below the count of the
output frame's governing palette, except that a byte equal to the output
transparent index may be the source's own transparent index, kept because the
remap is the identity (`trivial_map`), and then it is below the count of the
governing source palette. -/
theorem output_pixel_validity (dest src : Gif_Stream) (srci : Gif_Image)
    (destglobal imagecm : Gif_Colormap) (hg : dest.global = some destglobal)
    (hi : governing src srci = some imagecm) (hs : imagecm.ncol ≤ 256)
    (hd : destglobal.ncol ≤ 256) (hv : validPixels srci imagecm.ncol) :
    ∃ r out, merge_image dest src srci = .ok r ∧ governing r.dest r.desti = some out ∧
      ∀ j, j < r.desti.height → ∀ i, i < r.desti.width →
        r.desti.pixelAt j i < out.ncol ∨
        (r.trivial_map = true ∧ (r.desti.pixelAt j i : Int) = r.desti.transparent ∧
          r.desti.transparent = srci.transparent ∧ r.desti.pixelAt j i < imagecm.ncol) := by
  obtain ⟨r, mr, destcm1, m, hrun⟩ := merge_image_run dest src srci destglobal imagecm hg hi hs hd
  obtain ⟨hmk, hr, hfin⟩ := hrun.facts hs hd
  refine ⟨r, destcm1, hrun.call, hrun.out, ?_⟩
  have hw : r.desti.width = srci.width := by
    rw [hrun.desti]; exact (marked_pixelAt srci imagecm 0 0).2.1
  have hh : r.desti.height = srci.height := by
    rw [hrun.desti]; exact (marked_pixelAt srci imagecm 0 0).2.2
  intro j hj i hi2
  rw [hh] at hj
  rw [hw] at hi2
  have hval := hv j hj i hi2
  by_cases hne : (srci.pixelAt j i : Int) = srci.transparent
  · have hocc : occurs srci (srci.pixelAt j i) := ⟨j, hj, i, hi2, rfl⟩
    have htn : srci.transparent.toNat = srci.pixelAt j i := by omega
    have ht' : (mark_used_colors srci imagecm).1.transparent = srci.transparent := by
      rw [hmk.image, if_pos ⟨by omega, by omega, by rw [htn]; exact hocc⟩]
    have ht0 : 0 ≤ (mark_used_colors srci imagecm).1.transparent := by rw [ht']; omega
    have hT := hrun.transparent
    rw [if_pos ht0, ht', htn] at hT
    have hpx := hrun.pixelAt hs hd j i hj hi2
    by_cases htr : m.trivial_map = true
    · right
      have := hfin.triv_t htr ht0
      rw [ht', htn] at this
      rw [if_pos htr] at hpx
      refine ⟨by rw [hrun.trivial]; exact htr, ?_, ?_, by rw [hpx]; exact hval⟩
      · rw [hT, this, hpx]
      · rw [hT, this, hne]
    · left
      have htf : m.trivial_map = false := by
        cases hm : m.trivial_map
        · rfl
        · exact absurd hm htr
      have := hfin.ntriv_t htf ht0
      rw [ht', htn] at this
      rw [if_neg htr] at hpx
      rw [hpx]
      exact this
  · left
    obtain ⟨_, o2, _, o4⟩ := hrun.opaque_pixel hs hd j i hj hi2 hval hne
    rw [o2]
    have := hfin.grow
    omega

/-- C2 amended, at the frame `[0, 2]` with transparent index 2 merged into an
empty destination palette. -/
theorem output_pixel_validity_witness :
    (exDest.global = some exEmpty ∧ governing exSrc exFrame = some exPalette ∧
      exPalette.ncol ≤ 256 ∧ exEmpty.ncol ≤ 256 ∧ validPixels exFrame exPalette.ncol) ∧
    ∃ r out, merge_image exDest exSrc exFrame = .ok r ∧ governing r.dest r.desti = some out ∧
      ∀ j, j < r.desti.height → ∀ i, i < r.desti.width →
        r.desti.pixelAt j i < out.ncol ∨
        (r.trivial_map = true ∧ (r.desti.pixelAt j i : Int) = r.desti.transparent ∧
          r.desti.transparent = exFrame.transparent ∧ r.desti.pixelAt j i < exPalette.ncol) :=
  ⟨⟨rfl, rfl, by decide, by decide, by decide⟩,
    output_pixel_validity exDest exSrc exFrame exEmpty exPalette rfl rfl (by decide) (by decide)
      (by decide)⟩


/-- C3. Palette capacity: when the destination shared palette and the
governing source palette have at most 256 entries, `merge_colormap_if_possible`
returns (with 0 or 1) a destination of at most 256 entries, and `merge_image`
returns, so none of its assertions fails, `destcm->ncol <= 256` included,
leaving at most 256 entries in the destination shared palette and in the
private palette of the output frame, if it has one. -/
theorem palette_capacity (dest src : Gif_Stream) (srci : Gif_Image)
    (destglobal imagecm : Gif_Colormap) (hg : dest.global = some destglobal)
    (hi : governing src srci = some imagecm) (hs : imagecm.ncol ≤ 256)
    (hd : destglobal.ncol ≤ 256) :
    (∃ mr, merge_colormap_if_possible destglobal imagecm = .ok mr ∧
      (mr.ret = 0 ∨ mr.ret = 1) ∧ mr.dest.ncol ≤ 256) ∧
    ∃ r, merge_image dest src srci = .ok r ∧
      (∃ g, r.dest.global = some g ∧ g.ncol ≤ 256) ∧
      (∀ l, r.desti.«local» = some l → l.ncol ≤ 256) := by
  constructor
  · obtain ⟨mr, h1, h2⟩ := merge_colormap_if_possible_facts destglobal imagecm
    exact ⟨mr, h1, h2.ret, h2.cap hs hd⟩
  · obtain ⟨r, mr, destcm1, m, hrun⟩ :=
      merge_image_run dest src srci destglobal imagecm hg hi hs hd
    obtain ⟨hmk, _, _⟩ := hrun.facts hs hd
    have hs1 : (mark_used_colors srci imagecm).2.ncol ≤ 256 := by rw [hmk.ncol]; exact hs
    refine ⟨r, hrun.call, ⟨_, hrun.dest_global, ?_⟩, ?_⟩
    · split
      · exact hrun.mfacts.cap hs1 hd
      · exact hrun.cap
    · intro l hl
      rw [hrun.desti_local] at hl
      split at hl
      · injection hl with hl
        rw [← hl]
        exact hrun.cap
      · exact absurd hl (by simp)

/-- C3, at the frame `[0, 2]` with transparent index 2 merged into an empty
destination palette. -/
theorem palette_capacity_witness :
    (exDest.global = some exEmpty ∧ governing exSrc exFrame = some exPalette ∧
      exPalette.ncol ≤ 256 ∧ exEmpty.ncol ≤ 256) ∧
    (∃ mr, merge_colormap_if_possible exEmpty exPalette = .ok mr ∧
      (mr.ret = 0 ∨ mr.ret = 1) ∧ mr.dest.ncol ≤ 256) ∧
    ∃ r, merge_image exDest exSrc exFrame = .ok r ∧
      (∃ g, r.dest.global = some g ∧ g.ncol ≤ 256) ∧
      (∀ l, r.desti.«local» = some l → l.ncol ≤ 256) :=
  ⟨⟨rfl, rfl, by decide, by decide⟩,
    palette_capacity exDest exSrc exFrame exEmpty exPalette rfl rfl (by decide) (by decide)⟩

/-- C8. Transparency survives remapping: when the source pixels are valid
indices (palettes of at most 256 entries) and the declared transparent index
is below the governing palette count and occurs in the pixel data, the call
returns, the output frame has a transparent index `T ≥ 0`, and a byte of the
output frame equals `T` exactly where the source byte equals the source
transparent index. -/
theorem transparency_survives (dest src : Gif_Stream) (srci : Gif_Image)
    (destglobal imagecm : Gif_Colormap) (hg : dest.global = some destglobal)
    (hi : governing src srci = some imagecm) (hs : imagecm.ncol ≤ 256)
    (hd : destglobal.ncol ≤ 256) (hv : validPixels srci imagecm.ncol)
    (ht0 : 0 ≤ srci.transparent) (htN : srci.transparent < (imagecm.ncol : Int))
    (hocc : occurs srci srci.transparent.toNat) :
    ∃ r, merge_image dest src srci = .ok r ∧ 0 ≤ r.desti.transparent ∧
      ∀ j, j < srci.height → ∀ i, i < srci.width →
        ((r.desti.pixelAt j i : Int) = r.desti.transparent ↔
          (srci.pixelAt j i : Int) = srci.transparent) := by
  obtain ⟨r, mr, destcm1, m, hrun⟩ := merge_image_run dest src srci destglobal imagecm hg hi hs hd
  obtain ⟨hmk, hr, hfin⟩ := hrun.facts hs hd
  have ht' : (mark_used_colors srci imagecm).1.transparent = srci.transparent := by
    rw [hmk.image, if_pos ⟨ht0, htN, hocc⟩]
  have ht0' : 0 ≤ (mark_used_colors srci imagecm).1.transparent := by rw [ht']; exact ht0
  have hT := hrun.transparent
  rw [if_pos ht0', ht'] at hT
  refine ⟨r, hrun.call, by rw [hT]; omega, ?_⟩
  intro j hj i hi2
  rw [hT]
  constructor
  · intro heq
    by_contra hne
    obtain ⟨o1, o2, _, _⟩ := hrun.opaque_pixel hs hd j i hj hi2 (hv j hj i hi2) hne
    have hdis := hfin.distinct ht0' (srci.pixelAt j i) (by rw [hmk.ncol]; exact hv j hj i hi2) o1
    rw [ht'] at hdis
    rw [o2] at heq
    omega
  · intro heq
    have htn : srci.transparent.toNat = srci.pixelAt j i := by omega
    rw [hrun.pixelAt hs hd j i hj hi2, htn]
    split
    · rename_i htr
      have := hfin.triv_t htr ht0'
      rw [ht', htn] at this
      rw [this]
    · rfl

/-- C8, at the frame `[0, 2]` with transparent index 2 merged into an empty
destination palette. -/
theorem transparency_survives_witness :
    (exDest.global = some exEmpty ∧ governing exSrc exFrame = some exPalette ∧
      exPalette.ncol ≤ 256 ∧ exEmpty.ncol ≤ 256 ∧ validPixels exFrame exPalette.ncol ∧
      0 ≤ exFrame.transparent ∧ exFrame.transparent < (exPalette.ncol : Int) ∧
      occurs exFrame exFrame.transparent.toNat) ∧
    ∃ r, merge_image exDest exSrc exFrame = .ok r ∧ 0 ≤ r.desti.transparent ∧
      ∀ j, j < exFrame.height → ∀ i, i < exFrame.width →
        ((r.desti.pixelAt j i : Int) = r.desti.transparent ↔
          (exFrame.pixelAt j i : Int) = exFrame.transparent) :=
  ⟨⟨rfl, rfl, by decide, by decide, by decide, by decide, by decide, by decide⟩,
    transparency_survives exDest exSrc exFrame exEmpty exPalette rfl rfl (by decide) (by decide)
      (by decide) (by decide) (by decide) (by decide)⟩

/-- C9. Declared-but-unused transparency is dropped: when the declared
transparent index `t ≥ 0` never occurs in the pixel data (palettes of at most
256 entries), the call returns, the output frame has no transparent index
(`-1`), the source frame's transparent index is cleared to `-1`, and, when `t`
is below the palette count, entry `t` of the governing source palette is
tagged unused (0), not dedicated-transparent. -/
theorem unused_transparency_dropped (dest src : Gif_Stream) (srci : Gif_Image)
    (destglobal imagecm : Gif_Colormap) (hg : dest.global = some destglobal)
    (hi : governing src srci = some imagecm) (hs : imagecm.ncol ≤ 256)
    (hd : destglobal.ncol ≤ 256) (ht0 : 0 ≤ srci.transparent)
    (hocc : ¬ occurs srci srci.transparent.toNat) :
    ∃ r cm, merge_image dest src srci = .ok r ∧ r.desti.transparent = -1 ∧
      r.srci.transparent = -1 ∧ governing r.src r.srci = some cm ∧
      (srci.transparent < (imagecm.ncol : Int) → (cm.col srci.transparent.toNat).haspixel = 0) := by
  obtain ⟨r, mr, destcm1, m, hrun⟩ := merge_image_run dest src srci destglobal imagecm hg hi hs hd
  obtain ⟨hmk, hr, hfin⟩ := hrun.facts hs hd
  have ht' : (mark_used_colors srci imagecm).1.transparent = -1 := by
    rw [hmk.image, if_neg (fun hc => hocc hc.2.2)]
  refine ⟨r, _, hrun.call, ?_, ?_, hrun.src_governing, ?_⟩
  · rw [hrun.transparent, ht']
    rfl
  · rw [hrun.srci_transparent, ht']
  · intro hlt
    rw [hr.hp, hmk.hp _ (by omega), if_neg hocc]

/-- C9, at the frame `[0, 2]` declaring the transparent index 1. -/
theorem unused_transparency_dropped_witness :
    (exDest.global = some exEmpty ∧ governing exSrc exFrameUnused = some exPalette ∧
      exPalette.ncol ≤ 256 ∧ exEmpty.ncol ≤ 256 ∧ 0 ≤ exFrameUnused.transparent ∧
      ¬ occurs exFrameUnused exFrameUnused.transparent.toNat) ∧
    ∃ r cm, merge_image exDest exSrc exFrameUnused = .ok r ∧ r.desti.transparent = -1 ∧
      r.srci.transparent = -1 ∧ governing r.src r.srci = some cm ∧
      (exFrameUnused.transparent < (exPalette.ncol : Int) →
        (cm.col exFrameUnused.transparent.toNat).haspixel = 0) :=
  ⟨⟨rfl, rfl, by decide, by decide, by decide, by decide⟩,
    unused_transparency_dropped exDest exSrc exFrameUnused exEmpty exPalette rfl rfl (by decide)
      (by decide) (by decide) (by decide)⟩


/-- C10. Transparent-slot selection of `merge_image` (palettes of at most 256
entries): the call returns, and when the frame still has a transparent index
after the analysis and the remap of its used opaque entries is not the
identity, the output transparent index is the smallest index below the count
of the output governing palette to which no used opaque entry is mapped; if
such an index exists below the count `old` that palette had before the
decision, the palette is left as it was; if none exists, the output
transparent index is `old`, the source's transparent entry is appended there
and the count grows by exactly one. -/
theorem transparent_slot_policy (dest src : Gif_Stream) (srci : Gif_Image)
    (destglobal imagecm : Gif_Colormap) (hg : dest.global = some destglobal)
    (hi : governing src srci = some imagecm) (hs : imagecm.ncol ≤ 256)
    (hd : destglobal.ncol ≤ 256) :
    ∃ r mr out cm, merge_image dest src srci = .ok r ∧
      merge_colormap_if_possible destglobal (mark_used_colors srci imagecm).2 = .ok mr ∧
      governing r.dest r.desti = some out ∧ governing r.src r.srci = some cm ∧
      (0 ≤ r.srci.transparent → ¬ opaqueIdentity cm r.map →
        (∀ p, p < out.ncol → ¬ opaqueMapsTo cm r.map p →
          (∀ q, q < p → opaqueMapsTo cm r.map q) → r.desti.transparent = (p : Int)) ∧
        ((∃ p, p < (dest_colormap mr).ncol ∧ ¬ opaqueMapsTo cm r.map p) →
          out = dest_colormap mr) ∧
        ((∀ p, p < (dest_colormap mr).ncol → opaqueMapsTo cm r.map p) →
          r.desti.transparent = ((dest_colormap mr).ncol : Int) ∧
          out.ncol = (dest_colormap mr).ncol + 1 ∧
          out.col (dest_colormap mr).ncol = cm.col r.srci.transparent.toNat)) := by
  obtain ⟨r, mr, destcm1, m, hrun⟩ := merge_image_run dest src srci destglobal imagecm hg hi hs hd
  obtain ⟨hmk, hr, hfin⟩ := hrun.facts hs hd
  refine ⟨r, mr, destcm1, (local_colormap mr).1, hrun.call, hrun.merge, hrun.out,
    hrun.src_governing, ?_⟩
  intro ht0 hnid
  rw [hrun.srci_transparent] at ht0
  rw [hrun.map] at hnid
  rw [hrun.map, hrun.srci_transparent, hrun.transparent, if_pos ht0]
  have hs1 : (mark_used_colors srci imagecm).2.ncol ≤ 256 := by rw [hmk.ncol]; exact hs
  have hN : (local_colormap mr).1.ncol ≤ 256 := by rw [hr.ncol]; exact hs1
  obtain ⟨_, t2, _, t4⟩ := marked_transparent srci imagecm hs ht0
  have htn : (mark_used_colors srci imagecm).1.transparent.toNat < (local_colormap mr).1.ncol := by
    rw [hr.ncol, hmk.ncol]; exact t2
  have hhp : ((local_colormap mr).1.col
      (mark_used_colors srci imagecm).1.transparent.toNat).haspixel = 2 := by
    rw [hr.hp]; exact t4
  -- the marks `used` are the slots the opaque entries are mapped to
  have hused : ∀ p, (create_map (local_colormap mr).1).used p ≠ 0 ↔
      opaqueMapsTo (local_colormap mr).1 m.map p := by
    intro p
    rw [(create_map_spec (local_colormap mr).1).2.1 p]
    have hkey : ∀ k, k < (local_colormap mr).1.ncol → ((local_colormap mr).1.col k).haspixel = 1 →
        ((local_colormap mr).1.col k).pixel % 256 = m.map k := by
      intro k hk hk1
      obtain ⟨o1, o2⟩ := hfin.opaque_slot k (by rw [← hr.ncol]; exact hk) (by rw [← hr.hp]; exact hk1)
      have := hr.cap
      rw [o1] at o2 ⊢
      exact Nat.mod_eq_of_lt (by omega)
    constructor
    · rintro ⟨k, a, b, c⟩
      exact ⟨k, a, b, by rw [← hkey k a b]; exact c⟩
    · rintro ⟨k, a, b, c⟩
      exact ⟨k, a, b, by rw [hkey k a b]; exact c⟩
  have htr := hrun.transp
  rcases decide_transparent_spec _ (local_colormap mr).1 (dest_colormap mr) hN hr.cap ht0 htn hhp
    with ⟨c1, c2⟩ | ⟨c1, p0, c2, c3, c4, c5⟩ | ⟨c1, c2, c3, c4⟩
  · -- the identity remap: excluded by the hypothesis
    rw [c2] at htr
    injection htr with htr
    injection htr with hd1 hd2
    exfalso
    apply hnid
    intro k hk hk1
    exact hfin.triv (by rw [← hd2]; exact c1) k (by rw [← hr.ncol]; exact hk)
      (by rw [← hr.hp]; exact hk1)
  · rw [c5] at htr
    injection htr with htr
    injection htr with hd1 hd2
    have hmt : m.map (mark_used_colors srci imagecm).1.transparent.toNat = p0 := by
      rw [← hd2]; simp
    have hp0 : ¬ opaqueMapsTo (local_colormap mr).1 m.map p0 := by
      rw [← hused]; simpa using c3
    refine ⟨?_, fun _ => hd1.symm, ?_⟩
    · intro p hp hun hsm
      rw [hmt]
      rcases Nat.lt_trichotomy p p0 with hlt | heq | hgt
      · exact absurd ((hused p).1 (c4 p hlt)) hun
      · rw [heq]
      · exact absurd (hsm p0 hgt) hp0
    · intro hall
      exact absurd (hall p0 c2) hp0
  · rw [c4] at htr
    injection htr with htr
    injection htr with hd1 hd2
    have hmt : m.map (mark_used_colors srci imagecm).1.transparent.toNat =
        (dest_colormap mr).ncol := by
      rw [← hd2]; simp
    refine ⟨?_, ?_, ?_⟩
    · intro p hp hun hsm
      rw [hmt]
      have hp' : p < (dest_colormap mr).ncol + 1 := by rw [← hd1] at hp; exact hp
      by_cases hlt : p < (dest_colormap mr).ncol
      · exact absurd ((hused p).1 (c3 p hlt)) hun
      · have : p = (dest_colormap mr).ncol := by omega
        rw [this]
    · rintro ⟨p, hp, hun⟩
      exact absurd ((hused p).1 (c3 p hp)) hun
    · intro _
      refine ⟨by rw [hmt], by rw [← hd1], ?_⟩
      rw [← hd1]
      simp

/-- C10, at the frame `[0, 2]` with transparent index 2 merged into a
destination palette holding one other colour: colour 0 is appended at slot 1,
so the remap is not the identity, and slot 0 becomes the transparent index. -/
theorem transparent_slot_policy_witness :
    (exDestOne.global = some exOne ∧ governing exSrc exFrame = some exPalette ∧
      exPalette.ncol ≤ 256 ∧ exOne.ncol ≤ 256) ∧
    ∃ r mr out cm, merge_image exDestOne exSrc exFrame = .ok r ∧
      merge_colormap_if_possible exOne (mark_used_colors exFrame exPalette).2 = .ok mr ∧
      governing r.dest r.desti = some out ∧ governing r.src r.srci = some cm ∧
      (0 ≤ r.srci.transparent → ¬ opaqueIdentity cm r.map →
        (∀ p, p < out.ncol → ¬ opaqueMapsTo cm r.map p →
          (∀ q, q < p → opaqueMapsTo cm r.map q) → r.desti.transparent = (p : Int)) ∧
        ((∃ p, p < (dest_colormap mr).ncol ∧ ¬ opaqueMapsTo cm r.map p) →
          out = dest_colormap mr) ∧
        ((∀ p, p < (dest_colormap mr).ncol → opaqueMapsTo cm r.map p) →
          r.desti.transparent = ((dest_colormap mr).ncol : Int) ∧
          out.ncol = (dest_colormap mr).ncol + 1 ∧
          out.col (dest_colormap mr).ncol = cm.col r.srci.transparent.toNat)) :=
  ⟨⟨rfl, rfl, by decide, by decide⟩,
    transparent_slot_policy exDestOne exSrc exFrame exOne exPalette rfl rfl (by decide)
      (by decide)⟩


/-- C5. Success postcondition of `merge_colormap_if_possible`: for palettes of
at most 256 entries with no slot cached in the source (`pixel = 256`), if the
call returns 1 then every used source entry `i` has a recorded slot below the
destination count after the call, and the destination entry at that slot has
the RGB of source entry `i` and is tagged used. -/
theorem merge_success_postcondition (dest src : Gif_Colormap) (r : MergeResult)
    (hs : src.ncol ≤ 256) (hd : dest.ncol ≤ 256)
    (hpix : ∀ k, k < src.ncol → (src.col k).pixel = 256)
    (hr : merge_colormap_if_possible dest src = .ok r) (h1 : r.ret = 1) :
    ∀ i, i < src.ncol → (src.col i).haspixel = 1 →
      (r.src.col i).pixel < r.dest.ncol ∧
      sameRGB (r.dest.col (r.src.col i).pixel) (src.col i) ∧
      (r.dest.col (r.src.col i).pixel).haspixel = 1 := by
  obtain ⟨r2, g1, g2⟩ := merge_colormap_if_possible_facts dest src
  rw [hr] at g1
  have hrr : r = r2 := by injection g1
  subst hrr
  intro i hi hi1
  obtain ⟨c1, c2⟩ := merge_colormap_if_possible_colour dest src hs hd
    (fun k hk => by rw [hpix k hk]) r hr h1 i hi hi1
  exact ⟨g2.slot h1 i hi hi1, c1, c2⟩

/-- C5, at the palette `exUsed` merged into the empty destination. -/
theorem merge_success_postcondition_witness :
    ∃ r, (exUsed.ncol ≤ 256 ∧ exEmpty.ncol ≤ 256 ∧
        (∀ k, k < exUsed.ncol → (exUsed.col k).pixel = 256) ∧
        merge_colormap_if_possible exEmpty exUsed = .ok r ∧ r.ret = 1) ∧
      ∀ i, i < exUsed.ncol → (exUsed.col i).haspixel = 1 →
        (r.src.col i).pixel < r.dest.ncol ∧
        sameRGB (r.dest.col (r.src.col i).pixel) (exUsed.col i) ∧
        (r.dest.col (r.src.col i).pixel).haspixel = 1 :=
  ⟨_, ⟨by decide, by decide, by decide, rfl, by decide⟩,
    merge_success_postcondition exEmpty exUsed _ (by decide) (by decide) (by decide) rfl
      (by decide)⟩

set_option maxRecDepth 100000 in
/-- C4 as stated fails: merging `exThree` into the full palette `exFull`
returns 0, yet entry 5 of the destination has changed its usage tag from 0 to
1, and entry 7, a dedicated-transparent slot, has been overwritten with the
colour `(1, 1, 0)`. -/
theorem merge_failure_untouched_counterexample :
    ∃ r, merge_colormap_if_possible exFull exThree = .ok r ∧
      exFull.ncol ≤ 256 ∧ exThree.ncol ≤ 256 ∧ r.ret = 0 ∧
      (exFull.col 5).haspixel = 0 ∧ (r.dest.col 5).haspixel = 1 ∧
      (exFull.col 7).red = 7 ∧ (r.dest.col 7).red = 1 ∧
      ¬ (∀ k, k < exFull.ncol → sameRGB (r.dest.col k) (exFull.col k) ∧
          (r.dest.col k).haspixel = (exFull.col k).haspixel) :=
  ⟨_, rfl, by decide, by decide, by decide, by decide, by decide, by decide, by decide,
    by decide⟩

/-- C4, amended. If `merge_colormap_if_possible` returns 0, the destination
count is the same as before the call and every entry below it that was not
tagged dedicated-transparent before the call keeps its RGB, its usage tag
being unchanged or set to used (1). -/
theorem merge_failure_keeps_opaque (dest src : Gif_Colormap) (r : MergeResult)
    (hr : merge_colormap_if_possible dest src = .ok r) (h0 : r.ret = 0) :
    r.dest.ncol = dest.ncol ∧
    ∀ k, k < dest.ncol → (dest.col k).haspixel ≠ 2 →
      sameRGB (r.dest.col k) (dest.col k) ∧
      ((r.dest.col k).haspixel = (dest.col k).haspixel ∨ (r.dest.col k).haspixel = 1) := by
  obtain ⟨r2, g1, g2⟩ := merge_colormap_if_possible_facts dest src
  rw [hr] at g1
  have hrr : r = r2 := by injection g1
  subst hrr
  exact ⟨g2.fail_ncol h0, g2.keep⟩

set_option maxRecDepth 100000 in
/-- C4 amended, at the failing merge of `exThree` into `exFull`. -/
theorem merge_failure_keeps_opaque_witness :
    ∃ r, (merge_colormap_if_possible exFull exThree = .ok r ∧ r.ret = 0) ∧
      r.dest.ncol = exFull.ncol ∧
      ∀ k, k < exFull.ncol → (exFull.col k).haspixel ≠ 2 →
        sameRGB (r.dest.col k) (exFull.col k) ∧
        ((r.dest.col k).haspixel = (exFull.col k).haspixel ∨ (r.dest.col k).haspixel = 1) :=
  ⟨_, ⟨rfl, by decide⟩, merge_failure_keeps_opaque exFull exThree _ rfl (by decide)⟩


/-- When every used source entry has a cached slot within the destination or
an RGB-equal destination entry, the merge loop never appends a used entry: it
ends normally, entries below the entry count keep their RGB, and the count
moves only by the insertion of a dedicated-transparent entry. -/
theorem merge_colormap_loop_resolvable (s0 : MergeState) (N : Nat)
    (hc : ∀ i, i < N → (s0.srccol i).haspixel = 1 →
      (s0.srccol i).pixel < s0.ndestcol ∨
      ∃ k, k < s0.ndestcol ∧ sameRGB (s0.destcol k) (s0.srccol i)) :
    match merge_colormap_loop N 0 s0 with
    | .next s => Basic s0 N N s ∧
        ((∀ i, i < N → (s0.srccol i).haspixel = 2 → i ≠ s0.ndestcol) →
          s.ndestcol = s0.ndestcol)
    | .return0 _ => False
    | .assert_failed => False := by
  have h := merge_colormap_loop_rule
    (fun i s => Basic s0 N i s ∧
      (∀ k, k < s0.ndestcol → sameRGB (s.destcol k) (s0.destcol k)) ∧
      ((∀ i, i < N → (s0.srccol i).haspixel = 2 → i ≠ s0.ndestcol) →
        s.ndestcol = s0.ndestcol))
    (fun _ => False) N
    (by
      intro i s hi ⟨hB, hrgb, hcnt⟩
      have hci : s.srccol i = s0.srccol i := hB.rest i (le_refl _)
      have hmono := hB.mono
      -- a used entry at `i` is cached or matched in the current state
      have hnow : (s.srccol i).haspixel = 1 →
          (s.srccol i).pixel < s.ndestcol ∨
          ∃ k, k < s.ndestcol ∧ sameRGB (s.destcol k) (s.srccol i) := by
        intro h1
        rw [hci] at h1 ⊢
        rcases hc i hi h1 with hl | ⟨k, hk, hk2⟩
        · left; omega
        · right
          exact ⟨k, by omega, sameRGB_trans (hrgb k hk) hk2⟩
      rcases merge_colormap_body_cases i s with
        ⟨a1, _, a3⟩ | ⟨a1, _, a3, a4⟩ | ⟨a1, _, a3⟩ | ⟨a1, a2, a3, _, a5, _⟩ |
        ⟨a1, d, nd, m, a2, a3⟩
      · rw [a3]; exact ⟨hB.weaken a1, hrgb, hcnt⟩
      · rw [a4]
        refine ⟨hB.append hi a1 a3, ?_, ?_⟩
        · intro k hk
          have hne : k ≠ s.ndestcol := by omega
          simp only [store_other _ _ _ _ hne]
          exact hrgb k hk
        · intro hno
          have := hcnt hno
          rw [hci] at a1
          exact absurd (by omega) (hno i hi a1)
      · rw [a3]; exact ⟨hB.weaken (by rw [a1]; decide), hrgb, hcnt⟩
      · rw [a2]
        rcases hnow a1 with hl | ⟨k, hk, hk2⟩
        · omega
        · exact a5 k hk hk2
      · rw [a3]
        refine ⟨hB.mapped a1 a2, ?_, ?_⟩
        · intro k hk
          have hdk : d = s.destcol := by
            rcases a2 with ⟨_, _, b3, _⟩ | ⟨_, _, _, b4, _⟩ | ⟨b1, _, b3, _⟩ | ⟨b1, _, b3, _⟩
            · exact b3
            · exact b4
            · rcases hnow a1 with hl | ⟨k2, hk2, hk3⟩
              · omega
              · exact absurd hk3 (b3 k2 hk2)
            · rcases hnow a1 with hl | ⟨k2, hk2, hk3⟩
              · omega
              · exact absurd hk3 (b3 k2 hk2)
          simp only [mapped_state, store_apply, hdk]
          split
          · rename_i hkm
            have := hrgb k hk
            rw [hkm] at this ⊢
            simpa [sameRGB] using this
          · exact hrgb k hk
        · intro hno
          have hnd : nd = s.ndestcol := by
            rcases a2 with ⟨_, _, _, b4⟩ | ⟨_, _, _, _, b5⟩ | ⟨b1, _, b3, _⟩ | ⟨_, _, _, _, _, _, b7⟩
            · exact b4
            · exact b5
            · rcases hnow a1 with hl | ⟨k2, hk2, hk3⟩
              · omega
              · exact absurd hk3 (b3 k2 hk2)
            · exact b7
          simp only [mapped_state, hnd]
          exact hcnt hno)
    N 0 s0 (by omega)
    ⟨Basic.at_entry s0 N, fun _ _ => sameRGB_refl _, fun _ => rfl⟩
  cases hl : merge_colormap_loop N 0 s0 with
  | next s =>
    rw [hl] at h
    simp only [Nat.zero_add] at h
    exact ⟨h.1, h.2.2⟩
  | return0 s =>
    rw [hl] at h
    exact h
  | assert_failed =>
    rw [hl] at h
    exact h

/-- A call of `merge_colormap_if_possible` in which every used source entry has
a cached slot within the destination or an RGB-equal destination entry returns
1; the count does not decrease, and it is unchanged unless a source entry
tagged dedicated-transparent sits at the index equal to the count. -/
theorem merge_colormap_if_possible_resolvable (dest src : Gif_Colormap)
    (hc : ∀ i, i < src.ncol → (src.col i).haspixel = 1 →
      (src.col i).pixel < dest.ncol ∨ ∃ k, k < dest.ncol ∧ sameRGB (dest.col k) (src.col i)) :
    ∃ r, merge_colormap_if_possible dest src = .ok r ∧ r.ret = 1 ∧ dest.ncol ≤ r.dest.ncol ∧
      (noTransparentAt src dest.ncol → r.dest.ncol = dest.ncol) ∧ MergeFacts dest src r := by
  obtain ⟨r, s, i, g1, g2, g3, g4, _⟩ := merge_colormap_if_possible_basic dest src
  obtain ⟨r2, f1, f2⟩ := merge_colormap_if_possible_facts dest src
  rw [g1] at f1
  have hrr : r = r2 := by injection f1
  subst hrr
  have hl := merge_colormap_loop_resolvable (merge_entry dest src) src.ncol hc
  rcases g4 with ⟨b1, b2, _, b4⟩ | ⟨_, _, _, b4⟩
  · rw [b4] at hl
    refine ⟨r, g1, b1, f2.mono, ?_, f2⟩
    intro hno
    rw [b2]
    exact hl.2 hno
  · rw [b4] at hl
    exact hl.elim


set_option maxRecDepth 100000 in
/-- C6 fails on the code. After `merge_stream`, the frame `[0, 1]` cannot
share the full destination palette and falls back to a private palette, which
leaves the private indices 0 and 1 in the `pixel` fields of the source shared
palette; the next frame `[1, 1]` then takes the cached slot 1 for its colour
`(7, 0, 0)`, and its pixels decode under the destination shared palette to
`(1, 0, 0)`. -/
theorem cached_slot_after_fallback :
    ∃ d1 s1 r1 r2 out,
      merge_stream exDestFull exSrcPair false = .ok (d1, s1) ∧
      merge_image d1 s1 exBoth = .ok r1 ∧ r1.desti.«local».isSome = true ∧
      merge_image r1.dest r1.src exSecond = .ok r2 ∧
      governing r2.dest r2.desti = some out ∧ r2.desti.«local».isSome = false ∧
      validPixels exBoth exPair.ncol ∧ validPixels exSecond exPair.ncol ∧
      (exSecond.pixelAt 0 0 : Int) ≠ exSecond.transparent ∧
      exSecond.pixelAt 0 0 = 1 ∧ (exPair.col 1).red = 7 ∧
      r2.desti.pixelAt 0 0 = 1 ∧ (out.col 1).red = 1 ∧
      ¬ sameRGB (out.col (r2.desti.pixelAt 0 0)) (exPair.col (exSecond.pixelAt 0 0)) :=
  ⟨_, _, _, _, _, rfl, rfl, by decide, rfl, rfl, by decide, by decide, by decide, by decide,
    by decide, by decide, by decide, by decide, by decide⟩

/-- C7 as stated fails. Merging a source whose only used colour `(1, 2, 3)` is
already the destination's entry 0, and whose entry 1 is dedicated-transparent,
returns 1 and raises the count from 1 to 2; and after a successful merge of
the same source into an empty palette (count 1 afterwards), a second call
raises the count to 2. -/
theorem merge_idempotence_counterexample :
    (∃ r, merge_colormap_if_possible exSame exTransparentFirst = .ok r ∧
      exSame.ncol ≤ 256 ∧ exTransparentFirst.ncol ≤ 256 ∧
      (∀ i, i < exTransparentFirst.ncol → (exTransparentFirst.col i).haspixel = 1 →
        ∃ k, k < exSame.ncol ∧ sameRGB (exSame.col k) (exTransparentFirst.col i)) ∧
      r.ret = 1 ∧ exSame.ncol = 1 ∧ r.dest.ncol = 2) ∧
    (∃ r r2, merge_colormap_if_possible exEmpty exTransparentFirst = .ok r ∧ r.ret = 1 ∧
      merge_colormap_if_possible r.dest r.src = .ok r2 ∧ r2.ret = 1 ∧
      r.dest.ncol = 1 ∧ r2.dest.ncol = 2) :=
  ⟨⟨_, rfl, by decide, by decide, by decide, by decide, by decide, by decide⟩,
    ⟨_, _, rfl, by decide, rfl, by decide, by decide, by decide⟩⟩

/-- C7, amended. When every colour the source uses (tag 1) has an RGB-equal
entry within the destination's count, the call returns 1 and the count does not
decrease; it is unchanged unless a source entry tagged dedicated-transparent
sits at the index equal to the destination count. And after any call that
returned 1, whatever the palettes were, a second call with the same source
returns 1 and does not decrease the count, which is unchanged unless a source
entry tagged dedicated-transparent sits at the index equal to the count the
first call left. -/
theorem merge_idempotence (dest src : Gif_Colormap) :
    ((∀ i, i < src.ncol → (src.col i).haspixel = 1 →
        ∃ k, k < dest.ncol ∧ sameRGB (dest.col k) (src.col i)) →
      ∃ r, merge_colormap_if_possible dest src = .ok r ∧ r.ret = 1 ∧
        dest.ncol ≤ r.dest.ncol ∧
        (noTransparentAt src dest.ncol → r.dest.ncol = dest.ncol)) ∧
    (∀ r, merge_colormap_if_possible dest src = .ok r → r.ret = 1 →
      ∃ r2, merge_colormap_if_possible r.dest r.src = .ok r2 ∧ r2.ret = 1 ∧
        r.dest.ncol ≤ r2.dest.ncol ∧
        (noTransparentAt src r.dest.ncol → r2.dest.ncol = r.dest.ncol)) := by
  constructor
  · intro hc
    obtain ⟨r, h1, h2, h3, h4, _⟩ :=
      merge_colormap_if_possible_resolvable dest src (fun i hi hi1 => Or.inr (hc i hi hi1))
    exact ⟨r, h1, h2, h3, h4⟩
  · intro r hr h1
    obtain ⟨r0, f1, hf⟩ := merge_colormap_if_possible_facts dest src
    rw [hr] at f1
    have hrr : r = r0 := by injection f1
    subst hrr
    obtain ⟨r2, g1, g2, g3, g4, _⟩ := merge_colormap_if_possible_resolvable r.dest r.src
      (by
        intro i hi hi1
        rw [hf.src_ncol] at hi
        rw [hf.src_hp] at hi1
        exact Or.inl (hf.slot h1 i hi hi1))
    refine ⟨r2, g1, g2, g3, ?_⟩
    intro hno
    apply g4
    intro i hi hi2
    rw [hf.src_ncol] at hi
    rw [hf.src_hp] at hi2
    exact hno i hi hi2

/-- C7 amended: both parts at a source using the colour `(1, 2, 3)` twice,
merged into a destination that holds it, and the second part after the
successful merge of `exTransparentFirst` into an empty palette, where no used
colour was in the destination before the first call. -/
theorem merge_idempotence_witness :
    ((∀ i, i < exTwice.ncol → (exTwice.col i).haspixel = 1 →
        ∃ k, k < exSame.ncol ∧ sameRGB (exSame.col k) (exTwice.col i)) ∧
      ∃ r, merge_colormap_if_possible exSame exTwice = .ok r ∧ r.ret = 1 ∧
        exSame.ncol ≤ r.dest.ncol ∧
        (noTransparentAt exTwice exSame.ncol → r.dest.ncol = exSame.ncol)) ∧
    (∃ r, (merge_colormap_if_possible exSame exTwice = .ok r ∧ r.ret = 1) ∧
      ∃ r2, merge_colormap_if_possible r.dest r.src = .ok r2 ∧ r2.ret = 1 ∧
        r.dest.ncol ≤ r2.dest.ncol ∧
        (noTransparentAt exTwice r.dest.ncol → r2.dest.ncol = r.dest.ncol)) ∧
    (∃ r, (merge_colormap_if_possible exEmpty exTransparentFirst = .ok r ∧ r.ret = 1) ∧
      ∃ r2, merge_colormap_if_possible r.dest r.src = .ok r2 ∧ r2.ret = 1 ∧
        r.dest.ncol ≤ r2.dest.ncol ∧
        (noTransparentAt exTransparentFirst r.dest.ncol → r2.dest.ncol = r.dest.ncol)) :=
  ⟨⟨by decide, (merge_idempotence exSame exTwice).1 (by decide)⟩,
    ⟨_, ⟨rfl, by decide⟩, (merge_idempotence exSame exTwice).2 _ rfl (by decide)⟩,
    ⟨_, ⟨rfl, by decide⟩, (merge_idempotence exEmpty exTransparentFirst).2 _ rfl (by decide)⟩⟩


/-- C15. Exact colour search: `find_color_index(c, nc, q)` returns `-1` if and
only if no index below `nc` has red, green and blue equal to those of `q`;
otherwise it returns the smallest such index. -/
theorem find_color_index_exact (c : Nat → Gif_Color) (nc : Nat) (q : Gif_Color) :
    (find_color_index c nc q = -1 ↔ ∀ k, k < nc → ¬ sameRGB (c k) q) ∧
    (find_color_index c nc q ≠ -1 →
      ∃ k : Nat, find_color_index c nc q = (k : Int) ∧ k < nc ∧ sameRGB (c k) q ∧
        ∀ k2, k2 < k → ¬ sameRGB (c k2) q) := by
  rcases find_color_index_spec c nc q with ⟨h1, h2⟩ | ⟨k, h1, h2, h3, h4⟩
  · refine ⟨⟨fun _ => h2, fun _ => h1⟩, fun hne => absurd h1 hne⟩
  · refine ⟨⟨?_, ?_⟩, fun _ => ⟨k, h1, h2, h3, h4⟩⟩
    · intro hm
      rw [h1] at hm
      omega
    · intro hall
      exact absurd h3 (hall k h2)

/-- C16. Loop-count adoption in `merge_stream`: for a destination that owns a
shared palette the call returns, the destination loop count afterwards is the
source's if it was negative before and is unchanged otherwise, and the
destination's shared palette and frame sequence are unchanged. -/
theorem merge_stream_loopcount (dest src : Gif_Stream) (no_comments : Bool)
    (g : Gif_Colormap) (hg : dest.global = some g) :
    ∃ d s, merge_stream dest src no_comments = .ok (d, s) ∧
      d.loopcount = (if dest.loopcount < 0 then src.loopcount else dest.loopcount) ∧
      d.global = dest.global ∧ d.images = dest.images := by
  by_cases hlc : dest.loopcount < 0 <;> cases hc : src.comment <;> cases no_comments <;>
    exact ⟨_, _, by simp only [merge_stream, hg, hlc, hc]; rfl, by simp [hlc], by simp [hg],
      by simp⟩


/-- C16, at a destination whose loop count is unset (`-1`) and a source with
loop count 0. -/
theorem merge_stream_loopcount_witness :
    exDestFull.global = some exFullOpaque ∧
    ∃ d s, merge_stream exDestFull exSrcPair false = .ok (d, s) ∧
      d.loopcount =
        (if exDestFull.loopcount < 0 then exSrcPair.loopcount else exDestFull.loopcount) ∧
      d.global = exDestFull.global ∧ d.images = exDestFull.images :=
  ⟨rfl, merge_stream_loopcount exDestFull exSrcPair false exFullOpaque rfl⟩

/-- C17. The usage analysis equals the full scan despite the early stop: for a
palette of at most 256 entries, after `mark_used_colors` every entry `i` below
the count carries the usage the full scan of the whole pixel buffer gives:
it is tagged other than unused if and only if `i` occurs in the buffer,
dedicated-transparent exactly when `i` occurs and is the declared transparent
index, and used exactly when it occurs and is not. -/
theorem usage_analysis_full_scan (gfi : Gif_Image) (gfcm : Gif_Colormap)
    (h : gfcm.ncol ≤ 256) :
    ∀ i, i < gfcm.ncol →
      ((mark_used_colors gfi gfcm).2.col i).haspixel = usage_by_full_scan gfi i ∧
      (((mark_used_colors gfi gfcm).2.col i).haspixel ≠ 0 ↔ occurs gfi i) ∧
      (((mark_used_colors gfi gfcm).2.col i).haspixel = 2 ↔
        (occurs gfi i ∧ (i : Int) = gfi.transparent)) ∧
      (((mark_used_colors gfi gfcm).2.col i).haspixel = 1 ↔
        (occurs gfi i ∧ (i : Int) ≠ gfi.transparent)) := by
  intro i hi
  have hf := (mark_used_colors_facts gfi gfcm h).hp i hi
  rw [hf]
  refine ⟨rfl, ?_, ?_, ?_⟩
  · by_cases ho : occurs gfi i
    · by_cases ht : (i : Int) = gfi.transparent <;> simp [ho, ht]
    · simp [ho]
  · by_cases ho : occurs gfi i
    · by_cases ht : (i : Int) = gfi.transparent <;> simp [ho, ht]
    · simp [ho]
  · by_cases ho : occurs gfi i
    · by_cases ht : (i : Int) = gfi.transparent <;> simp [ho, ht]
    · simp [ho]

/-- C17, at a frame of two rows over a palette of one colour, where the scan
stops after the first row. -/
theorem usage_analysis_full_scan_witness :
    exSingle.ncol ≤ 256 ∧
    ∀ i, i < exSingle.ncol →
      ((mark_used_colors exTwoRows exSingle).2.col i).haspixel = usage_by_full_scan exTwoRows i ∧
      (((mark_used_colors exTwoRows exSingle).2.col i).haspixel ≠ 0 ↔ occurs exTwoRows i) ∧
      (((mark_used_colors exTwoRows exSingle).2.col i).haspixel = 2 ↔
        (occurs exTwoRows i ∧ (i : Int) = exTwoRows.transparent)) ∧
      (((mark_used_colors exTwoRows exSingle).2.col i).haspixel = 1 ↔
        (occurs exTwoRows i ∧ (i : Int) ≠ exTwoRows.transparent)) :=
  ⟨by decide, usage_analysis_full_scan exTwoRows exSingle (by decide)⟩

/-- C18. Existing opaque destination entries are never overwritten: every call
of `merge_colormap_if_possible` returns (with 0 or 1), the destination count
afterwards is at least the count before, and every destination entry below the
count on entry that was not tagged dedicated-transparent on entry has the same
RGB after the call. -/
theorem opaque_entries_never_overwritten (dest src : Gif_Colormap) :
    ∃ r, merge_colormap_if_possible dest src = .ok r ∧ (r.ret = 0 ∨ r.ret = 1) ∧
      dest.ncol ≤ r.dest.ncol ∧
      ∀ k, k < dest.ncol → (dest.col k).haspixel ≠ 2 → sameRGB (r.dest.col k) (dest.col k) := by
  obtain ⟨r, h1, h2⟩ := merge_colormap_if_possible_facts dest src
  exact ⟨r, h1, h2.ret, h2.mono, fun k hk hk2 => (h2.keep k hk hk2).1⟩

/-- What a returning call of `merge_image` is made of. -/
theorem merge_image_inversion (dest src : Gif_Stream) (srci : Gif_Image) (r : ImageResult)
    (h : merge_image dest src srci = .ok r) :
    ∃ imagecm lc m, governing src srci = some imagecm ∧
      r.desti = new_image (mark_used_colors srci imagecm).1 lc m ∧
      r.map = m.map ∧ r.trivial_map = m.trivial_map := by
  unfold merge_image at h
  cases hgov : governing src srci with
  | none => simp [hgov] at h
  | some imagecm =>
    cases hdg : dest.global with
    | none => simp [hgov, hdg] at h
    | some destglobal =>
      simp only [hgov, hdg] at h
      cases hm : merge_image_colormaps destglobal imagecm srci with
      | error e => simp [hm] at h
      | ok v =>
        obtain ⟨g1, c1, s1, d1, m⟩ := v
        simp only [hm] at h
        injection h with h
        unfold merge_image_colormaps at hm
        simp only at hm
        split at hm
        · exact absurd hm (by simp)
        · split at hm
          · exact absurd hm (by simp)
          · split at hm
            · exact absurd hm (by simp)
            · injection hm with hm
              simp only [Prod.mk.injEq] at hm
              obtain ⟨_, _, _, e4, e5⟩ := hm
              subst e5
              exact ⟨imagecm, _, _, rfl, by rw [← h]; exact e4.symm, by rw [← h],
                by rw [← h]⟩


/-- C14. Identity mapping gives a verbatim copy: for every call of
`merge_image` that returns with `trivial_map` true, the output frame has the
width and the height of the source frame and its pixel buffer is byte for byte
the source frame's. -/
theorem identity_mapping_verbatim (dest src : Gif_Stream) (srci : Gif_Image) (r : ImageResult)
    (h : merge_image dest src srci = .ok r) (ht : r.trivial_map = true) :
    r.desti.width = srci.width ∧ r.desti.height = srci.height ∧
    ∀ j, j < srci.height → ∀ i, i < srci.width → r.desti.pixelAt j i = srci.pixelAt j i := by
  obtain ⟨imagecm, lc, m, _, h2, _, h4⟩ := merge_image_inversion dest src srci r h
  obtain ⟨_, pw, ph⟩ := marked_pixelAt srci imagecm 0 0
  rw [h4] at ht
  refine ⟨by rw [h2]; exact pw, by rw [h2]; exact ph, ?_⟩
  intro j hj i hi
  have hp := (marked_pixelAt srci imagecm j i).1
  rw [h2]
  simp only [new_image, Gif_Image.pixelAt, ht, if_true] at hp ⊢
  rw [if_pos ⟨by rw [ph]; exact hj, by rw [pw]; exact hi⟩, hp, Nat.mod_mod]

/-- C14, at the frame `[0, 2]` with transparent index 2 merged into an empty
destination palette, where `trivial_map` ends true. -/
theorem identity_mapping_verbatim_witness :
    ∃ r, (merge_image exDest exSrc exFrame = .ok r ∧ r.trivial_map = true) ∧
      r.desti.width = exFrame.width ∧ r.desti.height = exFrame.height ∧
      ∀ j, j < exFrame.height → ∀ i, i < exFrame.width →
        r.desti.pixelAt j i = exFrame.pixelAt j i :=
  ⟨_, ⟨rfl, by decide⟩, identity_mapping_verbatim exDest exSrc exFrame _ rfl (by decide)⟩

/-- C19. The verbatim-copy fast path agrees with the remap table: when the
source pixels are valid indices (palettes of at most 256 entries) the call
returns and the byte of the output frame at every position is the source byte
remapped through the final `map`, whether the rows were copied or remapped;
so when `trivial_map` is true at the copy, `map[v] = v` for every byte `v`
that occurs in the source buffer. -/
theorem copy_agrees_with_map (dest src : Gif_Stream) (srci : Gif_Image)
    (destglobal imagecm : Gif_Colormap) (hg : dest.global = some destglobal)
    (hi : governing src srci = some imagecm) (hs : imagecm.ncol ≤ 256)
    (hd : destglobal.ncol ≤ 256) (hv : validPixels srci imagecm.ncol) :
    ∃ r, merge_image dest src srci = .ok r ∧
      (∀ j, j < srci.height → ∀ i, i < srci.width →
        r.desti.pixelAt j i = remap_through r.map srci j i) ∧
      (r.trivial_map = true → ∀ v, occurs srci v → r.map v = v) := by
  obtain ⟨r, mr, destcm1, m, hrun⟩ := merge_image_run dest src srci destglobal imagecm hg hi hs hd
  obtain ⟨hmk, hr, hfin⟩ := hrun.facts hs hd
  have key : ∀ j, j < srci.height → ∀ i, i < srci.width →
      r.desti.pixelAt j i = m.map (srci.pixelAt j i) ∧
      (m.trivial_map = true → m.map (srci.pixelAt j i) = srci.pixelAt j i) := by
    intro j hj i hi2
    have hval := hv j hj i hi2
    have hpx := hrun.pixelAt hs hd j i hj hi2
    by_cases hne : (srci.pixelAt j i : Int) = srci.transparent
    · have hocc : occurs srci (srci.pixelAt j i) := ⟨j, hj, i, hi2, rfl⟩
      have htn : srci.transparent.toNat = srci.pixelAt j i := by omega
      have ht' : (mark_used_colors srci imagecm).1.transparent = srci.transparent := by
        rw [hmk.image, if_pos ⟨by omega, by omega, by rw [htn]; exact hocc⟩]
      have ht0 : 0 ≤ (mark_used_colors srci imagecm).1.transparent := by rw [ht']; omega
      have htriv : m.trivial_map = true → m.map (srci.pixelAt j i) = srci.pixelAt j i := by
        intro htr
        have := hfin.triv_t htr ht0
        rw [ht', htn] at this
        exact this
      refine ⟨?_, htriv⟩
      rw [hpx]
      split
      · rename_i htr
        exact (htriv htr).symm
      · rfl
    · obtain ⟨o1, o2, _, _⟩ := hrun.opaque_pixel hs hd j i hj hi2 hval hne
      refine ⟨o2, ?_⟩
      intro htr
      exact hfin.triv htr _ (by rw [hmk.ncol]; exact hval) o1
  refine ⟨r, hrun.call, ?_, ?_⟩
  · intro j hj i hi2
    rw [remap_through, hrun.map]
    exact (key j hj i hi2).1
  · intro htr v hocc
    obtain ⟨j, hj, i, hi2, hvv⟩ := hocc
    rw [hrun.trivial] at htr
    rw [hrun.map, ← hvv]
    exact (key j hj i hi2).2 htr

/-- C19, at the frame `[0, 2]` with transparent index 2 merged into an empty
destination palette, where the rows are copied. -/
theorem copy_agrees_with_map_witness :
    (exDest.global = some exEmpty ∧ governing exSrc exFrame = some exPalette ∧
      exPalette.ncol ≤ 256 ∧ exEmpty.ncol ≤ 256 ∧ validPixels exFrame exPalette.ncol) ∧
    ∃ r, merge_image exDest exSrc exFrame = .ok r ∧
      (∀ j, j < exFrame.height → ∀ i, i < exFrame.width →
        r.desti.pixelAt j i = remap_through r.map exFrame j i) ∧
      (r.trivial_map = true → ∀ v, occurs exFrame v → r.map v = v) :=
  ⟨⟨rfl, rfl, by decide, by decide, by decide⟩,
    copy_agrees_with_map exDest exSrc exFrame exEmpty exPalette rfl rfl (by decide) (by decide)
      (by decide)⟩

/-- C20. The identity remap always keeps the transparent index (palettes of at
most 256 entries): the call returns, and when the frame has a transparent
index `t` after the analysis and `trivial_map` is true when the transparent
index is decided, `used[t]` is 0, the output transparent index is `t`,
`trivial_map` ends true and the colormap `destcm` points to is left as it was
(nothing is appended), whatever the destination holds at index `t` and
whether or not `t` is below the destination count. -/
theorem identity_keeps_transparent (dest src : Gif_Stream) (srci : Gif_Image)
    (destglobal imagecm : Gif_Colormap) (hg : dest.global = some destglobal)
    (hi : governing src srci = some imagecm) (hs : imagecm.ncol ≤ 256)
    (hd : destglobal.ncol ≤ 256) :
    ∃ r mr out cm, merge_image dest src srci = .ok r ∧
      merge_colormap_if_possible destglobal (mark_used_colors srci imagecm).2 = .ok mr ∧
      governing r.dest r.desti = some out ∧ governing r.src r.srci = some cm ∧
      (0 ≤ r.srci.transparent → (create_map cm).trivial_map = true →
        (create_map cm).used r.srci.transparent.toNat = 0 ∧
        r.desti.transparent = r.srci.transparent ∧ r.trivial_map = true ∧
        out = dest_colormap mr) := by
  obtain ⟨r, mr, destcm1, m, hrun⟩ := merge_image_run dest src srci destglobal imagecm hg hi hs hd
  obtain ⟨hmk, hr, hfin⟩ := hrun.facts hs hd
  refine ⟨r, mr, destcm1, (local_colormap mr).1, hrun.call, hrun.merge, hrun.out,
    hrun.src_governing, ?_⟩
  intro ht0 htriv
  rw [hrun.srci_transparent] at ht0
  rw [hrun.srci_transparent, hrun.transparent, if_pos ht0, hrun.trivial]
  have hs1 : (mark_used_colors srci imagecm).2.ncol ≤ 256 := by rw [hmk.ncol]; exact hs
  have hN : (local_colormap mr).1.ncol ≤ 256 := by rw [hr.ncol]; exact hs1
  obtain ⟨_, t2, _, t4⟩ := marked_transparent srci imagecm hs ht0
  have htn : (mark_used_colors srci imagecm).1.transparent.toNat < (local_colormap mr).1.ncol := by
    rw [hr.ncol, hmk.ncol]; exact t2
  have hhp : ((local_colormap mr).1.col
      (mark_used_colors srci imagecm).1.transparent.toNat).haspixel = 2 := by
    rw [hr.hp]; exact t4
  have hu := trivial_unused (local_colormap mr).1 _ hhp htriv
  have htr := hrun.transp
  rcases decide_transparent_spec _ (local_colormap mr).1 (dest_colormap mr) hN hr.cap ht0 htn hhp
    with ⟨c1, c2⟩ | ⟨c1, _⟩ | ⟨c1, _⟩
  · rw [c2] at htr
    injection htr with htr
    injection htr with hd1 hd2
    refine ⟨hu, ?_, by rw [← hd2]; exact c1, hd1.symm⟩
    rw [← hd2]
    simp only [store_same]
    omega
  · rw [htriv] at c1
    exact absurd c1 (by decide)
  · rw [htriv] at c1
    exact absurd c1 (by decide)

/-- C20, at the frame `[0, 2]` with transparent index 2 merged into an empty
destination palette: the index 2 is kept although the destination count is 1
afterwards. -/
theorem identity_keeps_transparent_witness :
    (exDest.global = some exEmpty ∧ governing exSrc exFrame = some exPalette ∧
      exPalette.ncol ≤ 256 ∧ exEmpty.ncol ≤ 256) ∧
    ∃ r mr out cm, merge_image exDest exSrc exFrame = .ok r ∧
      merge_colormap_if_possible exEmpty (mark_used_colors exFrame exPalette).2 = .ok mr ∧
      governing r.dest r.desti = some out ∧ governing r.src r.srci = some cm ∧
      (0 ≤ r.srci.transparent → (create_map cm).trivial_map = true →
        (create_map cm).used r.srci.transparent.toNat = 0 ∧
        r.desti.transparent = r.srci.transparent ∧ r.trivial_map = true ∧
        out = dest_colormap mr) :=
  ⟨⟨rfl, rfl, by decide, by decide⟩,
    identity_keeps_transparent exDest exSrc exFrame exEmpty exPalette rfl rfl (by decide)
      (by decide)⟩


/-- On a full destination with no pure-transparent slot, a source of at most
256 entries without cached slots that has a used entry of a colour absent from
the destination makes the merge loop end by `return 0`. -/
theorem merge_colormap_loop_overflow (s0 : MergeState) (N i0 : Nat) (hN : N ≤ 256)
    (hfull : s0.ndestcol = 256) (hno2 : ∀ k, k < 256 → (s0.destcol k).haspixel ≠ 2)
    (hpix : ∀ k, k < N → 256 ≤ (s0.srccol k).pixel) (hi0 : i0 < N)
    (hused : (s0.srccol i0).haspixel = 1)
    (hnew : ∀ k, k < 256 → ¬ sameRGB (s0.destcol k) (s0.srccol i0)) :
    ∃ s, merge_colormap_loop N 0 s0 = .return0 s := by
  have h := merge_colormap_loop_rule
    (fun i s => Basic s0 N i s ∧ s.ndestcol = 256 ∧
      (∀ k, k < 256 → sameRGB (s.destcol k) (s0.destcol k) ∧ (s.destcol k).haspixel ≠ 2) ∧
      i ≤ i0)
    (fun _ => True) N
    (by
      intro i s hi ⟨hB, hnd, hdest, hle⟩
      have hci : s.srccol i = s0.srccol i := hB.rest i (le_refl _)
      have hpi : 256 ≤ (s.srccol i).pixel := by rw [hci]; exact hpix i hi
      rcases merge_colormap_body_cases i s with
        ⟨a1, _, a3⟩ | ⟨a1, _, a3, a4⟩ | ⟨a1, _, a3⟩ | ⟨_, a2, _⟩ | ⟨a1, d, nd, m, a2, a3⟩
      · rw [a3]
        have hne : i ≠ i0 := by
          intro heq
          subst heq
          rw [hci] at a1
          exact a1 hused
        exact ⟨hB.weaken a1, hnd, hdest, by omega⟩
      · omega
      · rw [a3]
        have hne : i ≠ i0 := by
          intro heq
          subst heq
          rw [hci] at a1
          omega
        exact ⟨hB.weaken (by rw [a1]; decide), hnd, hdest, by omega⟩
      · rw [a2]; trivial
      · rw [a3]
        rcases a2 with ⟨b1, _⟩ | ⟨_, b2, b3, b4, b5⟩ | ⟨_, b2, _⟩ | ⟨_, _, _, b4, b5, _⟩
        · omega
        · have hne : i ≠ i0 := by
            intro heq
            subst heq
            rw [hci] at b3
            exact hnew m (by omega) (sameRGB_trans (sameRGB_symm (hdest m (by omega)).1) b3)
          refine ⟨hB.mapped a1 (Or.inr (Or.inl ⟨by omega, b2, b3, b4, b5⟩)), ?_, ?_, by omega⟩
          · simp only [mapped_state, b5, hnd]
          · intro k hk
            simp only [mapped_state, b4, store_apply]
            split
            · rename_i hkm
              refine ⟨?_, by simp⟩
              have := (hdest k hk).1
              rw [hkm] at this ⊢
              simpa [sameRGB] using this
            · exact hdest k hk
        · omega
        · exact absurd b5 (hdest m (by omega)).2)
    N 0 s0 (by omega)
    ⟨Basic.at_entry s0 N, hfull, fun k hk => ⟨sameRGB_refl _, hno2 k hk⟩, Nat.zero_le _⟩
  cases hl : merge_colormap_loop N 0 s0 with
  | next s =>
    rw [hl] at h
    simp only [Nat.zero_add] at h
    omega
  | return0 s => exact ⟨s, rfl⟩
  | assert_failed =>
    rw [hl] at h
    exact h.elim

/-- C12. Overflow is reported as failure: when the destination has 256 entries
none of which is tagged dedicated-transparent, and the source (at most 256
entries, no slot cached: `pixel = 256`) has a used entry whose RGB equals that
of no destination entry, `merge_colormap_if_possible` returns 0. -/
theorem overflow_returns_zero (dest src : Gif_Colormap) (i0 : Nat) (hs : src.ncol ≤ 256)
    (hfull : dest.ncol = 256) (hno2 : ∀ k, k < dest.ncol → (dest.col k).haspixel ≠ 2)
    (hpix : ∀ k, k < src.ncol → (src.col k).pixel = 256) (hi0 : i0 < src.ncol)
    (hused : (src.col i0).haspixel = 1)
    (hnew : ∀ k, k < dest.ncol → ¬ sameRGB (dest.col k) (src.col i0)) :
    ∃ r, merge_colormap_if_possible dest src = .ok r ∧ r.ret = 0 := by
  obtain ⟨r, s, i, g1, _, _, g4, _⟩ := merge_colormap_if_possible_basic dest src
  refine ⟨r, g1, ?_⟩
  obtain ⟨s2, hl⟩ := merge_colormap_loop_overflow (merge_entry dest src) src.ncol i0 hs hfull
    (fun k hk => hno2 k (by rw [hfull]; exact hk))
    (fun k hk => by
      have := hpix k hk
      simp only [merge_entry]
      omega)
    hi0 hused (fun k hk => hnew k (by rw [hfull]; exact hk))
  rcases g4 with ⟨_, _, _, b4⟩ | ⟨b1, _⟩
  · rw [hl] at b4
    exact absurd b4 (by simp)
  · exact b1

set_option maxRecDepth 100000 in
/-- C12, at the one-colour source `exNewColour` merged into the full palette
`exFullOpaque`. -/
theorem overflow_returns_zero_witness :
    (exNewColour.ncol ≤ 256 ∧ exFullOpaque.ncol = 256 ∧
      (∀ k, k < exFullOpaque.ncol → (exFullOpaque.col k).haspixel ≠ 2) ∧
      (∀ k, k < exNewColour.ncol → (exNewColour.col k).pixel = 256) ∧
      0 < exNewColour.ncol ∧ (exNewColour.col 0).haspixel = 1 ∧
      (∀ k, k < exFullOpaque.ncol → ¬ sameRGB (exFullOpaque.col k) (exNewColour.col 0))) ∧
    ∃ r, merge_colormap_if_possible exFullOpaque exNewColour = .ok r ∧ r.ret = 0 :=
  ⟨⟨by decide, by decide, by decide, by decide, by decide, by decide, by decide⟩,
    overflow_returns_zero exFullOpaque exNewColour 0 (by decide) (by decide) (by decide)
      (by decide) (by decide) (by decide) (by decide)⟩


/-! ## Counting entries in source order -/
theorem countBelow_le_succ (p : Nat → Bool) (n : Nat) :
    countBelow p n ≤ countBelow p (n + 1) := by
  simp only [countBelow]
  omega

theorem countBelow_mono (p : Nat → Bool) {a b : Nat} (h : a ≤ b) :
    countBelow p a ≤ countBelow p b := by
  induction b with
  | zero =>
    have : a = 0 := by omega
    rw [this]
  | succ b ih =>
    by_cases hab : a = b + 1
    · rw [hab]
    · exact le_trans (ih (by omega)) (countBelow_le_succ p b)

theorem countBelow_le (p : Nat → Bool) (n : Nat) : countBelow p n ≤ n := by
  induction n with
  | zero => simp [countBelow]
  | succ n ih =>
    simp only [countBelow]
    split <;> omega

theorem countBelow_lt (p : Nat → Bool) {a b : Nat} (h : a < b) (ha : p a = true) :
    countBelow p a < countBelow p b := by
  have h1 : countBelow p (a + 1) = countBelow p a + 1 := by
    simp [countBelow, ha]
  have h2 := countBelow_mono p (show a + 1 ≤ b by omega)
  omega

theorem countBelow_congr (p q : Nat → Bool) (n : Nat) (h : ∀ k, k < n → p k = q k) :
    countBelow p n = countBelow q n := by
  induction n with
  | zero => rfl
  | succ n ih =>
    simp only [countBelow]
    rw [ih (fun k hk => h k (by omega)), h n (by omega)]

theorem countBelow_onto (p : Nat → Bool) (n x : Nat) (h : x < countBelow p n) :
    ∃ k, k < n ∧ p k = true ∧ countBelow p k = x := by
  induction n with
  | zero => simp [countBelow] at h
  | succ n ih =>
    by_cases hx : x < countBelow p n
    · obtain ⟨k, h1, h2, h3⟩ := ih hx
      exact ⟨k, by omega, h2, h3⟩
    · simp only [countBelow] at h
      by_cases hp : p n = true
      · refine ⟨n, by omega, hp, ?_⟩
        simp only [hp, if_true] at h
        omega
      · simp only [hp] at h
        simp at h
        omega

/-- The loop that fills the fallback local colormap gives the marked entries
the indices 0, 1, 2, ... in source order. -/
theorem local_colormap_loop_rank (c0 : Nat → Gif_Color) :
    ∀ (n i : Nat) (s : LocalState),
      (∀ k, i ≤ k → s.imagecol k = c0 k) → s.ncol = countBelow (isMarked c0) i →
      (∀ k, k < i → (c0 k).haspixel ≠ 0 →
        (s.imagecol k).pixel = countBelow (isMarked c0) k) →
      (local_colormap_loop n i s).ncol = countBelow (isMarked c0) (i + n) ∧
      ∀ k, k < i + n → (c0 k).haspixel ≠ 0 →
        ((local_colormap_loop n i s).imagecol k).pixel = countBelow (isMarked c0) k := by
  intro n
  induction n with
  | zero =>
    intro i s _ h2 h3
    exact ⟨h2, h3⟩
  | succ n ih =>
    intro i s h1 h2 h3
    unfold local_colormap_loop
    have hadd : i + (n + 1) = (i + 1) + n := by omega
    rw [hadd]
    have hci : s.imagecol i = c0 i := h1 i (le_refl _)
    by_cases h0 : (s.imagecol i).haspixel ≠ 0
    · rw [if_pos h0]
      have hm : isMarked c0 i = true := by
        rw [hci] at h0
        simpa [isMarked] using h0
      apply ih
      · intro k hk
        have hki : k ≠ i := by omega
        simpa [store_other _ _ _ _ hki] using h1 k (by omega)
      · simp [countBelow, hm, h2]
      · intro k hk hk0
        by_cases hki : k = i
        · subst hki
          simp [h2]
        · simpa [store_other _ _ _ _ hki] using h3 k (by omega) hk0
    · rw [if_neg h0]
      have hm : ¬ isMarked c0 i = true := by
        rw [hci] at h0
        simpa [isMarked] using h0
      apply ih
      · intro k hk
        exact h1 k (by omega)
      · simp [countBelow, hm, h2]
      · intro k hk hk0
        by_cases hki : k = i
        · subst hki
          rw [hci] at h0
          exact absurd hk0 h0
        · exact h3 k (by omega) hk0


/-- After a failed merge the private palette has one entry for every marked
source entry, at the index that counts the marked entries before it. -/
theorem local_colormap_rank (mr : MergeResult) (h0 : mr.ret = 0) :
    (dest_colormap mr).ncol = countBelow (isMarked mr.src.col) mr.src.ncol ∧
    ∀ k, k < mr.src.ncol → (mr.src.col k).haspixel ≠ 0 →
      ((local_colormap mr).1.col k).pixel = countBelow (isMarked mr.src.col) k := by
  obtain ⟨g1, g2⟩ := local_colormap_loop_rank mr.src.col mr.src.ncol 0
    { imagecol := mr.src.col, localcol := (Gif_NewFullColormap 0 256).col, ncol := 0 }
    (fun _ _ => rfl) rfl (fun k hk => absurd hk (Nat.not_lt_zero k))
  simp only [Nat.zero_add] at g1 g2
  have hl : local_colormap mr =
      ({ mr.src with col := (local_colormap_loop mr.src.ncol 0
            { imagecol := mr.src.col, localcol := (Gif_NewFullColormap 0 256).col,
              ncol := 0 }).imagecol },
        some { ncol := (local_colormap_loop mr.src.ncol 0
            { imagecol := mr.src.col, localcol := (Gif_NewFullColormap 0 256).col,
              ncol := 0 }).ncol,
               col := (local_colormap_loop mr.src.ncol 0
            { imagecol := mr.src.col, localcol := (Gif_NewFullColormap 0 256).col,
              ncol := 0 }).localcol }) := by
    simp only [local_colormap]
    rw [if_pos h0]
  refine ⟨?_, ?_⟩
  · simp only [dest_colormap, hl]
    exact g1
  · intro k hk hk0
    rw [hl]
    exact g2 k hk hk0

/-- After a failed merge the decision on the transparent index appends nothing
to the private palette: the slot of the dedicated-transparent entry is free. -/
theorem fallback_no_append {dest src : Gif_Stream} {srci : Gif_Image}
    {destglobal imagecm : Gif_Colormap} {r : ImageResult} {mr : MergeResult}
    {destcm1 : Gif_Colormap} {m : MapState}
    (h : Run dest src srci destglobal imagecm r mr destcm1 m) (hs : imagecm.ncol ≤ 256)
    (hd : destglobal.ncol ≤ 256) (h0 : mr.ret = 0) : destcm1 = dest_colormap mr := by
  obtain ⟨hmk, hr, hfin⟩ := h.facts hs hd
  by_cases ht0 : 0 ≤ (mark_used_colors srci imagecm).1.transparent
  · have hs1 : (mark_used_colors srci imagecm).2.ncol ≤ 256 := by rw [hmk.ncol]; exact hs
    have hN : (local_colormap mr).1.ncol ≤ 256 := by rw [hr.ncol]; exact hs1
    obtain ⟨_, t2, _, t4⟩ := marked_transparent srci imagecm hs ht0
    have t2' : (mark_used_colors srci imagecm).1.transparent.toNat <
        (mark_used_colors srci imagecm).2.ncol := by rw [hmk.ncol]; exact t2
    have htn : (mark_used_colors srci imagecm).1.transparent.toNat <
        (local_colormap mr).1.ncol := by rw [hr.ncol]; exact t2'
    have hhp : ((local_colormap mr).1.col
        (mark_used_colors srci imagecm).1.transparent.toNat).haspixel = 2 := by
      rw [hr.hp]; exact t4
    have htr := h.transp
    rcases decide_transparent_spec _ (local_colormap mr).1 (dest_colormap mr) hN hr.cap ht0 htn
      hhp with ⟨_, c2⟩ | ⟨_, p, _, _, _, c5⟩ | ⟨_, _, c3, _⟩
    · rw [c2] at htr
      injection htr with htr
      injection htr with hd1 _
      exact hd1.symm
    · rw [c5] at htr
      injection htr with htr
      injection htr with hd1 _
      exact hd1.symm
    · exfalso
      obtain ⟨ls1, _⟩ := hr.local_slot h0 _ t2' (by rw [t4]; decide)
      have hu := c3 _ ls1
      rw [(create_map_spec (local_colormap mr).1).2.1] at hu
      obtain ⟨k, hk1, hk2, hk3⟩ := hu
      rw [hr.ncol] at hk1
      rw [hr.hp] at hk2
      have hsl := hr.slot k hk1 hk2
      have hcap := hr.cap
      rw [Nat.mod_eq_of_lt (by omega)] at hk3
      have hk0 : ((mark_used_colors srci imagecm).2.col k).haspixel ≠ 0 := by rw [hk2]; decide
      have ht0' : ((mark_used_colors srci imagecm).2.col
          (mark_used_colors srci imagecm).1.transparent.toNat).haspixel ≠ 0 := by
        rw [t4]; decide
      rcases Nat.lt_trichotomy k (mark_used_colors srci imagecm).1.transparent.toNat with
        hlt | heq | hgt
      · have := hr.local_mono h0 k _ hlt t2' hk0 ht0'
        omega
      · rw [heq, t4] at hk2
        omega
      · have := hr.local_mono h0 _ k hgt hk1 ht0' hk0
        omega
  · exact hfin.no_transparent (by omega)

set_option maxRecDepth 100000 in
/-- C11 as stated fails: the frame `[0, 2]` with transparent index 2 cannot
share the full destination palette; its governing palette has one entry tagged
used, yet the private palette of the output frame has two entries, the second
being the entry tagged dedicated-transparent. -/
theorem fallback_palette_counterexample :
    ∃ r mr l cm, merge_image exDestFull exSrc exFrame = .ok r ∧
      merge_colormap_if_possible exFullOpaque (mark_used_colors exFrame exPalette).2 = .ok mr ∧
      mr.ret = 0 ∧ r.desti.«local» = some l ∧ governing r.src r.srci = some cm ∧
      countBelow (isUsed cm.col) cm.ncol = 1 ∧ l.ncol = 2 ∧
      (cm.col 2).haspixel = 2 ∧ l.col 1 = cm.col 2 ∧
      ¬ (l.ncol = countBelow (isUsed cm.col) cm.ncol) :=
  ⟨_, _, _, _, rfl, rfl, by decide, rfl, rfl, by decide, by decide, by decide, by decide,
    by decide⟩

/-- C11, amended. When `merge_colormap_if_possible` fails in a call of
`merge_image` (palettes of at most 256 entries), the private palette attached
to the output frame contains exactly the entries of the governing source
palette whose usage is not unused, that is the used entries and the
dedicated-transparent entry, in source index order, re-indexed densely from 0
with no gaps, and its count is the number of such entries. -/
theorem fallback_palette_contents (dest src : Gif_Stream) (srci : Gif_Image)
    (destglobal imagecm : Gif_Colormap) (mr : MergeResult) (hg : dest.global = some destglobal)
    (hi : governing src srci = some imagecm) (hs : imagecm.ncol ≤ 256)
    (hd : destglobal.ncol ≤ 256)
    (hmr : merge_colormap_if_possible destglobal (mark_used_colors srci imagecm).2 = .ok mr)
    (h0 : mr.ret = 0) :
    ∃ r cm l, merge_image dest src srci = .ok r ∧ governing r.src r.srci = some cm ∧
      r.desti.«local» = some l ∧ cm.ncol = imagecm.ncol ∧
      (∀ k, sameRGB (cm.col k) (imagecm.col k)) ∧
      (∀ k, k < cm.ncol → (cm.col k).haspixel = usage_by_full_scan srci k) ∧
      l.ncol = countBelow (isMarked cm.col) cm.ncol ∧
      (∀ k, k < cm.ncol → (cm.col k).haspixel ≠ 0 →
        l.col (countBelow (isMarked cm.col) k) = cm.col k) ∧
      (∀ p, p < l.ncol →
        ∃ k, k < cm.ncol ∧ (cm.col k).haspixel ≠ 0 ∧ countBelow (isMarked cm.col) k = p) := by
  obtain ⟨r, mr2, destcm1, m, hrun⟩ :=
    merge_image_run dest src srci destglobal imagecm hg hi hs hd
  have hmm : mr2 = mr := by
    have := hrun.merge
    rw [hmr] at this
    injection this with this
    exact this.symm
  subst hmm
  obtain ⟨hmk, hr, hfin⟩ := hrun.facts hs hd
  have happ := fallback_no_append hrun hs hd h0
  subst happ
  obtain ⟨rk1, rk2⟩ := local_colormap_rank mr2 h0
  have hf := hrun.mfacts
  -- the tags of the three colormaps agree
  have hcongr : ∀ n, countBelow (isMarked mr2.src.col) n =
      countBelow (isMarked (local_colormap mr2).1.col) n := by
    intro n
    apply countBelow_congr
    intro k _
    simp only [isMarked, hr.hp, hf.src_hp]
  have hncol : (local_colormap mr2).1.ncol = imagecm.ncol := by rw [hr.ncol, hmk.ncol]
  refine ⟨r, (local_colormap mr2).1, dest_colormap mr2, hrun.call, hrun.src_governing, ?_, hncol,
    ?_, ?_, ?_, ?_, ?_⟩
  · rw [hrun.desti_local, if_pos h0]
  · intro k
    exact sameRGB_trans (hr.rgb k) (hmk.rgb k)
  · intro k hk
    rw [hr.hp, hmk.hp k (by rw [← hncol]; exact hk)]
    rfl
  · rw [rk1, hf.src_ncol, hr.ncol, hcongr]
  · intro k hk hk0
    rw [hr.ncol] at hk
    rw [hr.hp] at hk0
    have hsl := (hr.local_slot h0 k hk hk0).2
    rw [rk2 k (by rw [hf.src_ncol]; exact hk) (by rw [hf.src_hp]; exact hk0), hcongr] at hsl
    exact hsl
  · intro p hp
    obtain ⟨k, k1, k2, k3⟩ := hr.local_onto h0 p hp
    refine ⟨k, by rw [hr.ncol]; exact k1, by rw [hr.hp]; exact k2, ?_⟩
    rw [← hcongr, ← rk2 k (by rw [hf.src_ncol]; exact k1) (by rw [hf.src_hp]; exact k2)]
    exact k3

set_option maxRecDepth 100000 in
/-- C11 amended, at the frame `[0, 2]` with transparent index 2 and the full
destination palette `exFullOpaque`. -/
theorem fallback_palette_contents_witness :
    ∃ mr, (exDestFull.global = some exFullOpaque ∧ governing exSrc exFrame = some exPalette ∧
        exPalette.ncol ≤ 256 ∧ exFullOpaque.ncol ≤ 256 ∧
        merge_colormap_if_possible exFullOpaque (mark_used_colors exFrame exPalette).2 = .ok mr ∧
        mr.ret = 0) ∧
      ∃ r cm l, merge_image exDestFull exSrc exFrame = .ok r ∧
        governing r.src r.srci = some cm ∧ r.desti.«local» = some l ∧
        cm.ncol = exPalette.ncol ∧ (∀ k, sameRGB (cm.col k) (exPalette.col k)) ∧
        (∀ k, k < cm.ncol → (cm.col k).haspixel = usage_by_full_scan exFrame k) ∧
        l.ncol = countBelow (isMarked cm.col) cm.ncol ∧
        (∀ k, k < cm.ncol → (cm.col k).haspixel ≠ 0 →
          l.col (countBelow (isMarked cm.col) k) = cm.col k) ∧
        (∀ p, p < l.ncol →
          ∃ k, k < cm.ncol ∧ (cm.col k).haspixel ≠ 0 ∧ countBelow (isMarked cm.col) k = p) :=
  ⟨_, ⟨rfl, rfl, by decide, by decide, rfl, by decide⟩,
    fallback_palette_contents exDestFull exSrc exFrame exFullOpaque exPalette _ rfl rfl
      (by decide) (by decide) rfl (by decide)⟩


/-- Merging into an empty destination a source of at most 256 entries, none
tagged dedicated-transparent, without cached slots and whose used entries have
pairwise different RGB: the loop ends normally, every used entry is appended,
in source order. -/
theorem merge_colormap_loop_empty (s0 : MergeState) (N : Nat) (hN : N ≤ 256)
    (h0 : s0.ndestcol = 0) (hpix : ∀ k, k < N → 256 ≤ (s0.srccol k).pixel)
    (hno2 : ∀ k, k < N → (s0.srccol k).haspixel ≠ 2)
    (hdist : ∀ a b, a < N → b < N → (s0.srccol a).haspixel = 1 → (s0.srccol b).haspixel = 1 →
      sameRGB (s0.srccol a) (s0.srccol b) → a = b) :
    match merge_colormap_loop N 0 s0 with
    | .next s => s.ndestcol = countBelow (isUsed s0.srccol) N ∧
        ∀ k, k < N → (s0.srccol k).haspixel = 1 →
          (s.srccol k).pixel = countBelow (isUsed s0.srccol) k ∧
          sameRGB (s.destcol (countBelow (isUsed s0.srccol) k)) (s0.srccol k)
    | .return0 _ => False
    | .assert_failed => False := by
  have h := merge_colormap_loop_rule
    (fun i s => Basic s0 N i s ∧ s.ndestcol = countBelow (isUsed s0.srccol) i ∧
      ∀ k, k < i → (s0.srccol k).haspixel = 1 →
        (s.srccol k).pixel = countBelow (isUsed s0.srccol) k ∧
        sameRGB (s.destcol (countBelow (isUsed s0.srccol) k)) (s0.srccol k))
    (fun _ => False) N
    (by
      intro i s hi ⟨hB, hnd, hsl⟩
      have hci : s.srccol i = s0.srccol i := hB.rest i (le_refl _)
      have hpi : 256 ≤ (s.srccol i).pixel := by rw [hci]; exact hpix i hi
      have hcle := countBelow_le (isUsed s0.srccol) i
      have hskip : (s.srccol i).haspixel ≠ 1 →
          countBelow (isUsed s0.srccol) (i + 1) = countBelow (isUsed s0.srccol) i := by
        intro hne
        rw [hci] at hne
        simp [countBelow, isUsed, hne]
      have hold : (s.srccol i).haspixel ≠ 1 →
          ∀ k, k < i + 1 → (s0.srccol k).haspixel = 1 →
            (s.srccol k).pixel = countBelow (isUsed s0.srccol) k ∧
            sameRGB (s.destcol (countBelow (isUsed s0.srccol) k)) (s0.srccol k) := by
        intro hne k hk hk1
        by_cases hki : k = i
        · subst hki
          rw [hci] at hne
          exact absurd hk1 hne
        · exact hsl k (by omega) hk1
      rcases merge_colormap_body_cases i s with
        ⟨a1, _, a3⟩ | ⟨a1, _, _, _⟩ | ⟨a1, _, a3⟩ | ⟨_, _, _, a4, _⟩ | ⟨a1, d, nd, m, a2, a3⟩
      · rw [a3]
        exact ⟨hB.weaken a1, by rw [hskip a1]; exact hnd, hold a1⟩
      · rw [hci] at a1
        exact absurd a1 (hno2 i hi)
      · rw [hci] at a1
        exact absurd a1 (hno2 i hi)
      · omega
      · rw [a3]
        have hu : isUsed s0.srccol i = true := by
          rw [hci] at a1
          simp [isUsed, a1]
        have hnext : countBelow (isUsed s0.srccol) (i + 1) =
            countBelow (isUsed s0.srccol) i + 1 := by
          simp [countBelow, hu]
        rcases a2 with ⟨b1, _⟩ | ⟨_, b2, b3, _⟩ | ⟨_, _, _, b4, b5, b6⟩ | ⟨_, b2, _⟩
        · omega
        · -- an exact match would be an earlier used entry of the same colour
          exfalso
          rw [hnd] at b2
          obtain ⟨k, k1, k2, k3⟩ := countBelow_onto _ _ _ b2
          have hk1 : (s0.srccol k).haspixel = 1 := by simpa [isUsed] using k2
          have hc := (hsl k k1 hk1).2
          rw [k3] at hc
          rw [hci] at b3 a1
          have := hdist k i (by omega) hi hk1 a1 (sameRGB_trans (sameRGB_symm hc) b3)
          omega
        · refine ⟨hB.mapped a1 (Or.inr (Or.inr (Or.inl ⟨by omega, by omega, by assumption, b4,
            b5, b6⟩))), ?_, ?_⟩
          · simp only [mapped_state, b6, hnd, hnext]
          · intro k hk hk1
            by_cases hki : k = i
            · subst hki
              simp only [mapped_state, store_same, b4, hnd, b5]
              refine ⟨trivial, ?_⟩
              rw [← hci]
              simp [sameRGB]
            · obtain ⟨e1, e2⟩ := hsl k (by omega) hk1
              have hlt : countBelow (isUsed s0.srccol) k < countBelow (isUsed s0.srccol) i :=
                countBelow_lt _ (by omega) (by simp [isUsed, hk1])
              have hne : countBelow (isUsed s0.srccol) k ≠ s.ndestcol := by omega
              simp only [mapped_state, store_other _ _ _ _ hki, b4, b5,
                store_other _ _ _ _ hne]
              exact ⟨e1, e2⟩
        · omega)
    N 0 s0 (by omega)
    ⟨Basic.at_entry s0 N, by simpa [countBelow] using h0,
      fun k hk => absurd hk (Nat.not_lt_zero k)⟩
  cases hl : merge_colormap_loop N 0 s0 with
  | next s =>
    rw [hl] at h
    simp only [Nat.zero_add] at h
    exact h.2
  | return0 s =>
    rw [hl] at h
    exact h
  | assert_failed =>
    rw [hl] at h
    exact h


/-- C13 as stated fails: the frame `[1, 1]`, which uses the one entry 1 of a
palette of three distinct colours, merged into an empty shared palette, gets
its colour at slot 0; `map[1]` is 0, `trivial_map` ends false and the output
bytes are `[0, 0]`, not the input bytes. -/
theorem merge_into_empty_counterexample :
    ∃ r g, merge_image exDest exSrc exSecond = .ok r ∧
      exEmpty.ncol = 0 ∧ (∀ k, k < exPalette.ncol → (exPalette.col k).pixel = 256) ∧
      validPixels exSecond exPalette.ncol ∧ exSecond.transparent = -1 ∧
      (∀ a, a < exPalette.ncol → ∀ b, b < exPalette.ncol →
        sameRGB (exPalette.col a) (exPalette.col b) → a = b) ∧
      r.desti.«local» = none ∧ r.dest.global = some g ∧ g.ncol = 1 ∧
      r.map 1 = 0 ∧ r.trivial_map = false ∧
      exSecond.pixelAt 0 0 = 1 ∧ r.desti.pixelAt 0 0 = 0 ∧
      ¬ (∀ j, j < exSecond.height → ∀ i, i < exSecond.width →
          r.desti.pixelAt j i = exSecond.pixelAt j i) :=
  ⟨_, _, rfl, by decide, by decide, by decide, by decide, by decide, rfl, rfl, by decide,
    by decide, by decide, by decide, by decide, by decide⟩

/-- C13, amended. For a destination whose shared palette is empty and a frame
without transparent index whose governing palette (at most 256 entries, no slot
cached) has pairwise RGB-distinct used entries, `merge_image` returns without a
private palette, and the destination shared palette afterwards has as many
entries as the frame uses and holds exactly those colours in source order.
When the used entries are the first ones of the source palette (each used
index equals the number of used indices below it), `trivial_map` is true and
the output pixel buffer equals the input pixel buffer. -/
theorem merge_into_empty (dest src : Gif_Stream) (srci : Gif_Image)
    (destglobal imagecm : Gif_Colormap) (hg : dest.global = some destglobal)
    (hi : governing src srci = some imagecm) (hs : imagecm.ncol ≤ 256)
    (h0 : destglobal.ncol = 0)
    (hpix : ∀ k, k < imagecm.ncol → (imagecm.col k).pixel = 256)
    (hnt : srci.transparent < 0)
    (hdist : ∀ a, a < imagecm.ncol → ∀ b, b < imagecm.ncol → occurs srci a → occurs srci b →
      sameRGB (imagecm.col a) (imagecm.col b) → a = b) :
    ∃ r g, merge_image dest src srci = .ok r ∧ r.desti.«local» = none ∧
      r.dest.global = some g ∧
      g.ncol = countBelow (occursIn srci) imagecm.ncol ∧
      (∀ k, k < imagecm.ncol → occurs srci k →
        sameRGB (g.col (countBelow (occursIn srci) k)) (imagecm.col k)) ∧
      (∀ p, p < g.ncol →
        ∃ k, k < imagecm.ncol ∧ occurs srci k ∧ countBelow (occursIn srci) k = p) ∧
      ((∀ k, k < imagecm.ncol → occurs srci k → countBelow (occursIn srci) k = k) →
        r.trivial_map = true ∧
        ∀ j, j < srci.height → ∀ i, i < srci.width →
          r.desti.pixelAt j i = srci.pixelAt j i) := by
  have hd : destglobal.ncol ≤ 256 := by omega
  obtain ⟨r, mr, destcm1, m, hrun⟩ := merge_image_run dest src srci destglobal imagecm hg hi hs hd
  obtain ⟨hmk, hr, hfin⟩ := hrun.facts hs hd
  -- the tags after the analysis: used exactly where the byte occurs
  have htag : ∀ k, k < imagecm.ncol →
      ((mark_used_colors srci imagecm).2.col k).haspixel = if occurs srci k then 1 else 0 := by
    intro k hk
    rw [hmk.hp k hk]
    have hne : (k : Int) ≠ srci.transparent := by omega
    simp only [hne, if_false]
  have hcongr : ∀ n, n ≤ imagecm.ncol →
      countBelow (isUsed (mark_used_colors srci imagecm).2.col) n =
        countBelow (occursIn srci) n := by
    intro n hn
    apply countBelow_congr
    intro k hk
    simp only [isUsed, occursIn, htag k (by omega)]
    by_cases ho : occurs srci k <;> simp [ho]
  have hused : ∀ k, k < imagecm.ncol →
      (((mark_used_colors srci imagecm).2.col k).haspixel = 1 ↔ occurs srci k) := by
    intro k hk
    rw [htag k hk]
    by_cases ho : occurs srci k <;> simp [ho]
  -- the merge loop
  have hloop := merge_colormap_loop_empty
    (merge_entry destglobal (mark_used_colors srci imagecm).2)
    (mark_used_colors srci imagecm).2.ncol (by rw [hmk.ncol]; exact hs) h0
    (by
      intro k hk
      rw [hmk.ncol] at hk
      simp only [merge_entry]
      rw [hmk.pixel, hpix k hk])
    (by
      intro k hk
      rw [hmk.ncol] at hk
      simp only [merge_entry]
      rw [htag k hk]
      split <;> decide)
    (by
      intro a b ha hb ha1 hb1 hab
      rw [hmk.ncol] at ha hb
      simp only [merge_entry] at ha1 hb1 hab
      exact hdist a ha b hb ((hused a ha).1 ha1) ((hused b hb).1 hb1)
        (sameRGB_trans (sameRGB_symm (hmk.rgb a)) (sameRGB_trans hab (hmk.rgb b))))
  obtain ⟨r2, s, i, g1, g2, g3, g4, _⟩ :=
    merge_colormap_if_possible_basic destglobal (mark_used_colors srci imagecm).2
  rw [hrun.merge] at g1
  have hrr : mr = r2 := by injection g1
  subst hrr
  rcases g4 with ⟨b1, b2, _, b4⟩ | ⟨_, _, _, b4⟩
  swap
  · rw [b4] at hloop
    exact hloop.elim
  rw [b4] at hloop
  simp only [merge_entry] at hloop
  obtain ⟨l1, l2⟩ := hloop
  obtain ⟨q1, q2, q3⟩ := hr.is_global b1
  have htneg : (mark_used_colors srci imagecm).1.transparent < 0 := by
    rw [hmk.image]
    simp only
    split <;> omega
  have hout := hfin.no_transparent htneg
  rw [q2] at hout
  subst hout
  have hcnt : mr.dest.ncol = countBelow (occursIn srci) imagecm.ncol := by
    rw [b2, l1, hmk.ncol, hcongr _ (le_refl _)]
  have hsrccol : mr.src.col = s.srccol := by rw [g2]
  refine ⟨r, mr.dest, hrun.call, ?_, ?_, hcnt, ?_, ?_, ?_⟩
  · rw [hrun.desti_local, if_neg (by omega)]
  · rw [hrun.dest_global, if_neg (by omega)]
  · intro k hk ho
    have := (l2 k (by rw [hmk.ncol]; exact hk) ((hused k hk).2 ho)).2
    rw [hcongr k (by omega)] at this
    rw [g3]
    exact sameRGB_trans this (hmk.rgb k)
  · intro p hp
    rw [hcnt] at hp
    obtain ⟨k, k1, k2, k3⟩ := countBelow_onto _ _ _ hp
    refine ⟨k, k1, ?_, k3⟩
    simpa [occursIn] using k2
  · intro hpre
    have htr : m.trivial_map = true := by
      have htp := hrun.transp
      rw [decide_transparent_none _ _ _ _ htneg] at htp
      injection htp with htp
      injection htp with _ hm
      rw [← hm, q3]
      rw [(create_map_spec mr.src).2.2]
      intro k hk hk1
      rw [hrun.mfacts.src_ncol, hmk.ncol] at hk
      rw [hrun.mfacts.src_hp] at hk1
      have ho := (hused k hk).1 hk1
      have hp := (l2 k (by rw [hmk.ncol]; exact hk) hk1).1
      rw [hcongr k (by omega), hpre k hk ho] at hp
      rw [hsrccol, hp]
      exact Nat.mod_eq_of_lt (by omega)
    refine ⟨by rw [hrun.trivial]; exact htr, ?_⟩
    intro j hj i hi2
    rw [hrun.pixelAt hs hd j i hj hi2, if_pos htr]

/-- C13 amended, at the frame `[0, 1]`, which uses the first two entries of a
palette of three distinct colours, merged into an empty shared palette. -/
theorem merge_into_empty_witness :
    (exDest.global = some exEmpty ∧ governing exSrc exBoth = some exPalette ∧
      exPalette.ncol ≤ 256 ∧ exEmpty.ncol = 0 ∧
      (∀ k, k < exPalette.ncol → (exPalette.col k).pixel = 256) ∧
      exBoth.transparent < 0 ∧
      (∀ a, a < exPalette.ncol → ∀ b, b < exPalette.ncol → occurs exBoth a → occurs exBoth b →
        sameRGB (exPalette.col a) (exPalette.col b) → a = b)) ∧
    ∃ r g, merge_image exDest exSrc exBoth = .ok r ∧ r.desti.«local» = none ∧
      r.dest.global = some g ∧
      g.ncol = countBelow (occursIn exBoth) exPalette.ncol ∧
      (∀ k, k < exPalette.ncol → occurs exBoth k →
        sameRGB (g.col (countBelow (occursIn exBoth) k)) (exPalette.col k)) ∧
      (∀ p, p < g.ncol →
        ∃ k, k < exPalette.ncol ∧ occurs exBoth k ∧ countBelow (occursIn exBoth) k = p) ∧
      ((∀ k, k < exPalette.ncol → occurs exBoth k → countBelow (occursIn exBoth) k = k) →
        r.trivial_map = true ∧
        ∀ j, j < exBoth.height → ∀ i, i < exBoth.width →
          r.desti.pixelAt j i = exBoth.pixelAt j i) :=
  ⟨⟨rfl, rfl, by decide, by decide, by decide, by decide, by decide⟩,
    merge_into_empty exDest exSrc exBoth exEmpty exPalette rfl rfl (by decide) (by decide)
      (by decide) (by decide) (by decide)⟩


end Gifsicle
